import Mathlib

/-!
# Verification of `parser/operation.go` (swagger annotation parser)

A shallow embedding of the directive parsers of `Operation`
(`ParseComment`, `ParseRouterComment`, `ParseParamComment`, `ParseAcceptComment`,
`ParseFailureComment`, `ParseSuccessComment`, `SetItemsType`, `NewOperation`) and
theorems about them.

## Modelling conventions

* A Go `string` is an immutable sequence of bytes: `GoString := List Nat`
  (each element a byte value).  Text is UTF-8 encoded; `utf8` turns a Lean
  string literal into its bytes.
* Library functions that look at *runes* (`unicode.IsSpace`, `strings.TrimSpace`,
  `for i, r := range s`, `regexp`) decode the bytes the way the Go runtime does:
  an ill-formed byte decodes to `RuneError` (U+FFFD) of width 1.
* A method that mutates `*Operation` and returns `error` becomes a function
  `Operation → ... → Outcome`: the operation as the call leaves it together with
  how the call ended (returned `nil`, returned an error, or panicked).
* Declarations of package `parser` that live outside `operation.go`
  (`IsBasicType`, `Model.ParseModel`, the `ContentType*` constants) and the
  platform facts (`strconv.IntSize`, the Unicode case tables) are taken as
  parameters, collected in `Env`.
-/

namespace Swagger

/-! ## Go strings and UTF-8 -/

/-- A Go string: a sequence of bytes. -/
abbrev GoString := List Nat

/-- The value `utf8.RuneError` (U+FFFD). -/
def RuneError : Nat := 0xFFFD

/-- Go `utf8.EncodeRune` / `string(rune)`: the UTF-8 bytes of a rune; surrogates and
values above U+10FFFF are encoded as `RuneError`. -/
def encodeRune (r : Nat) : GoString :=
  if r < 0x80 then [r]
  else if r < 0x800 then [0xC0 + r / 64, 0x80 + r % 64]
  else if (0xD800 ≤ r ∧ r ≤ 0xDFFF) ∨ 0x10FFFF < r then [0xEF, 0xBF, 0xBD]
  else if r < 0x10000 then [0xE0 + r / 4096, 0x80 + r / 64 % 64, 0x80 + r % 64]
  else [0xF0 + r / 262144, 0x80 + r / 4096 % 64, 0x80 + r / 64 % 64, 0x80 + r % 64]

/-- The bytes of a string literal (its UTF-8 encoding). -/
def utf8 (s : String) : GoString :=
  s.toList.flatMap fun c => encodeRune c.toNat

/-- A UTF-8 continuation byte (`0x80..0xBF`). -/
def isCont (b : Nat) : Bool := 0x80 ≤ b && b ≤ 0xBF

/-- The rest of `utf8.DecodeRuneInString` for a lead byte `s0` of a two-byte
sequence (`0xC2..0xDF`). -/
def decode2 (s0 : Nat) : GoString → Nat × Nat
  | s1 :: _ => if isCont s1 then ((s0 - 0xC0) * 64 + (s1 - 0x80), 2) else (RuneError, 1)
  | [] => (RuneError, 1)

/-- The rest of `utf8.DecodeRuneInString` for a lead byte `s0` of a three-byte
sequence (`0xE0..0xEF`); the second byte is at least `0xA0` after `0xE0` (no overlong
form) and at most `0x9F` after `0xED` (no surrogate). -/
def decode3 (s0 : Nat) : GoString → Nat × Nat
  | s1 :: s2 :: _ =>
    if (if s0 = 0xE0 then 0xA0 else 0x80) ≤ s1 ∧ s1 ≤ (if s0 = 0xED then 0x9F else 0xBF) then
      if isCont s2 then ((s0 - 0xE0) * 4096 + (s1 - 0x80) * 64 + (s2 - 0x80), 3)
      else (RuneError, 1)
    else (RuneError, 1)
  | _ => (RuneError, 1)

/-- The rest of `utf8.DecodeRuneInString` for a lead byte `s0` of a four-byte
sequence (`0xF0..0xF4`); the second byte is at least `0x90` after `0xF0` (no overlong
form) and at most `0x8F` after `0xF4` (nothing above U+10FFFF). -/
def decode4 (s0 : Nat) : GoString → Nat × Nat
  | s1 :: s2 :: s3 :: _ =>
    if (if s0 = 0xF0 then 0x90 else 0x80) ≤ s1 ∧ s1 ≤ (if s0 = 0xF4 then 0x8F else 0xBF) then
      if isCont s2 then
        if isCont s3 then
          ((s0 - 0xF0) * 262144 + (s1 - 0x80) * 4096 + (s2 - 0x80) * 64 + (s3 - 0x80), 4)
        else (RuneError, 1)
      else (RuneError, 1)
    else (RuneError, 1)
  | _ => (RuneError, 1)

/-- Go `utf8.DecodeRuneInString`: the first rune of `s` and its width in bytes.
An empty string gives `(RuneError, 0)`, an ill-formed or truncated sequence
`(RuneError, 1)`. -/
def decodeRune : GoString → Nat × Nat
  | [] => (RuneError, 0)
  | s0 :: t =>
    if s0 < 0x80 then (s0, 1)
    else if s0 < 0xC2 then (RuneError, 1)
    else if s0 < 0xE0 then decode2 s0 t
    else if s0 < 0xF0 then decode3 s0 t
    else if s0 < 0xF5 then decode4 s0 t
    else (RuneError, 1)

/-- One step of `for i, r := range s`: the rune decoded at a position and the bytes
it occupies. -/
structure Seg where
  rune : Nat
  bytes : GoString
deriving DecidableEq, Repr

/-- The runes of a string in order, each with the bytes it was decoded from: what
`for _, r := range s` iterates over.  `skip` counts bytes of the current rune still
to be passed over. -/
def segsAux : Nat → GoString → List Seg
  | _, [] => []
  | k + 1, _ :: t => segsAux k t
  | 0, b :: t => ⟨(decodeRune (b :: t)).1, (b :: t).take (decodeRune (b :: t)).2⟩ ::
      segsAux ((decodeRune (b :: t)).2 - 1) t

/-- The rune segments of a string. -/
def segs (s : GoString) : List Seg := segsAux 0 s

/-- The pairs `(i, r)` of `for i, r := range s`, the byte offset of each rune and the
rune, starting at offset `i`. -/
def rangeFrom : Nat → List Seg → List (Nat × Nat)
  | _, [] => []
  | i, x :: rest => (i, x.rune) :: rangeFrom (i + x.bytes.length) rest

/-- Go `for i, r := range s`. -/
def rangeString (s : GoString) : List (Nat × Nat) := rangeFrom 0 (segs s)

/-- Concatenation of the bytes of a list of segments. -/
def joinSegs (l : List Seg) : GoString := l.flatMap Seg.bytes

/-- The segment of an ASCII byte: the byte stands for itself. -/
def asciiSeg (b : Nat) : Seg := ⟨b, [b]⟩

/-- Go `unicode.IsSpace`: the Latin-1 spaces `\t \n \v \f \r`, space, U+0085, U+00A0,
and the other code points with the Unicode `White_Space` property. -/
def IsSpace (r : Nat) : Bool :=
  (0x09 ≤ r && r ≤ 0x0D) || r = 0x20 || r = 0x85 || r = 0xA0 || r = 0x1680 ||
  (0x2000 ≤ r && r ≤ 0x200A) || r = 0x2028 || r = 0x2029 || r = 0x202F ||
  r = 0x205F || r = 0x3000

/-- A segment whose rune is white space. -/
def spaceSeg (x : Seg) : Bool := IsSpace x.rune

/-- Go `strings.TrimSpace`: `s` without its leading and trailing white-space runes
(`unicode.IsSpace`), the runes being those of the UTF-8 decoding of `s`.  (Go finds the
trailing ones by decoding backwards; a white-space rune is a well-formed sequence, which
starts at a byte that is no continuation byte, and the forward decoding starts a rune at
every such byte, so both directions see the same trailing runes.) -/
def TrimSpace (s : GoString) : GoString :=
  joinSegs (((segs s).dropWhile spaceSeg).rdropWhile spaceSeg)

/-- Go `strings.TrimLeft(s, cutset)` for a cutset of ASCII bytes: drops the leading
bytes that occur in the cutset. -/
def TrimLeft (s cutset : GoString) : GoString :=
  s.dropWhile fun b => cutset.contains b

/-- Go `strings.Trim(s, cutset)` for a cutset of ASCII bytes: drops the leading and
the trailing bytes that occur in the cutset. -/
def Trim (s cutset : GoString) : GoString :=
  (s.dropWhile fun b => cutset.contains b).rdropWhile fun b => cutset.contains b

/-- Go `strings.HasPrefix`. -/
def HasPrefix (s pre : GoString) : Bool := pre.isPrefixOf s

/-- The pieces of `s` between the occurrences of the byte `sep`, in order (one more
piece than there are occurrences). -/
def splitByte (sep : Nat) : GoString → List GoString
  | [] => [[]]
  | b :: t =>
    if b = sep then [] :: splitByte sep t
    else
      match splitByte sep t with
      | [] => [[b]]
      | p :: ps => (b :: p) :: ps

/-- Go `strings.Split(s, sep)` for a one-byte separator: all pieces, at least one. -/
def Split (s : GoString) (sep : Nat) : List GoString := splitByte sep s

/-- Go `strings.SplitN(s, sep, 2)` for a one-byte separator: `s` cut at the first
occurrence of `sep`, or `[s]` when there is none. -/
def SplitN2 (s : GoString) (sep : Nat) : List GoString :=
  if sep ∈ s then [s.takeWhile fun b => b != sep, (s.dropWhile fun b => b != sep).drop 1]
  else [s]

/-- Upper-casing of one ASCII byte. -/
def upperByte (b : Nat) : Nat := if 0x61 ≤ b ∧ b ≤ 0x7A then b - 0x20 else b

/-- Lower-casing of one ASCII byte. -/
def lowerByte (b : Nat) : Nat := if 0x41 ≤ b ∧ b ≤ 0x5A then b + 0x20 else b

/-- Go `strings.ToUpper`: on an ASCII-only string the bytes `a..z` are mapped to
`A..Z`; a string with a non-ASCII byte goes through the Unicode case tables, which
are the parameter `unicodeUpper`. -/
def ToUpper (unicodeUpper : GoString → GoString) (s : GoString) : GoString :=
  if s.all fun b => b < 0x80 then s.map upperByte else unicodeUpper s

/-- Go `strings.ToLower`, in the same way. -/
def ToLower (unicodeLower : GoString → GoString) (s : GoString) : GoString :=
  if s.all fun b => b < 0x80 then s.map lowerByte else unicodeLower s

/-! ## `strconv.Atoi` -/

/-- The `Err` field of a `*strconv.NumError`. -/
inductive NumErr where
  | ErrSyntax
  | ErrRange
deriving DecidableEq, Repr

/-- Go `strconv.ParseUint(s, 10, bitSize)` on the digits read so far (`n`): every
byte must be a decimal digit (else `ErrSyntax`), and the value must stay below
`2 ^ bitSize` (else `ErrRange`, reported at the digit that overflows). -/
def parseDigits (bitSize : Nat) : Nat → GoString → Except NumErr Nat
  | n, [] => .ok n
  | n, b :: t =>
    if 0x30 ≤ b ∧ b ≤ 0x39 then
      if n * 10 + (b - 0x30) < 2 ^ bitSize then parseDigits bitSize (n * 10 + (b - 0x30)) t
      else .error .ErrRange
    else .error .ErrSyntax

/-- Go `strconv.ParseUint(s, 10, bitSize)`. -/
def ParseUint (bitSize : Nat) (s : GoString) : Except NumErr Nat :=
  if s = [] then .error .ErrSyntax else parseDigits bitSize 0 s

/-- The signed part of `strconv.ParseInt`: the magnitude `un` must fit the sign. -/
def signedValue (bitSize : Nat) (neg : Bool) : Except NumErr Nat → Except NumErr Int
  | .error e => .error e
  | .ok un =>
    if !neg && 2 ^ (bitSize - 1) ≤ un then .error .ErrRange
    else if neg && 2 ^ (bitSize - 1) < un then .error .ErrRange
    else .ok (if neg then -(un : Int) else (un : Int))

/-- Go `strconv.Atoi(s)`, that is `ParseInt(s, 10, 0)` with `int` of `bitSize` bits:
an optional sign `+` or `-`, then at least one decimal digit. -/
def Atoi (bitSize : Nat) (s : GoString) : Except NumErr Int :=
  match s with
  | [] => .error .ErrSyntax
  | b :: t =>
    if b = 0x2B then signedValue bitSize false (ParseUint bitSize t)
    else if b = 0x2D then signedValue bitSize true (ParseUint bitSize t)
    else signedValue bitSize false (ParseUint bitSize (b :: t))

/-! ## The fragment of `regexp` used by `ParseParamComment` -/

/-- Regular expressions built from character classes, greedy `+` of a class,
concatenation and numbered capturing groups. -/
inductive Regex where
  | cls (p : Nat → Bool)
  | plus (p : Nat → Bool)
  | seq (a b : Regex)
  | group (i : Nat) (a : Regex)

/-- Greedy `[class]+` followed by the continuation `k`: as many runes as possible
first, giving runes back one at a time while `k` fails. -/
def plusRun {α : Type} (p : Nat → Bool) : List Seg → (List Seg → Option α) → Option α
  | [], _ => none
  | x :: rest, k =>
    if p x.rune then
      match plusRun p rest k with
      | some r => some r
      | none => k rest
    else none

/-- Backtracking match of a regular expression at the start of `input`, with the
leftmost-first preference order that `regexp` (non-POSIX) guarantees.  `caps` holds the
text of the groups closed so far. -/
def Regex.run {α : Type} : Regex → List Seg → List GoString →
    (List Seg → List GoString → Option α) → Option α
  | .cls p, input, caps, k =>
    match input with
    | [] => none
    | x :: rest => if p x.rune then k rest caps else none
  | .plus p, input, caps, k => plusRun p input fun rest => k rest caps
  | .seq a b, input, caps, k => a.run input caps fun rest caps1 => b.run rest caps1 k
  | .group i a, input, caps, k =>
    a.run input caps fun rest caps1 =>
      k rest (caps1.set i (joinSegs (input.take (input.length - rest.length))))

/-- A match starting exactly at the start of `input`: the whole match and the `n`
groups. -/
def matchHere (re : Regex) (n : Nat) (input : List Seg) : Option (List GoString) :=
  re.run input (List.replicate (n + 1) []) fun rest caps =>
    some (caps.set 0 (joinSegs (input.take (input.length - rest.length))))

/-- The leftmost match: the start positions are tried from left to right. -/
def searchSegs (re : Regex) (n : Nat) : List Seg → List GoString
  | [] => (matchHere re n []).getD []
  | x :: t =>
    match matchHere re n (x :: t) with
    | some caps => caps
    | none => searchSegs re n t

/-- Go `(*Regexp).FindStringSubmatch` for an expression with `n` groups: the text of
the leftmost match followed by the text of each group, or `nil` (no element) when
nothing matches. -/
def FindStringSubmatch (re : Regex) (n : Nat) (s : GoString) : List GoString :=
  searchSegs re n (segs s)

/-- The class `\w`: `[0-9A-Za-z_]`. -/
def isWord (r : Nat) : Bool :=
  (0x30 ≤ r && r ≤ 0x39) || (0x41 ≤ r && r ≤ 0x5A) || (0x61 ≤ r && r ≤ 0x7A) || r = 0x5F

/-- The class `\s` of `regexp`: `[\t\n\f\r ]` (no vertical tab). -/
def isPerlSpace (r : Nat) : Bool :=
  r = 0x09 || r = 0x0A || r = 0x0C || r = 0x0D || r = 0x20

/-- The expression `([\w]+)[\s]+` followed by `r`, the word being group `i`. -/
def wordSpace (i : Nat) (r : Regex) : Regex :=
  .seq (.group i (.plus isWord)) (.seq (.plus isPerlSpace) r)

/-- The expression `"([^"]+)"`, the quoted text being group 5. -/
def quotedRegex : Regex :=
  .seq (.cls fun r => r = 0x22) (.seq (.group 5 (.plus fun r => r != 0x22)) (.cls fun r => r = 0x22))

/-- The expression of `ParseParamComment`:
`([\w]+)[\s]+([\w]+)[\s]+([\w]+)[\s]+([\w]+)[\s]+"([^"]+)"`. -/
def paramRegex : Regex :=
  wordSpace 1 (wordSpace 2 (wordSpace 3 (wordSpace 4 quotedRegex)))

/-! ## Data model -/

/-- Values of Go type `error` that the directive parsers return. -/
inductive GoError where
  /-- The package-level sentinel `CommentIsEmptyError`. -/
  | CommentIsEmptyError
  /-- An `errors.New(msg)` value. -/
  | errorsNew (msg : GoString)
  /-- The value of `fmt.Errorf("Can not parse param comment \"%s\", skipped.", paramString)`. -/
  | paramError (paramString : GoString)
  /-- The value of `fmt.Errorf("Failure notation parse error: %v\n", err)` for the
  `*strconv.NumError` with `Num = num`, `Err = err`. -/
  | failureError (num : GoString) (err : NumErr)
  /-- An error made elsewhere in the package (by `Model.ParseModel`). -/
  | foreign (id : Nat)
deriving DecidableEq, Repr

/-- Run-time panics of the directive parsers. -/
inductive GoPanic where
  /-- The expression `s[lo:]` with `lo > len(s)`. -/
  | sliceBounds (lo len : Nat)
  /-- The expression `a[i]` with `i >= len(a)`. -/
  | indexOutOfRange (i len : Nat)
  /-- A field read through a nil pointer. -/
  | nilDereference
deriving DecidableEq, Repr

/-- How a call ended. -/
inductive Exit where
  /-- The call returned `nil`. -/
  | nil
  /-- The call returned a non-nil error. -/
  | err (e : GoError)
  /-- The call panicked. -/
  | panic (p : GoPanic)
deriving DecidableEq, Repr

/-- The struct `OperationItems`. -/
structure OperationItems where
  Ref : GoString := []
  «Type» : GoString := []
deriving DecidableEq, Repr

/-- Modelled from the spec: the struct `Parameter` (declared outside `operation.go`),
with the fields `ParseParamComment` assigns. -/
structure Parameter where
  Name : GoString := []
  ParamType : GoString := []
  «Type» : GoString := []
  DataType : GoString := []
  Required : Bool := false
  Description : GoString := []
deriving DecidableEq, Repr

/-- Modelled from the spec: the struct `ResponseMessage` (declared outside
`operation.go`), with the fields the directive parsers assign. -/
structure ResponseMessage where
  Code : Int := 0
  Message : GoString := []
  ResponseModel : GoString := []
deriving DecidableEq, Repr

/-- Modelled from the spec: the struct `Model` (declared outside `operation.go`): a
named schema with an identifier and properties (field name, type reference). -/
structure Model where
  Id : GoString := []
  Properties : List (GoString × GoString) := []
deriving DecidableEq, Repr

/-- Modelled from the spec: the struct `Parser` (declared outside `operation.go`), of
which the directive parsers read `CurrentPackage`. -/
structure Parser where
  CurrentPackage : GoString := []
deriving DecidableEq, Repr

/-- The struct `Authorization` (declared outside `operation.go`, never assigned here). -/
structure Authorization where
deriving DecidableEq, Repr

/-- The struct `Protocol` (declared outside `operation.go`, never assigned here). -/
structure Protocol where
deriving DecidableEq, Repr

/-- The struct `Operation`.  Slices are lists (a nil slice is the empty list), the
pointer `parser` is an `Option`. -/
structure Operation where
  HttpMethod : GoString := []
  Nickname : GoString := []
  «Type» : GoString := []
  Items : OperationItems := {}
  Summary : GoString := []
  Notes : GoString := []
  Parameters : List Parameter := []
  ResponseMessages : List ResponseMessage := []
  Consumes : List GoString := []
  Produces : List GoString := []
  Authorizations : List Authorization := []
  Protocols : List Protocol := []
  Path : GoString := []
  parser : Option Parser := none
  models : List Model := []
  packageName : GoString := []
deriving DecidableEq, Repr

/-- The operation as a call leaves it, and how the call ended. -/
structure Outcome where
  op : Operation
  exit : Exit
deriving DecidableEq, Repr

/-- What `operation.go` uses without declaring it: the package-level function
`IsBasicType`, the method `Model.ParseModel` (applied to `NewModel(parser)`; it yields an
error, or the model it filled in together with the inner models), the `ContentType*`
constants, the width of `int`, and the Unicode case mappings behind `strings.ToUpper`
and `strings.ToLower` on non-ASCII text. -/
structure Env where
  IsBasicType : GoString → Bool
  ParseModel : Parser → GoString → GoString → Except GoError (Model × List Model)
  ContentTypeJson : GoString
  ContentTypeXml : GoString
  ContentTypePlain : GoString
  ContentTypeHtml : GoString
  IntSize : Nat
  unicodeUpper : GoString → GoString
  unicodeLower : GoString → GoString

/-- `go/ast.Comment`: the comment text, with its `//` or `/*` marker. -/
structure Comment where
  Text : GoString
deriving DecidableEq, Repr

/-- `go/ast.CommentGroup`: `List` is `none` for a nil slice; its entries are non-nil
comments, as `go/parser` builds them. -/
structure CommentGroup where
  List : Option (List Comment)
deriving DecidableEq, Repr

/-! ## The methods of `Operation` -/

/-- The function `NewOperation`. -/
def NewOperation (p : Option Parser) (packageName : GoString) : Operation :=
  { parser := p, models := [], packageName := packageName }

/-- The method `SetItemsType`. -/
def SetItemsType (env : Env) (operation : Operation) (itemsType : GoString) : Operation :=
  if env.IsBasicType itemsType then
    { operation with Items := { «Type» := itemsType } }
  else
    { operation with Items := { Ref := itemsType } }

/-- The method `ParseRouterComment`. -/
def ParseRouterComment (env : Env) (operation : Operation) (commentLine : GoString) : Outcome :=
  if commentLine.length < (utf8 "@router").length then
    ⟨operation, .panic (.sliceBounds (utf8 "@router").length commentLine.length)⟩
  else
    let elements := TrimSpace (commentLine.drop (utf8 "@router").length)
    let e1 := SplitN2 elements 0x20
    if e1.length < 1 then
      ⟨operation, .err (.errorsNew (utf8 "you should has router infomation"))⟩
    else
      let operation := { operation with Path := e1.getD 0 [] }
      if e1.length = 2 ∧ e1.getD 1 [] ≠ [] then
        let e1 := SplitN2 (e1.getD 1 []) 0x20
        ⟨{ operation with
            HttpMethod := ToUpper env.unicodeUpper (Trim (e1.getD 0 []) (utf8 "[]")) }, .nil⟩
      else
        ⟨{ operation with HttpMethod := utf8 "GET" }, .nil⟩

/-- The method `ParseParamComment`. -/
def ParseParamComment (env : Env) (operation : Operation) (commentLine : GoString) : Outcome :=
  if commentLine.length < (utf8 "@Param ").length then
    ⟨operation, .panic (.sliceBounds (utf8 "@Param ").length commentLine.length)⟩
  else
    let paramString := TrimSpace (commentLine.drop (utf8 "@Param ").length)
    let «matches» := FindStringSubmatch paramRegex 5 paramString
    if «matches».length ≠ 6 then
      ⟨operation, .err (.paramError paramString)⟩
    else
      let swaggerParameter : Parameter :=
        { Name := «matches».getD 1 []
          ParamType := «matches».getD 2 []
          «Type» := «matches».getD 3 []
          DataType := «matches».getD 3 []
          Required := ToLower env.unicodeLower («matches».getD 4 []) = utf8 "true"
          Description := «matches».getD 5 [] }
      ⟨{ operation with Parameters := operation.Parameters ++ [swaggerParameter] }, .nil⟩

/-- The body of the loop of `ParseAcceptComment`: one token. -/
def acceptStep (env : Env) (operation : Operation) (a : GoString) : Operation :=
  if a = utf8 "json" then
    { operation with
      Consumes := operation.Consumes ++ [env.ContentTypeJson]
      Produces := operation.Produces ++ [env.ContentTypeJson] }
  else if a = utf8 "xml" then
    { operation with
      Consumes := operation.Consumes ++ [env.ContentTypeXml]
      Produces := operation.Produces ++ [env.ContentTypeXml] }
  else if a = utf8 "plain" then
    { operation with
      Consumes := operation.Consumes ++ [env.ContentTypePlain]
      Produces := operation.Produces ++ [env.ContentTypePlain] }
  else if a = utf8 "html" then
    { operation with
      Consumes := operation.Consumes ++ [env.ContentTypeHtml]
      Produces := operation.Produces ++ [env.ContentTypeHtml] }
  else operation

/-- The method `ParseAcceptComment`. -/
def ParseAcceptComment (env : Env) (operation : Operation) (commentLine : GoString) : Outcome :=
  if commentLine.length < (utf8 "@Accept").length then
    ⟨operation, .panic (.sliceBounds (utf8 "@Accept").length commentLine.length)⟩
  else
    let accepts := Split (TrimSpace (TrimSpace (commentLine.drop (utf8 "@Accept").length))) 0x2C
    ⟨accepts.foldl (acceptStep env) operation, .nil⟩

/-- The loop of `ParseFailureComment` over `range statement`: the runes of the code
collected so far (`httpCode`), the flag `start` and `response.Message`; the result is
`httpCode` and `response.Message` when the loop ends or breaks. -/
def failureLoop (statement : GoString) :
    List (Nat × Nat) → List Nat → Bool → GoString → List Nat × GoString
  | [], httpCode, _, message => (httpCode, message)
  | (i, s) :: rest, httpCode, start, message =>
    if IsSpace s then
      if start then (httpCode, TrimSpace (statement.drop (i + 1)))
      else failureLoop statement rest httpCode start message
    else failureLoop statement rest (httpCode ++ [s]) true message

/-- The method `ParseFailureComment`. -/
def ParseFailureComment (env : Env) (operation : Operation) (commentLine : GoString) : Outcome :=
  if commentLine.length < (utf8 "@Failure").length then
    ⟨operation, .panic (.sliceBounds (utf8 "@Failure").length commentLine.length)⟩
  else
    let statement := TrimSpace (commentLine.drop (utf8 "@Failure").length)
    let (httpCode, message) := failureLoop statement (rangeString statement) [] false []
    match Atoi env.IntSize (httpCode.flatMap encodeRune) with
    | .error e => ⟨operation, .err (.failureError (httpCode.flatMap encodeRune) e)⟩
    | .ok code =>
      let response : ResponseMessage := { Code := code, Message := message }
      ⟨{ operation with ResponseMessages := operation.ResponseMessages ++ [response] }, .nil⟩

/-- The method `ParseSuccessComment` from the point where `parts` holds the non-empty
pieces of the line: the reads `parts[0]`, `parts[1]`, `parts[2]` panic when the slice is
too short, and the read of `operation.parser.CurrentPackage` panics when `parser` is
nil. -/
def successParts (env : Env) (operation : Operation) (parts : List GoString) : Outcome :=
  match parts with
  | [] => ⟨operation, .panic (.indexOutOfRange 0 0)⟩
  | part0 :: tail0 =>
    match Atoi env.IntSize part0 with
    | .error _ => ⟨operation, .err (.errorsNew (utf8 "Success http code must be int"))⟩
    | .ok code =>
      match tail0 with
      | [] => ⟨operation, .panic (.indexOutOfRange 1 1)⟩
      | part1 :: tail1 =>
        if part1 = utf8 "{object}" ∨ part1 = utf8 "{array}" then
          match tail1 with
          | [] =>
            ⟨operation, .err (.errorsNew
              (utf8 "Success annotation error: object type must be specified"))⟩
          | part2 :: _ =>
            match operation.parser with
            | none => ⟨operation, .panic .nilDereference⟩
            | some parser =>
              match env.ParseModel parser part2 parser.CurrentPackage with
              | .error e => ⟨operation, .err e⟩
              | .ok (model, innerModels) =>
                let response : ResponseMessage := { Code := code, ResponseModel := model.Id }
                let operation :=
                  if part1 = utf8 "{array}" then
                    { SetItemsType env operation model.Id with «Type» := utf8 "array" }
                  else
                    { operation with «Type» := model.Id }
                ⟨{ operation with
                    models := operation.models ++ [model] ++ innerModels
                    ResponseMessages := operation.ResponseMessages ++ [response] }, .nil⟩
        else
          match tail1 with
          | [] => ⟨operation, .panic (.indexOutOfRange 2 2)⟩
          | part2 :: _ =>
            let response : ResponseMessage := { Code := code, Message := part2 }
            ⟨{ operation with
                ResponseMessages := operation.ResponseMessages ++ [response] }, .nil⟩

/-- The method `ParseSuccessComment`. -/
def ParseSuccessComment (env : Env) (operation : Operation) (commentLine : GoString) : Outcome :=
  if commentLine.length < (utf8 "@Success").length then
    ⟨operation, .panic (.sliceBounds (utf8 "@Success").length commentLine.length)⟩
  else
    let sourceString := TrimSpace (commentLine.drop (utf8 "@Success").length)
    let parts := (Split sourceString 0x20).filter fun paramPart => paramPart ≠ []
    successParts env operation parts

/-- The body of the loop of `ParseComment`: one comment. -/
def parseLine (env : Env) (operation : Operation) (comment : Comment) : Outcome :=
  let commentLine := TrimSpace (TrimLeft comment.Text (utf8 "//"))
  if HasPrefix commentLine (utf8 "@router") then
    ParseRouterComment env operation commentLine
  else if HasPrefix commentLine (utf8 "@Title") then
    ⟨{ operation with
        Nickname := TrimSpace (commentLine.drop (utf8 "@Title").length) }, .nil⟩
  else if HasPrefix commentLine (utf8 "@Description") then
    ⟨{ operation with
        Summary := TrimSpace (commentLine.drop (utf8 "@Description").length) }, .nil⟩
  else if HasPrefix commentLine (utf8 "@Success") then
    ParseSuccessComment env operation commentLine
  else if HasPrefix commentLine (utf8 "@Param") then
    ParseParamComment env operation commentLine
  else if HasPrefix commentLine (utf8 "@Failure") then
    ParseFailureComment env operation commentLine
  else if HasPrefix commentLine (utf8 "@Accept") then
    ParseAcceptComment env operation commentLine
  else ⟨operation, .nil⟩

/-- The loop of `ParseComment`: the comments in order, stopping at the first one
whose directive parser does not return `nil`. -/
def parseLines (env : Env) : Operation → List Comment → Outcome
  | operation, [] => ⟨operation, .nil⟩
  | operation, comment :: rest =>
    match parseLine env operation comment with
    | ⟨operation1, .nil⟩ => parseLines env operation1 rest
    | out => out

/-- The method `ParseComment`.  The argument is `none` for a nil `*ast.CommentGroup`. -/
def ParseComment (env : Env) (operation : Operation) (commentList : Option CommentGroup) :
    Outcome :=
  match commentList with
  | some ⟨some list⟩ =>
    match parseLines env operation list with
    | ⟨operation1, .nil⟩ =>
      if operation1.Path = [] then ⟨operation1, .err .CommentIsEmptyError⟩
      else ⟨operation1, .nil⟩
    | out => out
  | _ => ⟨operation, .err .CommentIsEmptyError⟩

/-! ## A concrete environment, for the examples -/

/-- An environment for the examples: `int`, `string`, `float` and `bool` are the basic
types, every type name (a basic one too) resolves without error to a model of that name
without inner models, `int` has 64 bits, and the case mappings leave non-ASCII text
alone. -/
def sampleEnv : Env where
  IsBasicType := fun t => t = utf8 "int" || t = utf8 "string" || t = utf8 "float" || t = utf8 "bool"
  ParseModel := fun _ t _ => .ok ({ Id := t }, [])
  ContentTypeJson := utf8 "application/json"
  ContentTypeXml := utf8 "application/xml"
  ContentTypePlain := utf8 "text/plain"
  ContentTypeHtml := utf8 "text/html"
  IntSize := 64
  unicodeUpper := fun s => s
  unicodeLower := fun s => s

/-- A comment group made of the given comment texts. -/
def commentGroup (texts : List GoString) : Option CommentGroup :=
  some ⟨some (texts.map Comment.mk)⟩

/-! ## Definitions used to state the properties -/

/-- The MIME type an `@Accept` token stands for: the tokens `json`, `xml`, `plain` and
`html` are recognised, any other token stands for nothing. -/
def acceptMime (env : Env) (token : GoString) : Option GoString :=
  if token = utf8 "json" then some env.ContentTypeJson
  else if token = utf8 "xml" then some env.ContentTypeXml
  else if token = utf8 "plain" then some env.ContentTypePlain
  else if token = utf8 "html" then some env.ContentTypeHtml
  else none

/-- The decimal digits of `n`, most significant first; `fuel` bounds their number
(`n + 1` is always enough). -/
def natDigits : Nat → Nat → GoString
  | 0, _ => []
  | fuel + 1, n => if n < 10 then [0x30 + n] else natDigits fuel (n / 10) ++ [0x30 + n % 10]

/-- Go `strconv.Itoa`: the decimal text of an integer, with `-` before a negative one. -/
def Itoa (i : Int) : GoString :=
  if i < 0 then 0x2D :: natDigits (i.natAbs + 1) i.natAbs else natDigits (i.natAbs + 1) i.natAbs

/-- A non-empty word of the class `\w` (ASCII letters, digits, underscore). -/
def wordToken (s : GoString) : Bool := !s.isEmpty && s.all isWord

/-- A non-empty run of the white space that the class `\s` of `regexp` accepts (space,
`\t`, `\n`, `\f`, `\r`). -/
def perlSpaces (s : GoString) : Bool := !s.isEmpty && s.all isPerlSpace

/-- A non-empty run of ASCII white space in the sense of `unicode.IsSpace` (space,
`\t`, `\n`, `\v`, `\f`, `\r`). -/
def asciiSpaces (s : GoString) : Bool := !s.isEmpty && s.all fun b => b < 0x80 && IsSpace b

/-- The text `name paramType dataType req "d"` of a parameter directive, with the
separators `ws1` .. `ws4` between its five parts. -/
def paramText (name paramType dataType req d ws1 ws2 ws3 ws4 : GoString) : GoString :=
  name ++ ws1 ++ paramType ++ ws2 ++ dataType ++ ws3 ++ req ++ ws4 ++ [0x22] ++ d ++ [0x22]

/-- The first white-space-delimited token of a text: the bytes of its runes after the
leading white space, up to the next white-space rune (empty when there is none). -/
def firstToken (s : GoString) : GoString :=
  joinSegs (((segs s).dropWhile spaceSeg).takeWhile fun x => !spaceSeg x)

/-! ## Further definitions used to state the properties -/

/-- One call of a directive parser on a comment line. -/
inductive Call where
  | accept (commentLine : GoString)
  | router (commentLine : GoString)
  | param (commentLine : GoString)
  | failure (commentLine : GoString)
  | success (commentLine : GoString)
deriving DecidableEq, Repr

/-- The operation as a call of a directive parser leaves it, however the call ends. -/
def applyCall (env : Env) (operation : Operation) : Call → Operation
  | .accept l => (ParseAcceptComment env operation l).op
  | .router l => (ParseRouterComment env operation l).op
  | .param l => (ParseParamComment env operation l).op
  | .failure l => (ParseFailureComment env operation l).op
  | .success l => (ParseSuccessComment env operation l).op

/-- The operation after a sequence of calls of directive parsers. -/
def runCalls (env : Env) (operation : Operation) (calls : List Call) : Operation :=
  calls.foldl (applyCall env) operation

/-- A comment that `ParseComment` dispatches to no directive parser: its text, without
the leading `/` characters and the surrounding white space, starts with none of the
seven tags. -/
def unmatchedLine (c : Comment) : Bool :=
  !HasPrefix (TrimSpace (TrimLeft c.Text (utf8 "//"))) (utf8 "@router") &&
  !HasPrefix (TrimSpace (TrimLeft c.Text (utf8 "//"))) (utf8 "@Title") &&
  !HasPrefix (TrimSpace (TrimLeft c.Text (utf8 "//"))) (utf8 "@Description") &&
  !HasPrefix (TrimSpace (TrimLeft c.Text (utf8 "//"))) (utf8 "@Success") &&
  !HasPrefix (TrimSpace (TrimLeft c.Text (utf8 "//"))) (utf8 "@Param") &&
  !HasPrefix (TrimSpace (TrimLeft c.Text (utf8 "//"))) (utf8 "@Failure") &&
  !HasPrefix (TrimSpace (TrimLeft c.Text (utf8 "//"))) (utf8 "@Accept")

/-- The tags that `ParseComment` dispatches on. -/
inductive Tag where
  | router
  | title
  | description
  | success
  | param
  | failure
  | accept
deriving DecidableEq, Repr

/-- The tag a comment carries: the first of the prefixes that `ParseComment` tests, in
its order, with which the text without its marker and surrounding white space begins. -/
def lineTag (c : Comment) : Option Tag :=
  let commentLine := TrimSpace (TrimLeft c.Text (utf8 "//"))
  if HasPrefix commentLine (utf8 "@router") then some .router
  else if HasPrefix commentLine (utf8 "@Title") then some .title
  else if HasPrefix commentLine (utf8 "@Description") then some .description
  else if HasPrefix commentLine (utf8 "@Success") then some .success
  else if HasPrefix commentLine (utf8 "@Param") then some .param
  else if HasPrefix commentLine (utf8 "@Failure") then some .failure
  else if HasPrefix commentLine (utf8 "@Accept") then some .accept
  else none

/-- A summary of what a directive other than `@router` does to an operation when it
returns `nil`: the fields it assigns and the entries it appends. -/
structure Effect where
  Nickname : Option GoString := none
  Summary : Option GoString := none
  «Type» : Option GoString := none
  Items : Option OperationItems := none
  Parameters : List Parameter := []
  ResponseMessages : List ResponseMessage := []
  mimes : List GoString := []
  models : List Model := []

/-- The operation after an effect. -/
def Effect.apply (f : Effect) (operation : Operation) : Operation :=
  { operation with
    Nickname := f.Nickname.getD operation.Nickname
    Summary := f.Summary.getD operation.Summary
    «Type» := f.«Type».getD operation.«Type»
    Items := f.Items.getD operation.Items
    Parameters := operation.Parameters ++ f.Parameters
    ResponseMessages := operation.ResponseMessages ++ f.ResponseMessages
    Consumes := operation.Consumes ++ f.mimes
    Produces := operation.Produces ++ f.mimes
    models := operation.models ++ f.models }

/-- The fields that the directive of a tag may touch: the effect leaves all others. -/
def Effect.within (f : Effect) : Tag → Prop
  | .router => False
  | .title => f = { Nickname := f.Nickname }
  | .description => f = { Summary := f.Summary }
  | .success =>
    f = { «Type» := f.«Type», Items := f.Items, ResponseMessages := f.ResponseMessages,
          models := f.models }
  | .param => f = { Parameters := f.Parameters }
  | .failure => f = { ResponseMessages := f.ResponseMessages }
  | .accept => f = { mimes := f.mimes }

/-- The runs of runes that a regular expression matches as a whole: one rune of the
class, a non-empty run of the class, a run for `a` followed by a run for `b`; a group
matches what its body matches. -/
def Regex.Matches : Regex → List Seg → Prop
  | .cls p, xs => ∃ x, xs = [x] ∧ p x.rune = true
  | .plus p, xs => xs ≠ [] ∧ ∀ x ∈ xs, p x.rune = true
  | .seq a b, xs => ∃ ys zs, xs = ys ++ zs ∧ a.Matches ys ∧ b.Matches zs
  | .group _ a, xs => a.Matches xs

/-- A text that holds, somewhere, the text of a parameter directive: four non-empty
words of word characters and a non-empty quoted text without double quote, separated by
non-empty runs of the white space of the class `\s`, after any text `pre` and before any
text `post`. -/
def containsParam (s : GoString) : Prop :=
  ∃ pre post name paramType dataType req d ws1 ws2 ws3 ws4 : GoString,
    s = pre ++ paramText name paramType dataType req d ws1 ws2 ws3 ws4 ++ post ∧
    wordToken name = true ∧ wordToken paramType = true ∧ wordToken dataType = true ∧
    wordToken req = true ∧ perlSpaces ws1 = true ∧ perlSpaces ws2 = true ∧
    perlSpaces ws3 = true ∧ perlSpaces ws4 = true ∧ d ≠ [] ∧ 0x22 ∉ d

/-- Modelled from the spec: the method `Model.ParseModel` of the model resolver, which is
declared outside `operation.go`, applied to `NewModel(parser)`.  In the words of the
spec: "If `typeRef` is a known primitive (per a fixed primitive-name set ...), returns no
model — the caller uses the primitive name directly.  Otherwise resolves the referenced
composite type's field list (via the external symbol-table collaborator), builds one
`Model` with that `id`, and recursively resolves every non-primitive field type".  So
for a primitive type name the call reports no error and no inner model, and the
identifier that the caller reads from the receiver is the primitive name itself; the
resolution of a composite type, which goes through the symbol table, is the parameter
`resolveComposite`. -/
def specParseModel (isBasicType : GoString → Bool)
    (resolveComposite : Parser → GoString → GoString → Except GoError (Model × List Model)) :
    Parser → GoString → GoString → Except GoError (Model × List Model) :=
  fun parser typeRef currentPackage =>
    if isBasicType typeRef then .ok ({ Id := typeRef }, [])
    else resolveComposite parser typeRef currentPackage

/-! ## Lemmas on UTF-8 decoding -/

theorem decodeRune_ascii (b : Nat) (t : GoString) (h : b < 0x80) :
    decodeRune (b :: t) = (b, 1) := by
  simp [decodeRune, h]

theorem decode2_cases (s0 : Nat) (t : GoString) :
    decode2 s0 t = (RuneError, 1) ∨
    ∃ s1 t1, t = s1 :: t1 ∧ isCont s1 = true ∧
      decode2 s0 t = ((s0 - 0xC0) * 64 + (s1 - 0x80), 2) := by
  rcases t with _ | ⟨s1, t1⟩
  · left; rfl
  · by_cases h : isCont s1 = true
    · right; exact ⟨s1, t1, rfl, h, by simp [decode2, h]⟩
    · left; simp [decode2, h]

theorem decode3_cases (s0 : Nat) (t : GoString) :
    decode3 s0 t = (RuneError, 1) ∨
    ∃ s1 s2 t1, t = s1 :: s2 :: t1 ∧
      ((if s0 = 0xE0 then 0xA0 else 0x80) ≤ s1 ∧ s1 ≤ (if s0 = 0xED then 0x9F else 0xBF)) ∧
      isCont s2 = true ∧
      decode3 s0 t = ((s0 - 0xE0) * 4096 + (s1 - 0x80) * 64 + (s2 - 0x80), 3) := by
  rcases t with _ | ⟨s1, _ | ⟨s2, t1⟩⟩
  · left; rfl
  · left; rfl
  · by_cases h1 : (if s0 = 0xE0 then 0xA0 else 0x80) ≤ s1 ∧ s1 ≤ (if s0 = 0xED then 0x9F else 0xBF)
    · by_cases h2 : isCont s2 = true
      · right; exact ⟨s1, s2, t1, rfl, h1, h2, by simp only [decode3, h1, h2, and_self, if_true]⟩
      · left; simp only [decode3, h1, h2, and_self, if_true]; simp
    · left; simp only [decode3, h1, if_false]

theorem decode4_cases (s0 : Nat) (t : GoString) :
    decode4 s0 t = (RuneError, 1) ∨
    ∃ s1 s2 s3 t1, t = s1 :: s2 :: s3 :: t1 ∧
      ((if s0 = 0xF0 then 0x90 else 0x80) ≤ s1 ∧ s1 ≤ (if s0 = 0xF4 then 0x8F else 0xBF)) ∧
      isCont s2 = true ∧ isCont s3 = true ∧
      decode4 s0 t =
        ((s0 - 0xF0) * 262144 + (s1 - 0x80) * 4096 + (s2 - 0x80) * 64 + (s3 - 0x80), 4) := by
  rcases t with _ | ⟨s1, _ | ⟨s2, _ | ⟨s3, t1⟩⟩⟩
  · left; rfl
  · left; rfl
  · left; rfl
  · by_cases h1 : (if s0 = 0xF0 then 0x90 else 0x80) ≤ s1 ∧ s1 ≤ (if s0 = 0xF4 then 0x8F else 0xBF)
    · by_cases h2 : isCont s2 = true
      · by_cases h3 : isCont s3 = true
        · right
          exact ⟨s1, s2, s3, t1, rfl, h1, h2, h3, by
            simp only [decode4, h1, h2, h3, and_self, if_true]⟩
        · left; simp only [decode4, h1, h2, h3, and_self, if_true]; simp
      · left; simp only [decode4, h1, h2, and_self, if_true]; simp
    · left; simp only [decode4, h1, if_false]


theorem decode2_append_noncont (s0 : Nat) (a : GoString) (b : Nat) (t : GoString)
    (hb : isCont b = false) : decode2 s0 (a ++ b :: t) = decode2 s0 a := by
  rcases a with _ | ⟨s1, a⟩
  · simp [decode2, hb]
  · rfl

theorem range_isCont (lo hi s1 : Nat) (hlo : 0x80 ≤ lo) (hhi : hi ≤ 0xBF)
    (hb : isCont s1 = false) : ¬ (lo ≤ s1 ∧ s1 ≤ hi) := by
  simp only [isCont, Bool.and_eq_false_imp, decide_eq_true_eq, decide_eq_false_iff_not] at hb
  omega

theorem decode3_append_noncont (s0 : Nat) (a : GoString) (b : Nat) (t : GoString)
    (hb : isCont b = false) : decode3 s0 (a ++ b :: t) = decode3 s0 a := by
  rcases a with _ | ⟨s1, _ | ⟨s2, a⟩⟩
  · rcases t with _ | ⟨t0, t⟩
    · rfl
    · have := range_isCont (if s0 = 0xE0 then 0xA0 else 0x80) (if s0 = 0xED then 0x9F else 0xBF) b
        (by split_ifs <;> omega) (by split_ifs <;> omega) hb
      simp only [List.nil_append, decode3, this, if_false]
  · simp [decode3, hb]
  · rfl

theorem decode4_append_noncont (s0 : Nat) (a : GoString) (b : Nat) (t : GoString)
    (hb : isCont b = false) : decode4 s0 (a ++ b :: t) = decode4 s0 a := by
  rcases a with _ | ⟨s1, _ | ⟨s2, _ | ⟨s3, a⟩⟩⟩
  · rcases t with _ | ⟨t0, _ | ⟨t1, t⟩⟩
    · rfl
    · rfl
    · have := range_isCont (if s0 = 0xF0 then 0x90 else 0x80) (if s0 = 0xF4 then 0x8F else 0xBF) b
        (by split_ifs <;> omega) (by split_ifs <;> omega) hb
      simp only [List.nil_append, decode4, this, if_false]
  · rcases t with _ | ⟨t0, t⟩
    · rfl
    · simp [decode4, hb]
  · simp [decode4, hb]
  · rfl

/-- Locality of decoding: what follows a byte that is no continuation byte has no
influence on the rune decoded before it. -/
theorem decodeRune_append_noncont (a : GoString) (b : Nat) (t : GoString) (ha : a ≠ [])
    (hb : isCont b = false) : decodeRune (a ++ b :: t) = decodeRune a := by
  rcases a with _ | ⟨s0, a⟩
  · exact absurd rfl ha
  · simp only [List.cons_append, decodeRune, decode2_append_noncont _ _ _ _ hb,
      decode3_append_noncont _ _ _ _ hb, decode4_append_noncont _ _ _ _ hb]

theorem decodeRune_nil_append (a : GoString) : decodeRune (a ++ []) = decodeRune a := by simp

/-- What `decodeRune` yields on a non-empty string: an ASCII byte decodes to itself,
and otherwise the rune is at least `0x80` and all the bytes it takes are at least
`0x80`. -/
theorem decodeRune_spec (s0 : Nat) (t : GoString) :
    (s0 < 0x80 ∧ decodeRune (s0 :: t) = (s0, 1)) ∨
    (0x80 ≤ s0 ∧ 0x80 ≤ (decodeRune (s0 :: t)).1 ∧ 1 ≤ (decodeRune (s0 :: t)).2 ∧
      (decodeRune (s0 :: t)).2 ≤ (s0 :: t).length ∧
      ∀ b ∈ (s0 :: t).take (decodeRune (s0 :: t)).2, 0x80 ≤ b) := by
  by_cases h0 : s0 < 0x80
  · left; exact ⟨h0, decodeRune_ascii _ _ h0⟩
  right
  refine ⟨by omega, ?_⟩
  simp only [decodeRune, h0, if_false]
  have hE : 0x80 ≤ RuneError := by decide
  split_ifs with h1 h2 h3 h4
  · simpa [hE] using (by omega : 0x80 ≤ s0)
  · rcases decode2_cases s0 t with h | ⟨s1, t1, rfl, hc, h⟩
    · rw [h]; simpa [hE] using (by omega : 0x80 ≤ s0)
    · rw [h]
      simp only [isCont, Bool.and_eq_true, decide_eq_true_eq] at hc
      simp
      omega
  · rcases decode3_cases s0 t with h | ⟨s1, s2, t1, rfl, hr, hc, h⟩
    · rw [h]; simpa [hE] using (by omega : 0x80 ≤ s0)
    · rw [h]
      simp only [isCont, Bool.and_eq_true, decide_eq_true_eq] at hc
      simp
      split_ifs at hr <;> omega
  · rcases decode4_cases s0 t with h | ⟨s1, s2, s3, t1, rfl, hr, hc2, hc3, h⟩
    · rw [h]; simpa [hE] using (by omega : 0x80 ≤ s0)
    · rw [h]
      simp only [isCont, Bool.and_eq_true, decide_eq_true_eq] at hc2 hc3
      simp
      split_ifs at hr <;> omega
  · simpa [hE] using (by omega : 0x80 ≤ s0)

theorem decodeRune_width_pos (b : Nat) (t : GoString) : 1 ≤ (decodeRune (b :: t)).2 := by
  rcases decodeRune_spec b t with ⟨_, h⟩ | ⟨_, _, h, _⟩
  · rw [h]
  · exact h

theorem decodeRune_width_le (s : GoString) : (decodeRune s).2 ≤ s.length := by
  rcases s with _ | ⟨b, t⟩
  · simp [decodeRune]
  · rcases decodeRune_spec b t with ⟨_, h⟩ | ⟨_, _, _, h, _⟩
    · rw [h]; simp
    · exact h


theorem decode2_append_width (s0 : Nat) (a b : GoString)
    (h : (decode2 s0 (a ++ b)).2 ≤ a.length + 1) : decode2 s0 (a ++ b) = decode2 s0 a := by
  rcases a with _ | ⟨s1, a⟩
  · rcases decode2_cases s0 ([] ++ b) with h1 | ⟨_, _, _, _, h1⟩
    · rw [h1]; rfl
    · rw [h1] at h; simp at h
  · rfl

theorem decode3_append_width (s0 : Nat) (a b : GoString)
    (h : (decode3 s0 (a ++ b)).2 ≤ a.length + 1) : decode3 s0 (a ++ b) = decode3 s0 a := by
  rcases a with _ | ⟨s1, _ | ⟨s2, a⟩⟩
  · rcases decode3_cases s0 ([] ++ b) with h1 | ⟨_, _, _, _, _, _, h1⟩
    · rw [h1]; rfl
    · rw [h1] at h; simp at h
  · rcases decode3_cases s0 ([s1] ++ b) with h1 | ⟨_, _, _, _, _, _, h1⟩
    · rw [h1]; rfl
    · rw [h1] at h; simp at h
  · rfl

theorem decode4_append_width (s0 : Nat) (a b : GoString)
    (h : (decode4 s0 (a ++ b)).2 ≤ a.length + 1) : decode4 s0 (a ++ b) = decode4 s0 a := by
  rcases a with _ | ⟨s1, _ | ⟨s2, _ | ⟨s3, a⟩⟩⟩
  · rcases decode4_cases s0 ([] ++ b) with h1 | ⟨_, _, _, _, _, _, _, _, h1⟩
    · rw [h1]; rfl
    · rw [h1] at h; simp at h
  · rcases decode4_cases s0 ([s1] ++ b) with h1 | ⟨_, _, _, _, _, _, _, _, h1⟩
    · rw [h1]; rfl
    · rw [h1] at h; simp at h
  · rcases decode4_cases s0 ([s1, s2] ++ b) with h1 | ⟨_, _, _, _, _, _, _, _, h1⟩
    · rw [h1]; rfl
    · rw [h1] at h; simp at h
  · rfl

/-- Stability of decoding: a rune that ends inside `a` is decoded from `a` alone as it
is from `a ++ b`. -/
theorem decodeRune_append_width (a b : GoString) (ha : a ≠ [])
    (h : (decodeRune (a ++ b)).2 ≤ a.length) : decodeRune (a ++ b) = decodeRune a := by
  rcases a with _ | ⟨s0, a⟩
  · exact absurd rfl ha
  · simp only [List.cons_append, decodeRune, List.length_cons] at h ⊢
    split_ifs with h1 h2 h3 h4 h5
    · rfl
    · rfl
    · simp only [h1, h2, h3, if_true, if_false] at h
      exact decode2_append_width _ _ _ h
    · simp only [h1, h2, h3, h4, if_true, if_false] at h
      exact decode3_append_width _ _ _ h
    · simp only [h1, h2, h3, h4, h5, if_true, if_false] at h
      exact decode4_append_width _ _ _ h
    · rfl

/-! ### Rune segments -/

theorem segsAux_eq_drop (k : Nat) (t : GoString) : segsAux k t = segsAux 0 (t.drop k) := by
  induction t generalizing k with
  | nil => simp [segsAux]
  | cons b t ih =>
    cases k with
    | zero => rfl
    | succ k => simpa [segsAux] using ih k

theorem segs_nil : segs [] = [] := rfl

/-- The unfolding of `segs`: the first rune, then the segments of what follows it. -/
theorem segs_cons (b : Nat) (t : GoString) :
    segs (b :: t) = ⟨(decodeRune (b :: t)).1, (b :: t).take (decodeRune (b :: t)).2⟩ ::
      segs ((b :: t).drop (decodeRune (b :: t)).2) := by
  have hw := decodeRune_width_pos b t
  obtain ⟨w, hw1⟩ : ∃ w, (decodeRune (b :: t)).2 = w + 1 := ⟨_, (Nat.sub_add_cancel hw).symm⟩
  simp only [segs, segsAux]
  rw [segsAux_eq_drop, hw1]
  simp

theorem segs_cons_ascii (b : Nat) (t : GoString) (h : b < 0x80) :
    segs (b :: t) = ⟨b, [b]⟩ :: segs t := by
  rw [segs_cons, decodeRune_ascii b t h]
  simp

theorem joinSegs_nil : joinSegs [] = [] := rfl

theorem joinSegs_cons (x : Seg) (l : List Seg) : joinSegs (x :: l) = x.bytes ++ joinSegs l := by
  simp [joinSegs]

theorem joinSegs_append (l1 l2 : List Seg) : joinSegs (l1 ++ l2) = joinSegs l1 ++ joinSegs l2 := by
  simp [joinSegs]

/-- Strong induction along the decoding of a string. -/
theorem segs_induction {P : GoString → Prop} (h0 : P [])
    (h1 : ∀ b t, P ((b :: t).drop (decodeRune (b :: t)).2) → P (b :: t)) (s : GoString) : P s := by
  have key : ∀ n (s : GoString), s.length ≤ n → P s := by
    intro n
    induction n with
    | zero =>
      intro s hs
      rcases s with _ | ⟨b, t⟩
      · exact h0
      · simp at hs
    | succ n ih =>
      intro s hs
      rcases s with _ | ⟨b, t⟩
      · exact h0
      · apply h1
        have hw := decodeRune_width_pos b t
        apply ih
        simp only [List.length_drop, List.length_cons] at hs ⊢
        omega
  exact key _ s le_rfl

/-- The segments of a string hold its bytes, in order. -/
theorem joinSegs_segs (s : GoString) : joinSegs (segs s) = s := by
  induction s using segs_induction with
  | h0 => rfl
  | h1 b t ih =>
    rw [segs_cons, joinSegs_cons, ih]
    exact List.take_append_drop _ _



theorem segs_append_ascii (a t : GoString) (ha : ∀ b ∈ a, b < 0x80) :
    segs (a ++ t) = a.map asciiSeg ++ segs t := by
  induction a with
  | nil => rfl
  | cons b a ih =>
    rw [List.cons_append, segs_cons_ascii _ _ (ha b (List.mem_cons_self _ _)),
      ih fun c hc => ha c (List.mem_cons_of_mem _ hc)]
    rfl

theorem segs_ascii (a : GoString) (ha : ∀ b ∈ a, b < 0x80) : segs a = a.map asciiSeg := by
  have := segs_append_ascii a [] ha
  simpa [segs_nil] using this

theorem joinSegs_map_asciiSeg (a : GoString) : joinSegs (a.map asciiSeg) = a := by
  induction a with
  | nil => rfl
  | cons b a ih => rw [List.map_cons, joinSegs_cons, ih]; rfl

/-- Decoding restarts at every byte that is no continuation byte. -/
theorem segs_append_noncont (a : GoString) (b : Nat) (t : GoString) (hb : isCont b = false) :
    segs (a ++ b :: t) = segs a ++ segs (b :: t) := by
  induction a using segs_induction with
  | h0 => rfl
  | h1 s0 a ih =>
    have hw := decodeRune_width_le (s0 :: a)
    rw [segs_cons s0 a, List.cons_append, segs_cons, ← List.cons_append,
      decodeRune_append_noncont _ _ _ (List.cons_ne_nil _ _) hb,
      List.take_append_of_le_length hw, List.drop_append_of_le_length hw, ih]
    rfl

theorem segs_append_of_head (a t : GoString) (ht : ∀ b ∈ t.head?, isCont b = false) :
    segs (a ++ t) = segs a ++ segs t := by
  rcases t with _ | ⟨b, t⟩
  · simp [segs_nil]
  · exact segs_append_noncont a b t (ht b (by simp))

/-- A prefix of the segments of a string is the segmentation of its own bytes. -/
theorem segs_joinSegs_prefix (s : GoString) :
    ∀ l1 l2 : List Seg, segs s = l1 ++ l2 → segs (joinSegs l1) = l1 := by
  induction s using segs_induction with
  | h0 =>
    intro l1 l2 h
    rw [segs_nil] at h
    have : l1 = [] := (List.append_eq_nil.mp h.symm).1
    subst this; rfl
  | h1 b t ih =>
    intro l1 l2 h
    rcases l1 with _ | ⟨x, l1⟩
    · rfl
    · rw [segs_cons, List.cons_append] at h
      obtain ⟨hx, hl⟩ := List.cons.inj h
      have ih1 := ih l1 l2 hl
      have hw := decodeRune_width_le (b :: t)
      have hp := decodeRune_width_pos b t
      -- the bytes of the first segment
      have hxb : x.bytes = (b :: t).take (decodeRune (b :: t)).2 := by rw [← hx]
      have hlen : x.bytes.length = (decodeRune (b :: t)).2 := by
        rw [hxb, List.length_take]; omega
      have hne : x.bytes ≠ [] := by
        intro h0; rw [h0] at hlen; simp at hlen; omega
      -- the whole string, cut after the first segment and after `l1`
      have hs : b :: t = x.bytes ++ joinSegs l1 ++ joinSegs l2 := by
        have h1 := joinSegs_segs ((b :: t).drop (decodeRune (b :: t)).2)
        rw [hl, joinSegs_append] at h1
        rw [List.append_assoc, h1, hxb, List.take_append_drop]
      have hd1 : decodeRune (x.bytes ++ joinSegs l1) = decodeRune (b :: t) := by
        rw [hs]
        refine (decodeRune_append_width _ _ ?_ ?_).symm
        · intro h0; exact hne (List.append_eq_nil.mp h0).1
        · rw [← hs, List.length_append]; omega
      obtain ⟨c, u, hcu⟩ : ∃ c u, x.bytes ++ joinSegs l1 = c :: u := by
        rcases hb : x.bytes ++ joinSegs l1 with _ | ⟨c, u⟩
        · exact absurd (List.append_eq_nil.mp hb).1 hne
        · exact ⟨c, u, rfl⟩
      rw [joinSegs_cons, hcu, segs_cons, ← hcu, hd1, ← hlen, List.take_left', List.drop_left',
        ih1]
      · rw [← hx]
      · rfl
      · rfl

/-- A suffix of the segments of a string is the segmentation of its own bytes. -/
theorem segs_joinSegs_suffix (s : GoString) :
    ∀ l0 l1 : List Seg, segs s = l0 ++ l1 → segs (joinSegs l1) = l1 := by
  induction s using segs_induction with
  | h0 =>
    intro l0 l1 h
    rw [segs_nil] at h
    have : l1 = [] := (List.append_eq_nil.mp h.symm).2
    subst this; rfl
  | h1 b t ih =>
    intro l0 l1 h
    rcases l0 with _ | ⟨x, l0⟩
    · rw [List.nil_append] at h
      rw [← h, joinSegs_segs]
    · rw [segs_cons, List.cons_append] at h
      exact ih l0 l1 (List.cons.inj h).2

/-- Any run of consecutive segments of a string is the segmentation of its own bytes. -/
theorem segs_joinSegs_infix (s : GoString) (l0 l1 l2 : List Seg) (h : segs s = l0 ++ l1 ++ l2) :
    segs (joinSegs l1) = l1 := by
  rw [List.append_assoc] at h
  have h1 := segs_joinSegs_suffix s l0 (l1 ++ l2) h
  exact segs_joinSegs_prefix _ l1 l2 h1

/-- Every segment is either one ASCII byte standing for itself, or a rune of at least
`0x80` made of bytes of at least `0x80`; it is never empty. -/
theorem mem_segs_spec (s : GoString) : ∀ x ∈ segs s,
    x.bytes ≠ [] ∧ ((x.rune < 0x80 ∧ x.bytes = [x.rune]) ∨
      (0x80 ≤ x.rune ∧ ∀ b ∈ x.bytes, 0x80 ≤ b)) := by
  induction s using segs_induction with
  | h0 => intro x hx; simp [segs_nil] at hx
  | h1 b t ih =>
    intro x hx
    rw [segs_cons] at hx
    rcases List.mem_cons.mp hx with rfl | hx
    · rcases decodeRune_spec b t with ⟨h1, h2⟩ | ⟨h1, h2, h3, h4, h5⟩
      · rw [h2]; simp [h1]
      · refine ⟨?_, Or.inr ⟨h2, h5⟩⟩
        intro h0
        have := congrArg List.length h0
        simp only [List.length_take, List.length_nil, List.length_cons] at this h4
        omega
    · exact ih x hx

/-! ## Lemmas on the string functions -/

theorem dropWhile_eq_self_of_head {α : Type} (p : α → Bool) (l : List α)
    (h : ∀ x ∈ l.head?, p x = false) : l.dropWhile p = l := by
  rcases l with _ | ⟨x, l⟩
  · rfl
  · have := h x (by simp)
    simp [List.dropWhile_cons, this]

theorem rdropWhile_eq_self_of_getLast {α : Type} (p : α → Bool) (l : List α)
    (h : ∀ x ∈ l.getLast?, p x = false) : l.rdropWhile p = l := by
  rw [List.rdropWhile_eq_self_iff]
  intro hl
  have := h (l.getLast hl) (by simp [List.getLast?_eq_getLast _ hl])
  simp [this]

theorem rdropWhile_append_of_pos {α : Type} (p : α → Bool) (l1 l2 : List α)
    (h : ∀ x ∈ l2, p x = true) : (l1 ++ l2).rdropWhile p = l1.rdropWhile p := by
  unfold List.rdropWhile
  rw [List.reverse_append, List.dropWhile_append_of_pos]
  intro a ha
  exact h a (List.mem_reverse.mp ha)

theorem rdropWhile_append_of_ne_nil {α : Type} (p : α → Bool) (l1 l2 : List α)
    (h : l2.rdropWhile p ≠ []) : (l1 ++ l2).rdropWhile p = l1 ++ l2.rdropWhile p := by
  unfold List.rdropWhile at h ⊢
  rw [List.reverse_append, List.dropWhile_append]
  have h1 : List.dropWhile p l2.reverse ≠ [] := by
    intro h0; apply h; rw [h0]; rfl
  have h2 : (List.dropWhile p l2.reverse).isEmpty = false := by
    rcases hd : List.dropWhile p l2.reverse with _ | ⟨x, l⟩
    · exact absurd hd h1
    · rfl
  rw [h2]
  simp

/-- The segments of a trimmed string: those of the string without the leading and the
trailing white space. -/
theorem segs_TrimSpace (s : GoString) :
    segs (TrimSpace s) = ((segs s).dropWhile spaceSeg).rdropWhile spaceSeg := by
  obtain ⟨t, ht⟩ := List.rdropWhile_prefix spaceSeg (l := (segs s).dropWhile spaceSeg)
  refine segs_joinSegs_infix s ((segs s).takeWhile spaceSeg) _ t ?_
  rw [List.append_assoc, ht, List.takeWhile_append_dropWhile]

theorem TrimSpace_eq_self (s : GoString) (hh : ∀ x ∈ (segs s).head?, spaceSeg x = false)
    (hl : ∀ x ∈ (segs s).getLast?, spaceSeg x = false) : TrimSpace s = s := by
  unfold TrimSpace
  rw [dropWhile_eq_self_of_head _ _ hh, rdropWhile_eq_self_of_getLast _ _ hl, joinSegs_segs]

theorem TrimSpace_nil : TrimSpace [] = [] := rfl

/-- Leading ASCII white space is trimmed. -/
theorem TrimSpace_ascii_space_append (ws core : GoString)
    (hws : ∀ b ∈ ws, b < 0x80 ∧ IsSpace b = true) :
    TrimSpace (ws ++ core) = TrimSpace core := by
  unfold TrimSpace
  rw [segs_append_ascii ws core fun b hb => (hws b hb).1, List.dropWhile_append_of_pos]
  intro x hx
  obtain ⟨b, hb, rfl⟩ := List.mem_map.mp hx
  exact (hws b hb).2

/-- The first segment of `a ++ t` is the first segment of `a`, when `t` starts with a
byte that is no continuation byte. -/
theorem segs_head_append (a : GoString) (b : Nat) (t : GoString) (ha : a ≠ [])
    (hb : isCont b = false) : (segs (a ++ b :: t)).head? = (segs a).head? := by
  rw [segs_append_noncont a b t hb]
  rcases a with _ | ⟨c, a⟩
  · exact absurd rfl ha
  · rw [segs_cons]; rfl

theorem segs_ne_nil (s : GoString) (h : s ≠ []) : segs s ≠ [] := by
  rcases s with _ | ⟨b, t⟩
  · exact absurd rfl h
  · rw [segs_cons]; exact List.cons_ne_nil _ _

/-- A string without white-space runes has no ASCII white-space byte. -/
theorem not_mem_of_no_space (s : GoString) (h : ∀ x ∈ segs s, spaceSeg x = false)
    (b : Nat) (hb : b < 0x80) (hsp : IsSpace b = true) : b ∉ s := by
  intro hmem
  rw [← joinSegs_segs s] at hmem
  obtain ⟨x, hx, hbx⟩ := List.mem_flatMap.mp hmem
  rcases (mem_segs_spec s x hx).2 with ⟨_, h2⟩ | ⟨_, h2⟩
  · rw [h2] at hbx
    have : b = x.rune := by simpa using hbx
    have h3 := h x hx
    rw [spaceSeg, ← this, hsp] at h3
    exact absurd h3 (by simp)
  · have := h2 b hbx
    omega

/-! ### Splitting -/

theorem splitByte_ne_nil (sep : Nat) (s : GoString) : splitByte sep s ≠ [] := by
  rcases s with _ | ⟨b, t⟩
  · simp [splitByte]
  · unfold splitByte
    split_ifs
    · simp
    · split <;> simp

theorem splitByte_of_not_mem (sep : Nat) (a : GoString) (h : sep ∉ a) :
    splitByte sep a = [a] := by
  induction a with
  | nil => rfl
  | cons b a ih =>
    have hb : b ≠ sep := fun h0 => h (h0 ▸ List.mem_cons_self _ _)
    have ha : sep ∉ a := fun h0 => h (List.mem_cons_of_mem _ h0)
    simp [splitByte, hb, ih ha]

theorem splitByte_append_sep (sep : Nat) (a b : GoString) (h : sep ∉ a) :
    splitByte sep (a ++ sep :: b) = a :: splitByte sep b := by
  induction a with
  | nil => simp [splitByte]
  | cons c a ih =>
    have hc : c ≠ sep := fun h0 => h (h0 ▸ List.mem_cons_self _ _)
    have ha : sep ∉ a := fun h0 => h (List.mem_cons_of_mem _ h0)
    simp [splitByte, hc, ih ha]

theorem SplitN2_of_not_mem (sep : Nat) (a : GoString) (h : sep ∉ a) : SplitN2 a sep = [a] := by
  simp [SplitN2, h]

theorem SplitN2_append_sep (sep : Nat) (a b : GoString) (h : sep ∉ a) :
    SplitN2 (a ++ sep :: b) sep = [a, b] := by
  have h1 : ∀ c ∈ a, (c != sep) = true := by
    intro c hc
    simp only [bne_iff_ne, ne_eq]
    rintro rfl
    exact h hc
  have h2 : List.takeWhile (fun c => c != sep) (a ++ sep :: b) = a := by
    rw [List.takeWhile_append_of_pos h1]
    simp
  have h3 : List.dropWhile (fun c => c != sep) (a ++ sep :: b) = sep :: b := by
    rw [List.dropWhile_append_of_pos h1]
    simp
  simp only [SplitN2, List.mem_append, List.mem_cons, true_or, or_true, if_true, h2, h3]
  rfl

/-- Go `strings.Trim` takes the brackets off a bracketed word that holds none. -/
theorem Trim_brackets (m : GoString) (h1 : 0x5B ∉ m) (h2 : 0x5D ∉ m) :
    Trim (0x5B :: (m ++ [0x5D])) (utf8 "[]") = m := by
  have hcut : utf8 "[]" = [0x5B, 0x5D] := by decide
  have hm : ∀ c ∈ m, ([0x5B, 0x5D] : List Nat).contains c = false := by
    intro c hc
    have : c ≠ 0x5B := fun h => h1 (h ▸ hc)
    have : c ≠ 0x5D := fun h => h2 (h ▸ hc)
    simp [*]
  rw [Trim, hcut]
  have hd : List.dropWhile (fun b => ([0x5B, 0x5D] : List Nat).contains b) (0x5B :: (m ++ [0x5D]))
      = List.dropWhile (fun b => ([0x5B, 0x5D] : List Nat).contains b) (m ++ [0x5D]) := by
    rw [List.dropWhile_cons_of_pos]; simp
  rw [hd]
  rcases m with _ | ⟨c, m⟩
  · decide
  · rw [List.cons_append, List.dropWhile_cons_of_neg (by rw [hm c (List.mem_cons_self _ _)]; simp),
      ← List.cons_append, List.rdropWhile_concat_pos _ _ _ (by simp)]
    apply rdropWhile_eq_self_of_getLast
    intro x hx
    exact hm x (List.mem_of_mem_getLast? hx)
/-! ## `ParseRouterComment` -/

theorem ParseRouterComment_unfold (env : Env) (operation : Operation) (rest : GoString) :
    ParseRouterComment env operation (utf8 "@router" ++ rest) =
      if (SplitN2 (TrimSpace rest) 0x20).length = 2 ∧
          (SplitN2 (TrimSpace rest) 0x20).getD 1 [] ≠ [] then
        ⟨{ operation with
            Path := (SplitN2 (TrimSpace rest) 0x20).getD 0 []
            HttpMethod := ToUpper env.unicodeUpper
              (Trim ((SplitN2 ((SplitN2 (TrimSpace rest) 0x20).getD 1 []) 0x20).getD 0 [])
                (utf8 "[]")) }, .nil⟩
      else
        ⟨{ operation with
            Path := (SplitN2 (TrimSpace rest) 0x20).getD 0 []
            HttpMethod := utf8 "GET" }, .nil⟩ := by
  have hlen : ¬ (utf8 "@router" ++ rest).length < (utf8 "@router").length := by
    rw [List.length_append]; omega
  have hdrop : (utf8 "@router" ++ rest).drop (utf8 "@router").length = rest :=
    List.drop_left' rfl
  have hsplit : ¬ (SplitN2 (TrimSpace rest) 0x20).length < 1 := by
    unfold SplitN2; split_ifs <;> simp
  unfold ParseRouterComment
  simp only [hlen, hdrop, hsplit, if_false]

theorem spaceSeg_asciiSeg (b : Nat) : spaceSeg (asciiSeg b) = IsSpace b := rfl

/-- C2: for every non-empty path `p` without white space and every method name `m`
without white space and without `[` or `]`, `ParseRouterComment` on `@router p [m]`
returns `nil` with `Path = p` and `HttpMethod` the upper-cased `m`: for a method name
of ASCII bytes that is `m` with every letter `a..z` replaced by `A..Z` and every other
byte kept (`m.map upperByte`), and for a name with a non-ASCII byte it is what the
Unicode case tables make of `m` (`env.unicodeUpper`).  On `@router p` it returns `nil`
with `Path = p` and `HttpMethod = "GET"`; no other field of the operation changes. -/
theorem ParseRouterComment_path_method (env : Env) (operation : Operation) (p m : GoString)
    (hp : p ≠ []) (hpw : ∀ x ∈ segs p, spaceSeg x = false)
    (hmw : ∀ x ∈ segs m, spaceSeg x = false) (hm1 : 0x5B ∉ m) (hm2 : 0x5D ∉ m) :
    ParseRouterComment env operation (utf8 "@router " ++ p ++ utf8 " [" ++ m ++ utf8 "]") =
      ⟨{ operation with
          Path := p
          HttpMethod :=
            if m.all fun b => b < 0x80 then m.map upperByte else env.unicodeUpper m }, .nil⟩ ∧
    ParseRouterComment env operation (utf8 "@router " ++ p) =
      ⟨{ operation with Path := p, HttpMethod := utf8 "GET" }, .nil⟩ := by
  have hsp : ∀ b ∈ [0x20], b < 0x80 ∧ IsSpace b = true := by decide
  have hp20 : 0x20 ∉ p := not_mem_of_no_space p hpw 0x20 (by decide) (by decide)
  have hm20 : 0x20 ∉ m := not_mem_of_no_space m hmw 0x20 (by decide) (by decide)
  have hhead : ∀ x ∈ (segs p).head?, spaceSeg x = false := fun x hx =>
    hpw x (List.mem_of_mem_head? hx)
  constructor
  · have e1 : utf8 "@router " ++ p ++ utf8 " [" ++ m ++ utf8 "]" =
        utf8 "@router" ++ ([0x20] ++ (p ++ 0x20 :: (0x5B :: (m ++ [0x5D])))) := by
      have h1 : utf8 "@router " = utf8 "@router" ++ [0x20] := by decide
      have h2 : utf8 " [" = [0x20, 0x5B] := by decide
      have h3 : utf8 "]" = [0x5D] := by decide
      rw [h1, h2, h3]; simp
    have htrim : TrimSpace ([0x20] ++ (p ++ 0x20 :: (0x5B :: (m ++ [0x5D])))) =
        p ++ 0x20 :: (0x5B :: (m ++ [0x5D])) := by
      rw [TrimSpace_ascii_space_append _ _ hsp]
      apply TrimSpace_eq_self
      · rw [segs_head_append p _ _ hp (by decide)]; exact hhead
      · have : p ++ 0x20 :: 0x5B :: (m ++ [0x5D]) = (p ++ 0x20 :: 0x5B :: m) ++ 0x5D :: [] := by
          simp
        rw [this, segs_append_noncont _ _ _ (by decide), segs_cons_ascii _ _ (by decide),
          segs_nil]
        intro x hx
        rw [List.getLast?_concat] at hx
        simp only [Option.mem_def, Option.some.injEq] at hx
        subst hx; decide
    have hbr : 0x20 ∉ 0x5B :: (m ++ [0x5D]) := by
      simp only [List.mem_cons, List.mem_append, List.mem_singleton, not_or]
      exact ⟨by decide, hm20, by decide⟩
    rw [e1, ParseRouterComment_unfold, htrim, SplitN2_append_sep _ _ _ hp20]
    simp only [List.length_cons, List.length_nil, List.getD_cons_succ, List.getD_cons_zero,
      SplitN2_of_not_mem _ _ hbr, Trim_brackets m hm1 hm2]
    simp [ToUpper]
  · have e1 : utf8 "@router " ++ p = utf8 "@router" ++ ([0x20] ++ p) := by
      have h1 : utf8 "@router " = utf8 "@router" ++ [0x20] := by decide
      rw [h1]; simp
    have htrim : TrimSpace ([0x20] ++ p) = p := by
      rw [TrimSpace_ascii_space_append _ _ hsp]
      exact TrimSpace_eq_self p hhead fun x hx => hpw x (List.mem_of_mem_getLast? hx)
    rw [e1, ParseRouterComment_unfold, htrim, SplitN2_of_not_mem _ _ hp20]
    simp

/-- C2, at `@router /pets/{id} [post]` (method `POST`), `@router /pets/{id}` (method
`GET`) and `@router /v1/pets [Delete-x]` (method `DELETE-X`: letters upper-cased, the
other bytes kept). -/
theorem ParseRouterComment_path_method_witness :
    (ParseRouterComment sampleEnv (NewOperation none [])
        (utf8 "@router " ++ utf8 "/pets/{id}" ++ utf8 " [" ++ utf8 "post" ++ utf8 "]") =
      ⟨{ NewOperation none [] with
          Path := utf8 "/pets/{id}", HttpMethod := utf8 "POST" }, .nil⟩ ∧
    ParseRouterComment sampleEnv (NewOperation none []) (utf8 "@router " ++ utf8 "/pets/{id}") =
      ⟨{ NewOperation none [] with
          Path := utf8 "/pets/{id}", HttpMethod := utf8 "GET" }, .nil⟩) ∧
    ParseRouterComment sampleEnv (NewOperation none [])
        (utf8 "@router " ++ utf8 "/v1/pets" ++ utf8 " [" ++ utf8 "Delete-x" ++ utf8 "]") =
      ⟨{ NewOperation none [] with
          Path := utf8 "/v1/pets", HttpMethod := utf8 "DELETE-X" }, .nil⟩ :=
  ⟨ParseRouterComment_path_method sampleEnv (NewOperation none []) (utf8 "/pets/{id}")
      (utf8 "post") (by decide) (by decide) (by decide) (by decide) (by decide),
   (ParseRouterComment_path_method sampleEnv (NewOperation none []) (utf8 "/v1/pets")
      (utf8 "Delete-x") (by decide) (by decide) (by decide) (by decide) (by decide)).1⟩
/-! ## `ParseComment` -/

theorem acceptStep_Path (env : Env) (operation : Operation) (a : GoString) :
    (acceptStep env operation a).Path = operation.Path := by
  unfold acceptStep; split_ifs <;> rfl

theorem foldl_acceptStep_Path (env : Env) (l : List GoString) (operation : Operation) :
    (l.foldl (acceptStep env) operation).Path = operation.Path := by
  induction l generalizing operation with
  | nil => rfl
  | cons a l ih => rw [List.foldl_cons, ih, acceptStep_Path]

theorem ParseAcceptComment_Path (env : Env) (operation : Operation) (line : GoString) :
    (ParseAcceptComment env operation line).op.Path = operation.Path := by
  unfold ParseAcceptComment
  split_ifs
  · rfl
  · exact foldl_acceptStep_Path _ _ _

theorem ParseParamComment_Path (env : Env) (operation : Operation) (line : GoString) :
    (ParseParamComment env operation line).op.Path = operation.Path := by
  unfold ParseParamComment
  dsimp only
  split_ifs <;> rfl

theorem ParseFailureComment_Path (env : Env) (operation : Operation) (line : GoString) :
    (ParseFailureComment env operation line).op.Path = operation.Path := by
  unfold ParseFailureComment
  split_ifs
  · rfl
  · dsimp only
    split <;> rfl

theorem SetItemsType_Path (env : Env) (operation : Operation) (t : GoString) :
    (SetItemsType env operation t).Path = operation.Path := by
  unfold SetItemsType; split_ifs <;> rfl

theorem successParts_Path (env : Env) (operation : Operation) (parts : List GoString) :
    (successParts env operation parts).op.Path = operation.Path := by
  unfold successParts
  repeat' split
  all_goals first | rfl | (simp only [SetItemsType_Path])

theorem ParseSuccessComment_Path (env : Env) (operation : Operation) (line : GoString) :
    (ParseSuccessComment env operation line).op.Path = operation.Path := by
  unfold ParseSuccessComment
  split_ifs
  · rfl
  · exact successParts_Path _ _ _

/-- A line that does not start with `@router` leaves `Path` as it is. -/
theorem parseLine_Path (env : Env) (operation : Operation) (c : Comment)
    (h : HasPrefix (TrimSpace (TrimLeft c.Text (utf8 "//"))) (utf8 "@router") = false) :
    (parseLine env operation c).op.Path = operation.Path := by
  unfold parseLine
  simp only [h, Bool.false_eq_true, if_false]
  split_ifs
  · rfl
  · rfl
  · exact ParseSuccessComment_Path _ _ _
  · exact ParseParamComment_Path _ _ _
  · exact ParseFailureComment_Path _ _ _
  · exact ParseAcceptComment_Path _ _ _
  · rfl

theorem parseLines_Path (env : Env) (list : List Comment) :
    ∀ operation : Operation,
    (∀ c ∈ list, HasPrefix (TrimSpace (TrimLeft c.Text (utf8 "//"))) (utf8 "@router") = false) →
    (parseLines env operation list).op.Path = operation.Path := by
  induction list with
  | nil => intro operation _; rfl
  | cons c list ih =>
    intro operation h
    have hc := parseLine_Path env operation c (h c (List.mem_cons_self _ _))
    have hl := fun o => ih o fun d hd => h d (List.mem_cons_of_mem _ hd)
    unfold parseLines
    split
    · next o1 heq =>
      rw [hl, ← hc, heq]
    · next out hne =>
      exact hc

theorem ParseComment_exit_nil (env : Env) (operation : Operation) (cl : Option CommentGroup)
    (h : (ParseComment env operation cl).exit = .nil) :
    (ParseComment env operation cl).op.Path ≠ [] := by
  rcases cl with _ | ⟨_ | list⟩
  · simp [ParseComment] at h
  · simp [ParseComment] at h
  · rcases hout : parseLines env operation list with ⟨o, e⟩
    cases e with
    | nil =>
      by_cases hp : o.Path = []
      · simp [ParseComment, hout, hp] at h
      · simp [ParseComment, hout, hp]
    | err e => simp [ParseComment, hout] at h
    | panic q => simp [ParseComment, hout] at h

/-- C1 (as amended): if `ParseComment` on a fresh operation returns `nil` then `Path` is
not empty.  A block none of whose lines starts with `@router` never returns `nil`: when
the loop over its lines ends without a directive parser failing (as for a block of
`@Title` lines) the result is `CommentIsEmptyError`, and otherwise it is the error or
panic of the line that failed, with `Path` still empty.  A nil block or nil list gives
`CommentIsEmptyError`. -/
theorem ParseComment_requires_route (env : Env) (p : Option Parser) (packageName : GoString)
    (cl : Option CommentGroup) :
    ((ParseComment env (NewOperation p packageName) cl).exit = .nil →
      (ParseComment env (NewOperation p packageName) cl).op.Path ≠ []) ∧
    (∀ list : List Comment, cl = some ⟨some list⟩ →
      (∀ c ∈ list,
        HasPrefix (TrimSpace (TrimLeft c.Text (utf8 "//"))) (utf8 "@router") = false) →
      (ParseComment env (NewOperation p packageName) cl).exit ≠ .nil ∧
      (ParseComment env (NewOperation p packageName) cl).op.Path = [] ∧
      ((parseLines env (NewOperation p packageName) list).exit = .nil →
        (ParseComment env (NewOperation p packageName) cl).exit = .err .CommentIsEmptyError) ∧
      ((parseLines env (NewOperation p packageName) list).exit ≠ .nil →
        ParseComment env (NewOperation p packageName) cl =
          parseLines env (NewOperation p packageName) list)) ∧
    (cl = none ∨ cl = some ⟨none⟩ →
      ParseComment env (NewOperation p packageName) cl =
        ⟨NewOperation p packageName, .err .CommentIsEmptyError⟩) := by
  refine ⟨ParseComment_exit_nil env _ cl, ?_, ?_⟩
  · intro list hcl hno
    subst hcl
    have hpath := parseLines_Path env list (NewOperation p packageName) hno
    have hnew : (NewOperation p packageName).Path = [] := rfl
    rw [hnew] at hpath
    rcases hout : parseLines env (NewOperation p packageName) list with ⟨o, e⟩
    rw [hout] at hpath
    simp only at hpath
    cases e with
    | nil => simp [ParseComment, hout, hpath]
    | err e => simp [ParseComment, hout, hpath]
    | panic q => simp [ParseComment, hout, hpath]
  · rintro (rfl | rfl) <;> rfl

/-- C1, at a block with a `@router` line (which succeeds) and at a block holding only
an `@Title` line (which yields `CommentIsEmptyError`). -/
theorem ParseComment_requires_route_witness :
    (ParseComment sampleEnv (NewOperation none [])
      (commentGroup [utf8 "// @Title get pet", utf8 "// @router /pets [get]"])).op.Path ≠ [] ∧
    (ParseComment sampleEnv (NewOperation none [])
      (commentGroup [utf8 "// @Title get pet"])).exit = .err .CommentIsEmptyError :=
  ⟨(ParseComment_requires_route sampleEnv none []
      (commentGroup [utf8 "// @Title get pet", utf8 "// @router /pets [get]"])).1 (by decide),
   ((ParseComment_requires_route sampleEnv none []
      (commentGroup [utf8 "// @Title get pet"])).2.1 _ rfl (by decide)).2.2.1 (by decide)⟩

/-- C1 as stated fails: the block holding the one line `// @Failure abc` has no line
starting with `@router`, and `ParseComment` yields the error of `ParseFailureComment`,
not `CommentIsEmptyError`. -/
theorem ParseComment_no_route_other_error :
    HasPrefix (TrimSpace (TrimLeft (utf8 "// @Failure abc") (utf8 "//"))) (utf8 "@router") = false ∧
    (ParseComment sampleEnv (NewOperation none []) (commentGroup [utf8 "// @Failure abc"])).exit =
      .err (.failureError (utf8 "abc") .ErrSyntax) ∧
    (ParseComment sampleEnv (NewOperation none []) (commentGroup [utf8 "// @Failure abc"])).exit ≠
      .err .CommentIsEmptyError := by
  decide

/-! ## C3: `@router` with an empty remainder -/

theorem ParseRouterComment_exit (env : Env) (operation : Operation) (line : GoString) :
    (ParseRouterComment env operation line).exit = .nil ∨
    (ParseRouterComment env operation line).exit =
      .panic (.sliceBounds (utf8 "@router").length line.length) := by
  unfold ParseRouterComment
  have hsplit : ∀ s, ¬ (SplitN2 s 0x20).length < 1 := by
    intro s; unfold SplitN2; split_ifs <;> simp
  split_ifs with h1
  · right; rfl
  · left
    simp only [hsplit, if_false]
    split_ifs <;> rfl

/-- C3 (what the code does): `ParseRouterComment` never returns an error, whatever the
line (its guard `len(e1) < 1` cannot hold, `strings.SplitN` yielding at least one piece).
On `@router` followed by a space it returns `nil` with `Path = ""` and
`HttpMethod = "GET"`, and `ParseComment` goes on with the following lines: a block whose
second line is `// @router /x` returns `nil`. -/
theorem ParseRouterComment_never_errors (env : Env) (operation : Operation) :
    (∀ (line : GoString) (e : GoError), (ParseRouterComment env operation line).exit ≠ .err e) ∧
    ParseRouterComment env operation (utf8 "@router ") =
      ⟨{ operation with Path := [], HttpMethod := utf8 "GET" }, .nil⟩ ∧
    (ParseComment sampleEnv (NewOperation none [])
      (commentGroup [utf8 "// @router ", utf8 "// @router /x"])).exit = .nil := by
  refine ⟨?_, ?_, by decide⟩
  · intro line e h
    rcases ParseRouterComment_exit env operation line with h1 | h1 <;> rw [h1] at h <;>
      simp at h
  · have e1 : utf8 "@router " = utf8 "@router" ++ [0x20] := by decide
    have e2 : TrimSpace [0x20] = [] := by decide
    rw [e1, ParseRouterComment_unfold, e2]
    have e3 : SplitN2 [] 0x20 = [[]] := by decide
    rw [e3]
    simp
/-! ## `ParseAcceptComment` -/

theorem dropWhile_rdropWhile_dropWhile {α : Type} (p : α → Bool) (l : List α) :
    ((l.dropWhile p).rdropWhile p).dropWhile p = (l.dropWhile p).rdropWhile p := by
  apply dropWhile_eq_self_of_head
  intro x hx
  obtain ⟨t, ht⟩ := List.rdropWhile_prefix p (l := l.dropWhile p)
  rcases hr : (l.dropWhile p).rdropWhile p with _ | ⟨y, r⟩
  · rw [hr] at hx; simp at hx
  · rw [hr] at hx ht
    simp only [List.head?_cons, Option.mem_def, Option.some.injEq] at hx
    have h0 : 0 < (l.dropWhile p).length := by rw [← ht]; simp
    have := List.dropWhile_get_zero_not p l h0
    have hget : (l.dropWhile p).get ⟨0, h0⟩ = x := by
      simp only [List.get_eq_getElem]
      simp only [← ht, List.cons_append, List.getElem_cons_zero, hx]
    rw [hget] at this
    simpa using this

/-- Go `strings.TrimSpace` is idempotent. -/
theorem TrimSpace_idem (s : GoString) : TrimSpace (TrimSpace s) = TrimSpace s := by
  conv_lhs => rw [TrimSpace, segs_TrimSpace, dropWhile_rdropWhile_dropWhile,
    List.rdropWhile_idempotent]
  rfl

theorem acceptStep_eq (env : Env) (operation : Operation) (a : GoString) :
    acceptStep env operation a =
      { operation with
        Consumes := operation.Consumes ++ (acceptMime env a).toList
        Produces := operation.Produces ++ (acceptMime env a).toList } := by
  unfold acceptStep acceptMime
  split_ifs <;> simp

theorem filterMap_cons_toList {α β : Type} (f : α → Option β) (a : α) (l : List α) :
    (a :: l).filterMap f = (f a).toList ++ l.filterMap f := by
  rw [List.filterMap_cons]
  cases f a <;> rfl

theorem foldl_acceptStep (env : Env) (ts : List GoString) :
    ∀ operation : Operation, ts.foldl (acceptStep env) operation =
      { operation with
        Consumes := operation.Consumes ++ ts.filterMap (acceptMime env)
        Produces := operation.Produces ++ ts.filterMap (acceptMime env) } := by
  induction ts with
  | nil => intro operation; simp
  | cons a ts ih =>
    intro operation
    rw [List.foldl_cons, ih, acceptStep_eq, filterMap_cons_toList]
    simp

/-- C10: on every `@Accept` line `ParseAcceptComment` returns `nil`, and with `ts` the
pieces between the commas of the trimmed text after the tag, `Consumes` becomes the old
`Consumes` followed by the MIME types of the tokens of `ts` that are `json`, `xml`,
`plain` or `html`, in their order and with repetitions, and likewise `Produces`; other
tokens add nothing and no other field changes.  So `@Accept json,xml` appends the JSON
then the XML entry, and two `@Accept json` lines append the JSON entry twice. -/
theorem ParseAcceptComment_appends (env : Env) (operation : Operation) :
    (∀ rest : GoString,
      ParseAcceptComment env operation (utf8 "@Accept" ++ rest) =
        ⟨{ operation with
            Consumes := operation.Consumes ++
              (Split (TrimSpace rest) 0x2C).filterMap (acceptMime env)
            Produces := operation.Produces ++
              (Split (TrimSpace rest) 0x2C).filterMap (acceptMime env) }, .nil⟩) ∧
    ParseAcceptComment env operation (utf8 "@Accept json,xml") =
      ⟨{ operation with
          Consumes := operation.Consumes ++ [env.ContentTypeJson, env.ContentTypeXml]
          Produces := operation.Produces ++ [env.ContentTypeJson, env.ContentTypeXml] },
        .nil⟩ ∧
    ParseAcceptComment env (ParseAcceptComment env operation (utf8 "@Accept json")).op
        (utf8 "@Accept json") =
      ⟨{ operation with
          Consumes := operation.Consumes ++ [env.ContentTypeJson, env.ContentTypeJson]
          Produces := operation.Produces ++ [env.ContentTypeJson, env.ContentTypeJson] },
        .nil⟩ := by
  have main : ∀ (o : Operation) (rest : GoString),
      ParseAcceptComment env o (utf8 "@Accept" ++ rest) =
        ⟨{ o with
            Consumes := o.Consumes ++ (Split (TrimSpace rest) 0x2C).filterMap (acceptMime env)
            Produces := o.Produces ++ (Split (TrimSpace rest) 0x2C).filterMap (acceptMime env) },
          .nil⟩ := by
    intro o rest
    have hlen : ¬ (utf8 "@Accept" ++ rest).length < (utf8 "@Accept").length := by
      rw [List.length_append]; omega
    have hdrop : (utf8 "@Accept" ++ rest).drop (utf8 "@Accept").length = rest :=
      List.drop_left' rfl
    unfold ParseAcceptComment
    simp only [hlen, hdrop, if_false, TrimSpace_idem, foldl_acceptStep]
  refine ⟨main operation, ?_, ?_⟩
  · have e1 : utf8 "@Accept json,xml" = utf8 "@Accept" ++ utf8 " json,xml" := by decide
    have e2 : Split (TrimSpace (utf8 " json,xml")) 0x2C = [utf8 "json", utf8 "xml"] := by decide
    rw [e1, main, e2]
    simp [List.filterMap_cons, acceptMime,
      (by decide : utf8 "xml" ≠ utf8 "json")]
  · have e1 : utf8 "@Accept json" = utf8 "@Accept" ++ utf8 " json" := by decide
    have e2 : Split (TrimSpace (utf8 " json")) 0x2C = [utf8 "json"] := by decide
    rw [e1, main, main, e2]
    simp [List.filterMap_cons, acceptMime]
/-! ## `strconv.Atoi` on decimal text -/

theorem parseDigits_append (w : Nat) (s t : GoString) :
    ∀ acc, parseDigits w acc (s ++ t) =
      match parseDigits w acc s with
      | .ok v => parseDigits w v t
      | .error e => .error e := by
  induction s with
  | nil => intro acc; rfl
  | cons b s ih =>
    intro acc
    rw [List.cons_append]
    simp only [parseDigits]
    split_ifs
    · exact ih _
    · rfl
    · rfl

theorem natDigits_ne_nil (f n : Nat) : natDigits (f + 1) n ≠ [] := by
  unfold natDigits
  split_ifs <;> simp

theorem natDigits_digit (f n : Nat) : ∀ b ∈ natDigits f n, 0x30 ≤ b ∧ b ≤ 0x39 := by
  induction f generalizing n with
  | zero => intro b hb; simp [natDigits] at hb
  | succ f ih =>
    intro b hb
    unfold natDigits at hb
    split_ifs at hb with h
    · simp only [List.mem_singleton] at hb; omega
    · rcases List.mem_append.mp hb with hb | hb
      · exact ih _ b hb
      · simp only [List.mem_singleton] at hb; omega

theorem parseDigits_natDigits (w f n : Nat) (hf : n < f) (hn : n < 2 ^ w) :
    parseDigits w 0 (natDigits f n) = .ok n := by
  induction f generalizing n with
  | zero => omega
  | succ f ih =>
    unfold natDigits
    split_ifs with h
    · have h1 : 0x30 ≤ 0x30 + n ∧ 0x30 + n ≤ 0x39 := by omega
      have h2 : 0 * 10 + (0x30 + n - 0x30) < 2 ^ w := by omega
      have h3 : 0 * 10 + (0x30 + n - 0x30) = n := by omega
      simp only [parseDigits, h1, h2, and_self, if_true, h3, hn]
    · rw [parseDigits_append, ih (n / 10) (by omega) (by omega)]
      have h1 : 0x30 ≤ 0x30 + n % 10 ∧ 0x30 + n % 10 ≤ 0x39 := by omega
      have h3 : n / 10 * 10 + (0x30 + n % 10 - 0x30) = n := by omega
      have h2 : n / 10 * 10 + (0x30 + n % 10 - 0x30) < 2 ^ w := by omega
      simp only [parseDigits, h1, h2, and_self, if_true, h3, hn]

theorem ParseUint_natDigits (w n : Nat) (hn : n < 2 ^ w) :
    ParseUint w (natDigits (n + 1) n) = .ok n := by
  unfold ParseUint
  rw [if_neg (natDigits_ne_nil n n)]
  exact parseDigits_natDigits w (n + 1) n (by omega) hn

theorem Itoa_bytes (c : Int) : ∀ b ∈ Itoa c, b = 0x2D ∨ (0x30 ≤ b ∧ b ≤ 0x39) := by
  intro b hb
  unfold Itoa at hb
  split_ifs at hb
  · rcases List.mem_cons.mp hb with rfl | hb
    · left; rfl
    · right; exact natDigits_digit _ _ b hb
  · right; exact natDigits_digit _ _ b hb

theorem Itoa_ne_nil (c : Int) : Itoa c ≠ [] := by
  unfold Itoa
  split_ifs
  · simp
  · exact natDigits_ne_nil _ _

/-- `strconv.Atoi` reads back the decimal text of every integer in the range of `int`. -/
theorem Atoi_Itoa (w : Nat) (c : Int) (hw : 0 < w) (hlo : -(2 ^ (w - 1) : Int) ≤ c)
    (hhi : c < (2 ^ (w - 1) : Int)) : Atoi w (Itoa c) = .ok c := by
  have hpow : (2 : Nat) ^ w = 2 * 2 ^ (w - 1) := by
    obtain ⟨k, rfl⟩ : ∃ k, w = k + 1 := ⟨w - 1, by omega⟩
    simp [pow_succ, mul_comm]
  have hcast : ((2 ^ (w - 1) : Nat) : Int) = (2 : Int) ^ (w - 1) := by push_cast; rfl
  have hpos : 0 < 2 ^ (w - 1) := Nat.two_pow_pos _
  unfold Itoa
  split_ifs with hneg
  · have hn : c.natAbs ≤ 2 ^ (w - 1) := by omega
    have hu := ParseUint_natDigits w c.natAbs (by omega)
    simp only [Atoi, (by decide : ¬ (0x2D = 0x2B)), if_false, if_true, hu, signedValue]
    have h1 : ¬ (2 ^ (w - 1) < c.natAbs) := by omega
    have h2 : -(c.natAbs : Int) = c := by omega
    simp only [Bool.not_true, Bool.false_and, Bool.false_eq_true, if_false, Bool.true_and,
      decide_eq_true_eq, h1, if_true, h2]
  · have hn : c.natAbs < 2 ^ (w - 1) := by omega
    have hu := ParseUint_natDigits w c.natAbs (by omega)
    obtain ⟨d, rest, hd⟩ : ∃ d rest, natDigits (c.natAbs + 1) c.natAbs = d :: rest := by
      rcases h : natDigits (c.natAbs + 1) c.natAbs with _ | ⟨d, rest⟩
      · exact absurd h (natDigits_ne_nil _ _)
      · exact ⟨d, rest, rfl⟩
    have hdig := natDigits_digit (c.natAbs + 1) c.natAbs d (by rw [hd]; exact List.mem_cons_self _ _)
    rw [hd] at hu ⊢
    have h1 : ¬ d = 0x2B := by omega
    have h2 : ¬ d = 0x2D := by omega
    simp only [Atoi, h1, h2, if_false, hu, signedValue]
    have h3 : ¬ (2 ^ (w - 1) ≤ c.natAbs) := by omega
    have h4 : (c.natAbs : Int) = c := by omega
    simp only [Bool.not_false, Bool.true_and, decide_eq_true_eq, h3, if_false,
      Bool.false_and, Bool.false_eq_true, h4]
/-! ## `ParseSuccessComment` -/

theorem ParseSuccessComment_unfold (env : Env) (operation : Operation) (rest : GoString) :
    ParseSuccessComment env operation (utf8 "@Success" ++ rest) =
      successParts env operation
        ((Split (TrimSpace rest) 0x20).filter fun paramPart => paramPart ≠ []) := by
  have hlen : ¬ (utf8 "@Success" ++ rest).length < (utf8 "@Success").length := by
    rw [List.length_append]; omega
  have hdrop : (utf8 "@Success" ++ rest).drop (utf8 "@Success").length = rest :=
    List.drop_left' rfl
  unfold ParseSuccessComment
  simp only [hlen, hdrop, if_false]

theorem Itoa_not_space (c : Int) : ∀ b ∈ Itoa c, b < 0x80 ∧ IsSpace b = false := by
  intro b hb
  rcases Itoa_bytes c b hb with rfl | h
  · decide
  · refine ⟨by omega, ?_⟩
    simp only [IsSpace, Bool.or_eq_false_iff, Bool.and_eq_false_imp, decide_eq_true_eq,
      decide_eq_false_iff_not]
    omega

/-- The tokens of `<code> <lit> <t>`: an ASCII word `lit` without space and a word `t`
without white space. -/
theorem success_parts (c : Int) (lit t : GoString) (hlit : lit ≠ [])
    (hl : ∀ b ∈ lit, b < 0x80 ∧ IsSpace b = false)
    (ht : t ≠ []) (htw : ∀ x ∈ segs t, spaceSeg x = false) :
    (Split (TrimSpace ([0x20] ++ (Itoa c ++ 0x20 :: (lit ++ 0x20 :: t)))) 0x20).filter
      (fun paramPart => paramPart ≠ []) = [Itoa c, lit, t] := by
  have hsp : ∀ b ∈ [0x20], b < 0x80 ∧ IsSpace b = true := by decide
  have hc20 : 0x20 ∉ Itoa c := fun h => by
    have := (Itoa_not_space c _ h).2; revert this; decide
  have hl20 : 0x20 ∉ lit := fun h => by
    have := (hl _ h).2; revert this; decide
  have ht20 : 0x20 ∉ t := not_mem_of_no_space t htw 0x20 (by decide) (by decide)
  have hascii : ∀ b ∈ Itoa c ++ 0x20 :: (lit ++ [0x20]), b < 0x80 := by
    intro b hb
    simp only [List.mem_append, List.mem_cons, List.mem_singleton] at hb
    rcases hb with hb | rfl | hb | hb
    · exact (Itoa_not_space c b hb).1
    · decide
    · exact (hl b hb).1
    · rcases hb with rfl | hb
      · decide
      · simp at hb
  have htrim : TrimSpace ([0x20] ++ (Itoa c ++ 0x20 :: (lit ++ 0x20 :: t))) =
      Itoa c ++ 0x20 :: (lit ++ 0x20 :: t) := by
    rw [TrimSpace_ascii_space_append _ _ hsp]
    apply TrimSpace_eq_self
    · obtain ⟨d, r, hd⟩ : ∃ d r, Itoa c = d :: r := by
        rcases h : Itoa c with _ | ⟨d, r⟩
        · exact absurd h (Itoa_ne_nil c)
        · exact ⟨d, r, rfl⟩
      have hd1 := Itoa_not_space c d (by rw [hd]; exact List.mem_cons_self _ _)
      rw [hd, List.cons_append, segs_cons_ascii _ _ hd1.1]
      intro x hx
      simp only [List.head?_cons, Option.mem_def, Option.some.injEq] at hx
      subst hx
      exact hd1.2
    · have e : Itoa c ++ 0x20 :: (lit ++ 0x20 :: t) = (Itoa c ++ 0x20 :: (lit ++ [0x20])) ++ t := by
        simp
      rw [e, segs_append_ascii _ _ hascii]
      intro x hx
      rw [List.getLast?_append_of_ne_nil _ (segs_ne_nil t ht)] at hx
      exact htw x (List.mem_of_mem_getLast? hx)
  rw [htrim, Split, splitByte_append_sep _ _ _ hc20, splitByte_append_sep _ _ _ hl20,
    splitByte_of_not_mem _ _ ht20]
  simp [Itoa_ne_nil, hlit, ht]

theorem success_line (c : Int) (lit t : GoString) :
    utf8 "@Success " ++ Itoa c ++ ([0x20] ++ lit ++ [0x20]) ++ t =
      utf8 "@Success" ++ ([0x20] ++ (Itoa c ++ 0x20 :: (lit ++ 0x20 :: t))) := by
  have h1 : utf8 "@Success " = utf8 "@Success" ++ [0x20] := by decide
  rw [h1]; simp

/-- C5: for every status code `c` in the range of `int` and every type token `t`
(not empty, without white space), if `Model.ParseModel` succeeds on `t` with the model
`model` (identifier `model.Id`) and the inner models `ms`, then `ParseSuccessComment` on
`@Success c {object} t` returns `nil`, sets `Type` to `model.Id`, appends the response
message with `Code = c`, `ResponseModel = model.Id` and empty `Message`, and appends
`model` followed by `ms` to the models; nothing else changes. -/
theorem ParseSuccessComment_object (env : Env) (operation : Operation) (parser : Parser)
    (c : Int) (t : GoString) (model : Model) (ms : List Model)
    (hw : 0 < env.IntSize) (hlo : -(2 ^ (env.IntSize - 1) : Int) ≤ c)
    (hhi : c < (2 ^ (env.IntSize - 1) : Int))
    (ht : t ≠ []) (htw : ∀ x ∈ segs t, spaceSeg x = false)
    (hp : operation.parser = some parser)
    (hres : env.ParseModel parser t parser.CurrentPackage = .ok (model, ms)) :
    ParseSuccessComment env operation (utf8 "@Success " ++ Itoa c ++ utf8 " {object} " ++ t) =
      ⟨{ operation with
          «Type» := model.Id
          models := operation.models ++ [model] ++ ms
          ResponseMessages := operation.ResponseMessages ++
            [{ Code := c, ResponseModel := model.Id, Message := [] }] }, .nil⟩ := by
  have e1 : utf8 " {object} " = [0x20] ++ utf8 "{object}" ++ [0x20] := by decide
  rw [e1, success_line, ParseSuccessComment_unfold,
    success_parts c (utf8 "{object}") t (by decide) (by decide) ht htw]
  simp only [successParts, Atoi_Itoa _ c hw hlo hhi, hp, hres, true_or, if_true,
    (by decide : utf8 "{object}" ≠ utf8 "{array}"), if_false]

/-- C5, at `@Success 200 {object} Pet`. -/
theorem ParseSuccessComment_object_witness :
    ParseSuccessComment sampleEnv (NewOperation (some {}) [])
        (utf8 "@Success " ++ Itoa 200 ++ utf8 " {object} " ++ utf8 "Pet") =
      ⟨{ NewOperation (some {}) [] with
          «Type» := utf8 "Pet"
          models := [{ Id := utf8 "Pet" }]
          ResponseMessages := [{ Code := 200, ResponseModel := utf8 "Pet", Message := [] }] },
        .nil⟩ :=
  ParseSuccessComment_object sampleEnv (NewOperation (some {}) []) {} 200 (utf8 "Pet")
    { Id := utf8 "Pet" } [] (by decide) (by decide) (by decide) (by decide) (by decide) rfl rfl

/-- C6: for every status code `c` in the range of `int` and every type token `t`
(not empty, without white space), if `Model.ParseModel` succeeds on `t` with a model of
identifier `model.Id`, then `ParseSuccessComment` on `@Success c {array} t` returns
`nil`, sets `Type` to `array` and makes `Items` refer to `model.Id`: `Items.Ref` is
`model.Id` and `Items.Type` empty when `model.Id` is not a basic type, `Items.Type` is
`model.Id` and `Items.Ref` empty when it is one. -/
theorem ParseSuccessComment_array (env : Env) (operation : Operation) (parser : Parser)
    (c : Int) (t : GoString) (model : Model) (ms : List Model)
    (hw : 0 < env.IntSize) (hlo : -(2 ^ (env.IntSize - 1) : Int) ≤ c)
    (hhi : c < (2 ^ (env.IntSize - 1) : Int))
    (ht : t ≠ []) (htw : ∀ x ∈ segs t, spaceSeg x = false)
    (hp : operation.parser = some parser)
    (hres : env.ParseModel parser t parser.CurrentPackage = .ok (model, ms)) :
    ParseSuccessComment env operation (utf8 "@Success " ++ Itoa c ++ utf8 " {array} " ++ t) =
      ⟨{ operation with
          «Type» := utf8 "array"
          Items := if env.IsBasicType model.Id then { «Type» := model.Id, Ref := [] }
            else { Ref := model.Id, «Type» := [] }
          models := operation.models ++ [model] ++ ms
          ResponseMessages := operation.ResponseMessages ++
            [{ Code := c, ResponseModel := model.Id, Message := [] }] }, .nil⟩ := by
  have e1 : utf8 " {array} " = [0x20] ++ utf8 "{array}" ++ [0x20] := by decide
  rw [e1, success_line, ParseSuccessComment_unfold,
    success_parts c (utf8 "{array}") t (by decide) (by decide) ht htw]
  simp only [successParts, Atoi_Itoa _ c hw hlo hhi, hp, hres, or_true, if_true, SetItemsType]
  split_ifs <;> rfl

/-- C6, at `@Success 200 {array} Pet` (a model) and `@Success 200 {array} int` (a
basic type). -/
theorem ParseSuccessComment_array_witness :
    ParseSuccessComment sampleEnv (NewOperation (some {}) [])
        (utf8 "@Success " ++ Itoa 200 ++ utf8 " {array} " ++ utf8 "Pet") =
      ⟨{ NewOperation (some {}) [] with
          «Type» := utf8 "array"
          Items := { Ref := utf8 "Pet", «Type» := [] }
          models := [{ Id := utf8 "Pet" }]
          ResponseMessages := [{ Code := 200, ResponseModel := utf8 "Pet", Message := [] }] },
        .nil⟩ ∧
    (ParseSuccessComment sampleEnv (NewOperation (some {}) [])
        (utf8 "@Success " ++ Itoa 200 ++ utf8 " {array} " ++ utf8 "int")).op.Items =
      { «Type» := utf8 "int", Ref := [] } :=
  ⟨ParseSuccessComment_array sampleEnv (NewOperation (some {}) []) {} 200 (utf8 "Pet")
    { Id := utf8 "Pet" } [] (by decide) (by decide) (by decide) (by decide) (by decide) rfl rfl,
   congrArg (fun o => o.op.Items)
    (ParseSuccessComment_array sampleEnv (NewOperation (some {}) []) {} 200 (utf8 "int")
      { Id := utf8 "int" } [] (by decide) (by decide) (by decide) (by decide) (by decide)
      rfl rfl)⟩

/-- C7 (what the code does): on `@Success 200 OK great job` the message stored is
`great`, the third token alone, not the remaining text `great job`; the models, `Type`
and `Items` are unchanged. -/
theorem ParseSuccessComment_message_third_token :
    ParseSuccessComment sampleEnv (NewOperation (some {}) []) (utf8 "@Success 200 OK great job") =
      ⟨{ NewOperation (some {}) [] with
          ResponseMessages := [{ Code := 200, Message := utf8 "great" }] }, .nil⟩ ∧
    utf8 "great" ≠ utf8 "great job" := by
  decide
/-! ## `ParseParamComment` -/

/-- Greedy `[class]+` takes a whole run of the class when what follows the run is not
in the class and the rest of the expression matches there. -/
theorem plusRun_eq {α : Type} (p : Nat → Bool) (xs rest : List Seg) (k : List Seg → Option α)
    (hx : xs ≠ []) (hall : ∀ x ∈ xs, p x.rune = true)
    (hrest : ∀ y ∈ rest.head?, p y.rune = false) (hk : (k rest).isSome = true) :
    plusRun p (xs ++ rest) k = k rest := by
  have hnone : plusRun p rest k = none := by
    rcases rest with _ | ⟨y, rest⟩
    · rfl
    · simp [plusRun, hrest y (by simp)]
  induction xs with
  | nil => exact absurd rfl hx
  | cons x xs ih =>
    have hpx := hall x (List.mem_cons_self _ _)
    rcases xs with _ | ⟨x1, xs⟩
    · simp [plusRun, hpx, hnone]
    · have := ih (List.cons_ne_nil _ _) fun y hy => hall y (List.mem_cons_of_mem _ hy)
      rw [List.cons_append, plusRun, if_pos hpx, this]
      rcases h : k rest with _ | r
      · rw [h] at hk; simp at hk
      · rfl

/-- A group around `[class]+` captures the run. -/
theorem run_group_plus {α : Type} (i : Nat) (p : Nat → Bool) (xs rest : List Seg)
    (caps : List GoString) (k : List Seg → List GoString → Option α)
    (hx : xs ≠ []) (hall : ∀ x ∈ xs, p x.rune = true)
    (hrest : ∀ y ∈ rest.head?, p y.rune = false)
    (hk : (k rest (caps.set i (joinSegs xs))).isSome = true) :
    (Regex.group i (.plus p)).run (xs ++ rest) caps k = k rest (caps.set i (joinSegs xs)) := by
  simp only [Regex.run]
  have htake : (xs ++ rest).take ((xs ++ rest).length - rest.length) = xs := by
    rw [List.length_append, Nat.add_sub_cancel]; exact List.take_left' rfl
  rw [plusRun_eq p xs rest _ hx hall hrest (by rw [htake]; exact hk), htake]

theorem run_plus {α : Type} (p : Nat → Bool) (xs rest : List Seg)
    (caps : List GoString) (k : List Seg → List GoString → Option α)
    (hx : xs ≠ []) (hall : ∀ x ∈ xs, p x.rune = true)
    (hrest : ∀ y ∈ rest.head?, p y.rune = false)
    (hk : (k rest caps).isSome = true) :
    (Regex.plus p).run (xs ++ rest) caps k = k rest caps := by
  simp only [Regex.run]
  exact plusRun_eq p xs rest _ hx hall hrest hk

/-- A word, white space, and then the rest of the expression `r`: the step
`([\w]+)[\s]+` of the expression of `ParseParamComment`. -/
theorem run_word_space {α : Type} (i : Nat) (r : Regex) (tok ws : GoString) (rest : List Seg)
    (caps : List GoString) (k : List Seg → List GoString → Option α)
    (htok : wordToken tok = true) (hws : perlSpaces ws = true)
    (hrest : ∀ y ∈ rest.head?, isPerlSpace y.rune = false)
    (hk : (r.run rest (caps.set i tok) k).isSome = true) :
    (wordSpace i r).run (tok.map asciiSeg ++ (ws.map asciiSeg ++ rest)) caps k =
      r.run rest (caps.set i tok) k := by
  unfold wordSpace
  simp only [wordToken, perlSpaces, Bool.and_eq_true, Bool.not_eq_true', List.isEmpty_eq_false,
    List.all_eq_true] at htok hws
  have h1 : tok.map asciiSeg ≠ [] := by simpa using htok.1
  have h2 : ws.map asciiSeg ≠ [] := by simpa using hws.1
  have h3 : ∀ x ∈ tok.map asciiSeg, isWord x.rune = true := by
    intro x hx; obtain ⟨b, hb, rfl⟩ := List.mem_map.mp hx; exact htok.2 b hb
  have h4 : ∀ x ∈ ws.map asciiSeg, isPerlSpace x.rune = true := by
    intro x hx; obtain ⟨b, hb, rfl⟩ := List.mem_map.mp hx; exact hws.2 b hb
  have h5 : ∀ y ∈ (ws.map asciiSeg ++ rest).head?, isWord y.rune = false := by
    intro y hy
    rcases ws with _ | ⟨b, ws⟩
    · exact absurd rfl hws.1
    · simp only [List.map_cons, List.cons_append, List.head?_cons, Option.mem_def,
        Option.some.injEq] at hy
      subst hy
      have := hws.2 b (List.mem_cons_self _ _)
      simp only [isPerlSpace, Bool.or_eq_true, decide_eq_true_eq] at this
      rcases this with (((rfl | rfl) | rfl) | rfl) | rfl <;> decide
  have hstep : (Regex.plus isPerlSpace).run (ws.map asciiSeg ++ rest)
      (caps.set i (joinSegs (tok.map asciiSeg))) (fun rest1 caps1 => r.run rest1 caps1 k) =
      r.run rest (caps.set i tok) k := by
    rw [run_plus isPerlSpace _ rest _ _ h2 h4 hrest (by rw [joinSegs_map_asciiSeg]; exact hk),
      joinSegs_map_asciiSeg]
  rw [Regex.run, run_group_plus i isWord _ _ caps _ h1 h3 h5]
  · rw [Regex.run]; exact hstep
  · rw [Regex.run, hstep]; exact hk

/-- The runes of a text without the byte `"` are all different from `"`. -/
theorem segs_no_quote (d : GoString) (hd : 0x22 ∉ d) :
    ∀ x ∈ segs d, (x.rune != 0x22) = true := by
  intro x hx
  simp only [bne_iff_ne, ne_eq]
  intro h
  rcases (mem_segs_spec d x hx).2 with ⟨_, h2⟩ | ⟨h1, _⟩
  · apply hd
    rw [← joinSegs_segs d]
    refine List.mem_flatMap.mpr ⟨x, hx, ?_⟩
    rw [h2, h]; exact List.mem_singleton_self _
  · omega

/-- The step `"([^"]+)"` that ends the expression of `ParseParamComment`. -/
theorem run_quoted {α : Type} (d : GoString) (caps : List GoString)
    (k : List Seg → List GoString → Option α) (hd : d ≠ []) (hq : 0x22 ∉ d)
    (hk : (k [] (caps.set 5 d)).isSome = true) :
    quotedRegex.run (asciiSeg 0x22 :: (segs d ++ [asciiSeg 0x22])) caps k =
      k [] (caps.set 5 d) := by
  unfold quotedRegex
  have hlast : (Regex.cls fun r => decide (r = 0x22)).run [asciiSeg 0x22] (caps.set 5 d) k =
      k [] (caps.set 5 d) := by
    simp [Regex.run, asciiSeg]
  have hgroup : (Regex.group 5 (.plus fun r => r != 0x22)).run (segs d ++ [asciiSeg 0x22]) caps
      (fun rest1 caps1 => (Regex.cls fun r => decide (r = 0x22)).run rest1 caps1 k) =
      k [] (caps.set 5 d) := by
    rw [run_group_plus 5 _ (segs d) [asciiSeg 0x22] caps _ (segs_ne_nil d hd)
      (segs_no_quote d hq) (by simp [asciiSeg]) (by rw [joinSegs_segs, hlast]; exact hk),
      joinSegs_segs, hlast]
  rw [Regex.run]
  simp only [Regex.run, asciiSeg, decide_True, if_true] at hgroup ⊢
  exact hgroup

theorem wordToken_ascii (s : GoString) (h : wordToken s = true) :
    s ≠ [] ∧ ∀ b ∈ s, b < 0x80 ∧ IsSpace b = false ∧ isPerlSpace b = false := by
  simp only [wordToken, Bool.and_eq_true, Bool.not_eq_true', List.isEmpty_eq_false,
    List.all_eq_true] at h
  refine ⟨h.1, fun b hb => ?_⟩
  have := h.2 b hb
  simp only [isWord, Bool.or_eq_true, Bool.and_eq_true, decide_eq_true_eq] at this
  simp only [IsSpace, isPerlSpace, Bool.or_eq_false_iff, Bool.and_eq_false_imp,
    decide_eq_true_eq, decide_eq_false_iff_not]
  omega

theorem perlSpaces_ascii (s : GoString) (h : perlSpaces s = true) :
    s ≠ [] ∧ ∀ b ∈ s, b < 0x80 := by
  simp only [perlSpaces, Bool.and_eq_true, Bool.not_eq_true', List.isEmpty_eq_false,
    List.all_eq_true] at h
  refine ⟨h.1, fun b hb => ?_⟩
  have := h.2 b hb
  simp only [isPerlSpace, Bool.or_eq_true, decide_eq_true_eq] at this
  omega

theorem head_map_asciiSeg_append (tok : GoString) (rest : List Seg) (htok : wordToken tok = true) :
    ∀ y ∈ (tok.map asciiSeg ++ rest).head?, isPerlSpace y.rune = false ∧ spaceSeg y = false := by
  obtain ⟨h1, h2⟩ := wordToken_ascii tok htok
  rcases tok with _ | ⟨b, tok⟩
  · exact absurd rfl h1
  · intro y hy
    simp only [List.map_cons, List.cons_append, List.head?_cons, Option.mem_def,
      Option.some.injEq] at hy
    subst hy
    exact ⟨(h2 b (List.mem_cons_self _ _)).2.2, (h2 b (List.mem_cons_self _ _)).2.1⟩

theorem paramText_eq (name pt dt req d ws1 ws2 ws3 ws4 : GoString) :
    paramText name pt dt req d ws1 ws2 ws3 ws4 =
      name ++ (ws1 ++ (pt ++ (ws2 ++ (dt ++ (ws3 ++ (req ++ (ws4 ++ (0x22 :: (d ++ [0x22]))))))))) := by
  simp [paramText]

/-- The segments of the text of a well-formed parameter directive. -/
theorem segs_param (name pt dt req d ws1 ws2 ws3 ws4 : GoString)
    (hname : wordToken name = true) (hpt : wordToken pt = true) (hdt : wordToken dt = true)
    (hreq : wordToken req = true) (hws1 : perlSpaces ws1 = true) (hws2 : perlSpaces ws2 = true)
    (hws3 : perlSpaces ws3 = true) (hws4 : perlSpaces ws4 = true) :
    segs (paramText name pt dt req d ws1 ws2 ws3 ws4) =
    name.map asciiSeg ++ (ws1.map asciiSeg ++ (pt.map asciiSeg ++ (ws2.map asciiSeg ++
      (dt.map asciiSeg ++ (ws3.map asciiSeg ++ (req.map asciiSeg ++ (ws4.map asciiSeg ++
        (asciiSeg 0x22 :: (segs d ++ [asciiSeg 0x22])))))))))  := by
  rw [paramText_eq,
    segs_append_ascii _ _ fun b hb => ((wordToken_ascii name hname).2 b hb).1,
    segs_append_ascii _ _ (perlSpaces_ascii ws1 hws1).2,
    segs_append_ascii _ _ fun b hb => ((wordToken_ascii pt hpt).2 b hb).1,
    segs_append_ascii _ _ (perlSpaces_ascii ws2 hws2).2,
    segs_append_ascii _ _ fun b hb => ((wordToken_ascii dt hdt).2 b hb).1,
    segs_append_ascii _ _ (perlSpaces_ascii ws3 hws3).2,
    segs_append_ascii _ _ fun b hb => ((wordToken_ascii req hreq).2 b hb).1,
    segs_append_ascii _ _ (perlSpaces_ascii ws4 hws4).2,
    segs_cons_ascii _ _ (by decide), segs_append_noncont _ _ _ (by decide),
    segs_cons_ascii _ _ (by decide), segs_nil]
  rfl

/-- The expression of `ParseParamComment` on the text of a well-formed parameter
directive: the match is the whole text, the groups are the four words and the quoted
description. -/
theorem FindStringSubmatch_param (name pt dt req d ws1 ws2 ws3 ws4 : GoString)
    (hname : wordToken name = true) (hpt : wordToken pt = true) (hdt : wordToken dt = true)
    (hreq : wordToken req = true) (hws1 : perlSpaces ws1 = true) (hws2 : perlSpaces ws2 = true)
    (hws3 : perlSpaces ws3 = true) (hws4 : perlSpaces ws4 = true)
    (hd : d ≠ []) (hq : 0x22 ∉ d) :
    FindStringSubmatch paramRegex 5 (paramText name pt dt req d ws1 ws2 ws3 ws4) =
      [paramText name pt dt req d ws1 ws2 ws3 ws4, name, pt, dt, req, d] := by
  have hsegs := segs_param name pt dt req d ws1 ws2 ws3 ws4 hname hpt hdt hreq hws1 hws2 hws3 hws4
  have hquote : ∀ y ∈ (asciiSeg 0x22 :: (segs d ++ [asciiSeg 0x22])).head?,
      isPerlSpace y.rune = false := by
    intro y hy
    simp only [List.head?_cons, Option.mem_def, Option.some.injEq] at hy
    subst hy; decide
  -- the continuation of `matchHere`, which always succeeds
  have h5 : ∀ (caps : List GoString) (k : List Seg → List GoString → Option (List GoString)),
      (∀ r c, (k r c).isSome = true) →
      quotedRegex.run (asciiSeg 0x22 :: (segs d ++ [asciiSeg 0x22])) caps k =
        k [] (caps.set 5 d) := fun caps k hk => run_quoted d caps k hd hq (hk _ _)
  have h4 : ∀ (caps : List GoString) (k : List Seg → List GoString → Option (List GoString)),
      (∀ r c, (k r c).isSome = true) →
      (wordSpace 4 quotedRegex).run (req.map asciiSeg ++ (ws4.map asciiSeg ++
        (asciiSeg 0x22 :: (segs d ++ [asciiSeg 0x22])))) caps k =
        k [] ((caps.set 4 req).set 5 d) := fun caps k hk => by
    rw [run_word_space 4 _ req ws4 _ _ _ hreq hws4 hquote (by rw [h5 _ k hk]; exact hk _ _),
      h5 _ k hk]
  have h3 : ∀ (caps : List GoString) (k : List Seg → List GoString → Option (List GoString)),
      (∀ r c, (k r c).isSome = true) →
      (wordSpace 3 (wordSpace 4 quotedRegex)).run (dt.map asciiSeg ++ (ws3.map asciiSeg ++
        (req.map asciiSeg ++ (ws4.map asciiSeg ++
        (asciiSeg 0x22 :: (segs d ++ [asciiSeg 0x22])))))) caps k =
        k [] (((caps.set 3 dt).set 4 req).set 5 d) := fun caps k hk => by
    rw [run_word_space 3 _ dt ws3 _ _ _ hdt hws3
        (fun y hy => (head_map_asciiSeg_append req _ hreq y hy).1)
        (by rw [h4 _ k hk]; exact hk _ _), h4 _ k hk]
  have h2 : ∀ (caps : List GoString) (k : List Seg → List GoString → Option (List GoString)),
      (∀ r c, (k r c).isSome = true) →
      (wordSpace 2 (wordSpace 3 (wordSpace 4 quotedRegex))).run
        (pt.map asciiSeg ++ (ws2.map asciiSeg ++ (dt.map asciiSeg ++ (ws3.map asciiSeg ++
        (req.map asciiSeg ++ (ws4.map asciiSeg ++
        (asciiSeg 0x22 :: (segs d ++ [asciiSeg 0x22])))))))) caps k =
        k [] ((((caps.set 2 pt).set 3 dt).set 4 req).set 5 d) := fun caps k hk => by
    rw [run_word_space 2 _ pt ws2 _ _ _ hpt hws2
        (fun y hy => (head_map_asciiSeg_append dt _ hdt y hy).1)
        (by rw [h3 _ k hk]; exact hk _ _), h3 _ k hk]
  have h1 : ∀ (caps : List GoString) (k : List Seg → List GoString → Option (List GoString)),
      (∀ r c, (k r c).isSome = true) →
      paramRegex.run (segs (paramText name pt dt req d ws1 ws2 ws3 ws4)) caps k =
        k [] (((((caps.set 1 name).set 2 pt).set 3 dt).set 4 req).set 5 d) := fun caps k hk => by
    rw [hsegs, paramRegex, run_word_space 1 _ name ws1 _ _ _ hname hws1
        (fun y hy => (head_map_asciiSeg_append pt _ hpt y hy).1)
        (by rw [h2 _ k hk]; exact hk _ _), h2 _ k hk]
  have hmatch : matchHere paramRegex 5 (segs (paramText name pt dt req d ws1 ws2 ws3 ws4)) =
      some [paramText name pt dt req d ws1 ws2 ws3 ws4, name, pt, dt, req, d] := by
    unfold matchHere
    rw [h1 (List.replicate (5 + 1) [])
      (fun rest caps => some (caps.set 0 (joinSegs
        ((segs (paramText name pt dt req d ws1 ws2 ws3 ws4)).take
          ((segs (paramText name pt dt req d ws1 ws2 ws3 ws4)).length - rest.length)))))
      (fun _ _ => rfl)]
    simp [joinSegs_segs]
  have hne : segs (paramText name pt dt req d ws1 ws2 ws3 ws4) ≠ [] := by
    apply segs_ne_nil
    have := (wordToken_ascii name hname).1
    simp [paramText, this]
  unfold FindStringSubmatch
  rcases hs : segs (paramText name pt dt req d ws1 ws2 ws3 ws4) with _ | ⟨x, l⟩
  · exact absurd hs hne
  · rw [hs] at hmatch
    rw [searchSegs, hmatch]

theorem TrimSpace_paramText (name pt dt req d ws0 ws1 ws2 ws3 ws4 : GoString)
    (hname : wordToken name = true) (hpt : wordToken pt = true) (hdt : wordToken dt = true)
    (hreq : wordToken req = true) (hws1 : perlSpaces ws1 = true) (hws2 : perlSpaces ws2 = true)
    (hws3 : perlSpaces ws3 = true) (hws4 : perlSpaces ws4 = true)
    (hws0 : ∀ b ∈ ws0, b < 0x80 ∧ IsSpace b = true) :
    TrimSpace (ws0 ++ paramText name pt dt req d ws1 ws2 ws3 ws4) =
      paramText name pt dt req d ws1 ws2 ws3 ws4 := by
  rw [TrimSpace_ascii_space_append _ _ hws0]
  apply TrimSpace_eq_self
  · rw [segs_param name pt dt req d ws1 ws2 ws3 ws4 hname hpt hdt hreq hws1 hws2 hws3 hws4]
    exact fun y hy => (head_map_asciiSeg_append name _ hname y hy).2
  · have e : paramText name pt dt req d ws1 ws2 ws3 ws4 =
        (name ++ ws1 ++ pt ++ ws2 ++ dt ++ ws3 ++ req ++ ws4 ++ [0x22] ++ d) ++ 0x22 :: [] := rfl
    rw [e, segs_append_noncont _ _ _ (by decide), segs_cons_ascii _ _ (by decide), segs_nil]
    intro x hx
    rw [List.getLast?_concat] at hx
    simp only [Option.mem_def, Option.some.injEq] at hx
    subst hx; decide

/-- C4 (as amended): for four non-empty words `name`, `paramType`, `dataType`, `req` of
ASCII word characters, a non-empty description `d` without double quote, a non-empty run
`ws0` of ASCII white space after the tag and non-empty runs `ws1` .. `ws4` of space,
`\t`, `\n`, `\f` or `\r` between the parts, `ParseParamComment` on
`@Param name paramType dataType req "d"` returns `nil` and appends exactly one
`Parameter` at the end of `Parameters`, the earlier entries and all other fields
unchanged, with `Name = name`, `ParamType = paramType`, `Type = DataType = dataType`,
`Description = d`, and `Required` true exactly when `req` lower-cased is `true`. -/
theorem ParseParamComment_appends (env : Env) (operation : Operation)
    (name paramType dataType req d ws0 ws1 ws2 ws3 ws4 : GoString)
    (hname : wordToken name = true) (hpt : wordToken paramType = true)
    (hdt : wordToken dataType = true) (hreq : wordToken req = true)
    (hws0 : asciiSpaces ws0 = true) (hws1 : perlSpaces ws1 = true)
    (hws2 : perlSpaces ws2 = true) (hws3 : perlSpaces ws3 = true)
    (hws4 : perlSpaces ws4 = true) (hd : d ≠ []) (hq : 0x22 ∉ d) :
    ParseParamComment env operation
        (utf8 "@Param" ++ ws0 ++ paramText name paramType dataType req d ws1 ws2 ws3 ws4) =
      ⟨{ operation with
          Parameters := operation.Parameters ++
            [{ Name := name, ParamType := paramType, «Type» := dataType, DataType := dataType,
               Required := decide (req.map lowerByte = utf8 "true"), Description := d }] },
        .nil⟩ := by
  simp only [asciiSpaces, Bool.and_eq_true, Bool.not_eq_true', List.isEmpty_eq_false,
    List.all_eq_true, decide_eq_true_eq] at hws0
  obtain ⟨w, ws, rfl⟩ : ∃ w ws, ws0 = w :: ws := by
    rcases ws0 with _ | ⟨w, ws⟩
    · exact absurd rfl hws0.1
    · exact ⟨w, ws, rfl⟩
  have hws : ∀ b ∈ ws, b < 0x80 ∧ IsSpace b = true := fun b hb =>
    hws0.2 b (List.mem_cons_of_mem _ hb)
  have hline : utf8 "@Param" ++ (w :: ws) ++ paramText name paramType dataType req d ws1 ws2 ws3 ws4
      = (utf8 "@Param" ++ [w]) ++ (ws ++ paramText name paramType dataType req d ws1 ws2 ws3 ws4) := by
    simp
  have hlen : ¬ ((utf8 "@Param" ++ [w]) ++
      (ws ++ paramText name paramType dataType req d ws1 ws2 ws3 ws4)).length <
      (utf8 "@Param ").length := by
    rw [List.length_append, List.length_append]
    have h7 : (utf8 "@Param ").length = 7 := by decide
    have h6 : (utf8 "@Param").length = 6 := by decide
    rw [h7, h6, List.length_singleton]
    omega
  have hdrop : ((utf8 "@Param" ++ [w]) ++
      (ws ++ paramText name paramType dataType req d ws1 ws2 ws3 ws4)).drop
      (utf8 "@Param ").length =
      ws ++ paramText name paramType dataType req d ws1 ws2 ws3 ws4 :=
    List.drop_left' (by
      rw [List.length_append, List.length_singleton]
      exact (by decide : (utf8 "@Param").length + 1 = (utf8 "@Param ").length))
  have hlower : ToLower env.unicodeLower req = req.map lowerByte := by
    unfold ToLower
    rw [if_pos]
    rw [List.all_eq_true]
    intro b hb
    simpa using ((wordToken_ascii req hreq).2 b hb).1
  rw [hline]
  unfold ParseParamComment
  simp only [hlen, hdrop, if_false,
    TrimSpace_paramText name paramType dataType req d ws ws1 ws2 ws3 ws4 hname hpt hdt hreq
      hws1 hws2 hws3 hws4 hws,
    FindStringSubmatch_param name paramType dataType req d ws1 ws2 ws3 ws4 hname hpt hdt hreq
      hws1 hws2 hws3 hws4 hd hq]
  simp [hlower]

/-- C4, at `@Param id path int TRUE "pet id"` (required) and
`@Param id path int yes "pet id"` (not required). -/
theorem ParseParamComment_appends_witness :
    ParseParamComment sampleEnv (NewOperation none [])
        (utf8 "@Param" ++ utf8 " " ++
          paramText (utf8 "id") (utf8 "path") (utf8 "int") (utf8 "TRUE") (utf8 "pet id")
            (utf8 " ") (utf8 "\t") (utf8 "  ") (utf8 " ")) =
      ⟨{ NewOperation none [] with
          Parameters :=
            [{ Name := utf8 "id", ParamType := utf8 "path", «Type» := utf8 "int",
               DataType := utf8 "int", Required := true, Description := utf8 "pet id" }] },
        .nil⟩ ∧
    ((ParseParamComment sampleEnv (NewOperation none [])
        (utf8 "@Param" ++ utf8 " " ++
          paramText (utf8 "id") (utf8 "path") (utf8 "int") (utf8 "yes") (utf8 "pet id")
            (utf8 " ") (utf8 " ") (utf8 " ") (utf8 " "))).op.Parameters.map
        fun q => q.Required) = [false] :=
  ⟨ParseParamComment_appends sampleEnv (NewOperation none []) (utf8 "id") (utf8 "path")
      (utf8 "int") (utf8 "TRUE") (utf8 "pet id") (utf8 " ") (utf8 " ") (utf8 "\t") (utf8 "  ")
      (utf8 " ") (by decide) (by decide) (by decide) (by decide) (by decide) (by decide)
      (by decide) (by decide) (by decide) (by decide) (by decide),
   congrArg (fun o => o.op.Parameters.map fun q => q.Required)
    (ParseParamComment_appends sampleEnv (NewOperation none []) (utf8 "id") (utf8 "path")
      (utf8 "int") (utf8 "yes") (utf8 "pet id") (utf8 " ") (utf8 " ") (utf8 " ") (utf8 " ")
      (utf8 " ") (by decide) (by decide) (by decide) (by decide) (by decide) (by decide)
      (by decide) (by decide) (by decide) (by decide) (by decide))⟩

/-- C4 as stated fails: a vertical tab is ASCII white space, and with a vertical tab
between `path` and `int` the expression of `ParseParamComment` does not match, so that
the call returns an error and appends nothing. -/
theorem ParseParamComment_vertical_tab :
    asciiSpaces [0x0B] = true ∧
    ParseParamComment sampleEnv (NewOperation none [])
        (utf8 "@Param" ++ utf8 " " ++
          paramText (utf8 "id") (utf8 "path") (utf8 "int") (utf8 "true") (utf8 "pet id")
            (utf8 " ") [0x0B] (utf8 " ") (utf8 " ")) =
      ⟨NewOperation none [], .err (.paramError
        (paramText (utf8 "id") (utf8 "path") (utf8 "int") (utf8 "true") (utf8 "pet id")
            (utf8 " ") [0x0B] (utf8 " ") (utf8 " ")))⟩ := by
  decide
/-! ## `ParseFailureComment` -/

theorem failureLoop_nonspace (st : GoString) (A R : List Seg)
    (hA : ∀ x ∈ A, spaceSeg x = false) :
    ∀ (i : Nat) (code : List Nat) (start : Bool) (msg : GoString),
    failureLoop st (rangeFrom i (A ++ R)) code start msg =
      failureLoop st (rangeFrom (i + (joinSegs A).length) R) (code ++ A.map Seg.rune)
        (start || !A.isEmpty) msg := by
  induction A with
  | nil => intro i code start msg; simp [joinSegs_nil]
  | cons x A ih =>
    intro i code start msg
    have hx : IsSpace x.rune = false := hA x (List.mem_cons_self _ _)
    rw [List.cons_append, rangeFrom, failureLoop, hx]
    simp only [Bool.false_eq_true, if_false]
    rw [ih (fun y hy => hA y (List.mem_cons_of_mem _ hy)), joinSegs_cons, List.length_append]
    simp [Nat.add_assoc]

/-- The loop of `ParseFailureComment` on a statement whose first rune is no white space:
the code is made of the runes before the first white space, and the message is the
trimmed text after the byte that follows them, when there is such a white space. -/
theorem failureLoop_result (st : GoString) (T : List Seg)
    (hhead : ∀ x ∈ T.head?, spaceSeg x = false) :
    failureLoop st (rangeFrom 0 T) [] false [] =
      ((T.takeWhile fun x => !spaceSeg x).map Seg.rune,
        if T.dropWhile (fun x => !spaceSeg x) = [] then []
        else TrimSpace (st.drop ((joinSegs (T.takeWhile fun x => !spaceSeg x)).length + 1))) := by
  have hsplit := List.takeWhile_append_dropWhile (fun x => !spaceSeg x) T
  have hA : ∀ x ∈ T.takeWhile (fun x => !spaceSeg x), spaceSeg x = false := by
    intro x hx
    have := List.mem_takeWhile_imp hx
    simpa using this
  conv_lhs => rw [← hsplit]
  rw [failureLoop_nonspace st _ _ hA]
  rcases hR : T.dropWhile (fun x => !spaceSeg x) with _ | ⟨y, R⟩
  · simp [rangeFrom, failureLoop]
  · have hy : spaceSeg y = true := by
      have h0 : 0 < (T.dropWhile (fun x => !spaceSeg x)).length := by rw [hR]; simp
      have := List.dropWhile_get_zero_not (fun x => !spaceSeg x) T h0
      simp only [List.get_eq_getElem, hR, List.getElem_cons_zero] at this
      simpa using this
    have hne : (T.takeWhile fun x => !spaceSeg x).isEmpty = false := by
      rcases T with _ | ⟨z, T⟩
      · simp at hR
      · have hz := hhead z (by simp)
        simp [List.takeWhile_cons, hz]
    have hy1 : IsSpace y.rune = true := hy
    simp [rangeFrom, failureLoop, hy1, hne]

theorem head_dropWhile {α : Type} (p : α → Bool) (l : List α) :
    ∀ x ∈ (l.dropWhile p).head?, p x = false := by
  induction l with
  | nil => intro x hx; simp at hx
  | cons a l ih =>
    intro x hx
    rw [List.dropWhile_cons] at hx
    split_ifs at hx with h
    · exact ih x hx
    · simp only [List.head?_cons, Option.mem_def, Option.some.injEq] at hx
      subst hx; simpa using h

theorem head_TrimSpace (rest : GoString) :
    ∀ x ∈ (segs (TrimSpace rest)).head?, spaceSeg x = false := by
  intro x hx
  rw [segs_TrimSpace, ← dropWhile_rdropWhile_dropWhile] at hx
  exact head_dropWhile _ _ x hx

theorem takeWhile_not_rdropWhile {α : Type} (p : α → Bool) (l : List α) :
    (l.rdropWhile p).takeWhile (fun x => !p x) = l.takeWhile fun x => !p x := by
  induction l using List.reverseRecOn with
  | nil => rfl
  | append_singleton l a ih =>
    by_cases h : p a = true
    · rw [List.rdropWhile_concat_pos _ _ _ h, ih, List.takeWhile_append]
      split_ifs with h1
      · have h2 : l.takeWhile (fun x => !p x) = l :=
          (List.takeWhile_prefix _).eq_of_length h1
        simp [h, h2]
      · rfl
    · rw [List.rdropWhile_concat_neg _ _ _ h]

/-- The code runes that `ParseFailureComment` collects are those of the first token. -/
theorem takeWhile_TrimSpace (rest : GoString) :
    (segs (TrimSpace rest)).takeWhile (fun x => !spaceSeg x) =
      ((segs rest).dropWhile spaceSeg).takeWhile fun x => !spaceSeg x := by
  rw [segs_TrimSpace, takeWhile_not_rdropWhile]

/-- The method `ParseFailureComment` on a line that starts with the tag: the code is
read from the runes of the first token. -/
theorem ParseFailureComment_unfold (env : Env) (operation : Operation) (rest : GoString) :
    ParseFailureComment env operation (utf8 "@Failure" ++ rest) =
      match Atoi env.IntSize
        ((((segs rest).dropWhile spaceSeg).takeWhile fun x => !spaceSeg x).map
          Seg.rune |>.flatMap encodeRune) with
      | .error e =>
        ⟨operation, .err (.failureError
          ((((segs rest).dropWhile spaceSeg).takeWhile fun x => !spaceSeg x).map
            Seg.rune |>.flatMap encodeRune) e)⟩
      | .ok code =>
        ⟨{ operation with
            ResponseMessages := operation.ResponseMessages ++
              [{ Code := code
                 Message :=
                  if (segs (TrimSpace rest)).dropWhile (fun x => !spaceSeg x) = [] then []
                  else TrimSpace ((TrimSpace rest).drop
                    ((joinSegs (((segs rest).dropWhile spaceSeg).takeWhile
                      fun x => !spaceSeg x)).length + 1)) }] }, .nil⟩ := by
  have hlen : ¬ (utf8 "@Failure" ++ rest).length < (utf8 "@Failure").length := by
    rw [List.length_append]; omega
  have hdrop : (utf8 "@Failure" ++ rest).drop (utf8 "@Failure").length = rest :=
    List.drop_left' rfl
  unfold ParseFailureComment
  rw [if_neg hlen, hdrop]
  dsimp only
  rw [rangeString, failureLoop_result _ _ (head_TrimSpace rest), takeWhile_TrimSpace]

theorem parseDigits_ok_digits (w : Nat) (s : GoString) :
    ∀ (acc v : Nat), parseDigits w acc s = .ok v → ∀ b ∈ s, 0x30 ≤ b ∧ b ≤ 0x39 := by
  induction s with
  | nil => intro _ _ _ b hb; simp at hb
  | cons c s ih =>
    intro acc v h b hb
    rw [parseDigits] at h
    split_ifs at h with h1 h2
    rcases List.mem_cons.mp hb with rfl | hb
    · exact h1
    · exact ih _ _ h b hb

theorem signedValue_ok (w : Nat) (neg : Bool) (r : Except NumErr Nat) (v : Int)
    (h : signedValue w neg r = .ok v) : ∃ un, r = .ok un := by
  rcases r with e | un
  · simp [signedValue] at h
  · exact ⟨un, rfl⟩

theorem ParseUint_ok_digits (w : Nat) (s : GoString) (un : Nat) (h : ParseUint w s = .ok un) :
    ∀ b ∈ s, 0x30 ≤ b ∧ b ≤ 0x39 := by
  unfold ParseUint at h
  split_ifs at h
  exact parseDigits_ok_digits w s 0 un h

/-- A text that `strconv.Atoi` accepts is made of ASCII bytes. -/
theorem Atoi_ok_ascii (w : Nat) (s : GoString) (v : Int) (h : Atoi w s = .ok v) :
    ∀ b ∈ s, b < 0x80 := by
  rcases s with _ | ⟨c, t⟩
  · simp [Atoi] at h
  · simp only [Atoi] at h
    intro b hb
    split_ifs at h with h1 h2
    · obtain ⟨un, hu⟩ := signedValue_ok _ _ _ _ h
      rcases List.mem_cons.mp hb with rfl | hb
      · omega
      · have := ParseUint_ok_digits w t un hu b hb; omega
    · obtain ⟨un, hu⟩ := signedValue_ok _ _ _ _ h
      rcases List.mem_cons.mp hb with rfl | hb
      · omega
      · have := ParseUint_ok_digits w t un hu b hb; omega
    · obtain ⟨un, hu⟩ := signedValue_ok _ _ _ _ h
      have := ParseUint_ok_digits w (c :: t) un hu b hb; omega

theorem encodeRune_ascii (r : Nat) (h : r < 0x80) : encodeRune r = [r] := by
  simp [encodeRune, h]

theorem lt_of_encodeRune_ascii (r : Nat) (h : ∀ b ∈ encodeRune r, b < 0x80) : r < 0x80 := by
  by_contra hr
  unfold encodeRune at h
  rw [if_neg hr] at h
  split_ifs at h
  · have := h (0xC0 + r / 64) (by simp); omega
  · have := h 0xEF (by simp); omega
  · have := h (0xE0 + r / 4096) (by simp); omega
  · have := h (0xF0 + r / 262144) (by simp); omega

/-- Re-encoding the runes of segments gives back their bytes when these bytes, or the
re-encoded ones, are all ASCII. -/
theorem encode_runes_eq (s : GoString) (A : List Seg) (hA : ∀ x ∈ A, x ∈ segs s)
    (h : (∀ b ∈ joinSegs A, b < 0x80) ∨ (∀ b ∈ (A.map Seg.rune).flatMap encodeRune, b < 0x80)) :
    (A.map Seg.rune).flatMap encodeRune = joinSegs A := by
  induction A with
  | nil => rfl
  | cons x A ih =>
    have ih1 := ih (fun y hy => hA y (List.mem_cons_of_mem _ hy))
    have hx := mem_segs_spec s x (hA x (List.mem_cons_self _ _))
    have hxr : x.rune < 0x80 := by
      rcases h with h | h
      · rcases hx.2 with h1 | ⟨_, h2⟩
        · exact h1.1
        · rcases hb : x.bytes with _ | ⟨b, t⟩
          · exact absurd hb hx.1
          · have hm : b ∈ x.bytes := by rw [hb]; exact List.mem_cons_self _ _
            have := h b (by rw [joinSegs_cons]; exact List.mem_append_left _ hm)
            have := h2 b hm
            omega
      · apply lt_of_encodeRune_ascii
        intro b hb
        exact h b (by simp only [List.map_cons, List.flatMap_cons]; exact List.mem_append_left _ hb)
    have hxb : x.bytes = [x.rune] := by
      rcases hx.2 with h1 | ⟨h1, _⟩
      · exact h1.2
      · omega
    rw [List.map_cons, List.flatMap_cons, joinSegs_cons, encodeRune_ascii _ hxr, hxb, ih1]
    rcases h with h | h
    · left; intro b hb; exact h b (by rw [joinSegs_cons]; exact List.mem_append_right _ hb)
    · right; intro b hb
      exact h b (by simp only [List.map_cons, List.flatMap_cons]; exact List.mem_append_right _ hb)

theorem Atoi_encode_runes (w : Nat) (s : GoString) (A : List Seg) (hA : ∀ x ∈ A, x ∈ segs s)
    (v : Int) :
    Atoi w ((A.map Seg.rune).flatMap encodeRune) = .ok v ↔ Atoi w (joinSegs A) = .ok v := by
  constructor
  · intro h
    rw [← encode_runes_eq s A hA (Or.inr (Atoi_ok_ascii w _ v h))]; exact h
  · intro h
    rw [encode_runes_eq s A hA (Or.inl (Atoi_ok_ascii w _ v h))]; exact h

theorem Except_error_iff {ε α : Type} (r1 r2 : Except ε α)
    (h : ∀ v, r1 = .ok v ↔ r2 = .ok v) : (∃ e, r1 = .error e) ↔ (∃ e, r2 = .error e) := by
  rcases r1 with e1 | v1 <;> rcases r2 with e2 | v2
  · exact ⟨fun _ => ⟨e2, rfl⟩, fun _ => ⟨e1, rfl⟩⟩
  · have := (h v2).mpr rfl; simp at this
  · have := (h v1).mp rfl; simp at this
  · simp

/-- C9: on a line that starts with `@Failure`, `ParseFailureComment` returns an error
exactly when `strconv.Atoi` rejects the first white-space-delimited token after the tag;
this is so in particular when there is no token at all.  Whenever it returns an error
the operation, and with it `ResponseMessages`, is left unchanged; the call never
panics. -/
theorem ParseFailureComment_error_iff (env : Env) (operation : Operation) (rest : GoString) :
    ((∃ e, (ParseFailureComment env operation (utf8 "@Failure" ++ rest)).exit = .err e) ↔
      ∃ e, Atoi env.IntSize (firstToken rest) = .error e) ∧
    (firstToken rest = [] →
      ∃ e, (ParseFailureComment env operation (utf8 "@Failure" ++ rest)).exit = .err e) ∧
    (∀ e, (ParseFailureComment env operation (utf8 "@Failure" ++ rest)).exit = .err e →
      (ParseFailureComment env operation (utf8 "@Failure" ++ rest)).op = operation) ∧
    (∀ q, (ParseFailureComment env operation (utf8 "@Failure" ++ rest)).exit ≠ .panic q) := by
  have hA : ∀ x ∈ ((segs rest).dropWhile spaceSeg).takeWhile (fun x => !spaceSeg x),
      x ∈ segs rest := fun x hx =>
    (List.dropWhile_subset spaceSeg) ((List.takeWhile_subset _) hx)
  have hiff := Except_error_iff _ _ (Atoi_encode_runes env.IntSize rest _ hA)
  have hmain : (∃ e, (ParseFailureComment env operation (utf8 "@Failure" ++ rest)).exit = .err e) ↔
      ∃ e, Atoi env.IntSize (firstToken rest) = .error e := by
    rw [firstToken, ← hiff, ParseFailureComment_unfold]
    rcases Atoi env.IntSize _ with e | v
    · simp
    · simp
  refine ⟨hmain, ?_, ?_, ?_⟩
  · intro h
    apply hmain.mpr
    rw [h]
    exact ⟨.ErrSyntax, rfl⟩
  · intro e
    rw [ParseFailureComment_unfold]
    rcases Atoi env.IntSize _ with e1 | v
    · intro _; rfl
    · intro h; simp at h
  · intro q
    rw [ParseFailureComment_unfold]
    rcases Atoi env.IntSize _ with e1 | v <;> simp

theorem dropWhile_rdropWhile_comm {α : Type} (p : α → Bool) (l : List α) :
    (l.rdropWhile p).dropWhile p = (l.dropWhile p).rdropWhile p := by
  by_cases hN : l.dropWhile p = []
  · have hall : ∀ x ∈ l, p x = true := List.dropWhile_eq_nil_iff.mp hN
    have : l.rdropWhile p = [] := List.rdropWhile_eq_nil_iff.mpr hall
    rw [this, hN]; rfl
  · have hne : (l.dropWhile p).rdropWhile p ≠ [] := by
      intro h0
      have hall := List.rdropWhile_eq_nil_iff.mp h0
      rcases hd : l.dropWhile p with _ | ⟨y, t⟩
      · exact hN hd
      · have h1 := head_dropWhile p l y (by rw [hd]; simp)
        have h2 := hall y (by rw [hd]; exact List.mem_cons_self _ _)
        rw [h1] at h2; exact absurd h2 (by simp)
    have hsplit := List.takeWhile_append_dropWhile p l
    conv_lhs => rw [← hsplit]
    rw [rdropWhile_append_of_ne_nil _ _ _ hne,
      List.dropWhile_append_of_pos fun a ha => List.mem_takeWhile_imp ha,
      dropWhile_rdropWhile_dropWhile]

theorem rdropWhile_dropWhile_rdropWhile {α : Type} (p : α → Bool) (l : List α) :
    ((l.rdropWhile p).dropWhile p).rdropWhile p = (l.dropWhile p).rdropWhile p := by
  rw [dropWhile_rdropWhile_comm, List.rdropWhile_idempotent]

/-- Trimming a text cut before its trailing white space gives the trimmed text. -/
theorem TrimSpace_joinSegs_rdropWhile (m : GoString) :
    TrimSpace (joinSegs ((segs m).rdropWhile spaceSeg)) = TrimSpace m := by
  obtain ⟨t, ht⟩ := List.rdropWhile_prefix spaceSeg (l := segs m)
  have h := segs_joinSegs_prefix m _ t ht.symm
  unfold TrimSpace
  rw [h, rdropWhile_dropWhile_rdropWhile]

theorem asciiSpaces_spec (ws : GoString) (h : asciiSpaces ws = true) :
    ws ≠ [] ∧ ∀ b ∈ ws, b < 0x80 ∧ IsSpace b = true := by
  simpa [asciiSpaces] using h

theorem flatMap_encodeRune_ascii (s : GoString) (h : ∀ b ∈ s, b < 0x80) :
    s.flatMap encodeRune = s := by
  induction s with
  | nil => rfl
  | cons b s ih =>
    rw [List.flatMap_cons, encodeRune_ascii b (h b (List.mem_cons_self _ _)),
      ih fun c hc => h c (List.mem_cons_of_mem _ hc)]
    rfl

theorem map_rune_asciiSeg (s : GoString) : (s.map asciiSeg).map Seg.rune = s := by
  induction s with
  | nil => rfl
  | cons b s ih => rw [List.map_cons, List.map_cons, ih]; rfl

/-- C8: for every integer `n` in the range of `int`, every non-empty run `ws` of
ASCII white space and every message text `m`, `ParseFailureComment` on
`@Failure <decimal of n><ws>m` returns `nil` and appends exactly one `ResponseMessage` at
the end of `ResponseMessages`, with `Code = n`, `Message` the text `m` with the
surrounding white space trimmed, and empty `ResponseModel`; nothing else changes. -/
theorem ParseFailureComment_appends (env : Env) (operation : Operation) (n : Int)
    (ws m : GoString) (hw : 0 < env.IntSize) (hlo : -(2 ^ (env.IntSize - 1) : Int) ≤ n)
    (hhi : n < (2 ^ (env.IntSize - 1) : Int)) (hws : asciiSpaces ws = true) :
    ParseFailureComment env operation (utf8 "@Failure " ++ Itoa n ++ ws ++ m) =
      ⟨{ operation with
          ResponseMessages := operation.ResponseMessages ++
            [{ Code := n, Message := TrimSpace m, ResponseModel := [] }] }, .nil⟩ := by
  obtain ⟨hwne, hwsp⟩ := asciiSpaces_spec ws hws
  obtain ⟨w0, ws1, rfl⟩ : ∃ w0 ws1, ws = w0 :: ws1 := by
    rcases ws with _ | ⟨w0, ws1⟩
    · exact absurd rfl hwne
    · exact ⟨w0, ws1, rfl⟩
  have hline : utf8 "@Failure " ++ Itoa n ++ (w0 :: ws1) ++ m =
      utf8 "@Failure" ++ ([0x20] ++ (Itoa n ++ ((w0 :: ws1) ++ m))) := by
    have h1 : utf8 "@Failure " = utf8 "@Failure" ++ [0x20] := by decide
    rw [h1]; simp
  -- the segments of the text after the tag
  have hD : ∀ x ∈ (Itoa n).map asciiSeg, spaceSeg x = false := by
    intro x hx; obtain ⟨b, hb, rfl⟩ := List.mem_map.mp hx
    exact (Itoa_not_space n b hb).2
  have hW : ∀ x ∈ (w0 :: ws1).map asciiSeg, spaceSeg x = true := by
    intro x hx; obtain ⟨b, hb, rfl⟩ := List.mem_map.mp hx
    exact (hwsp b hb).2
  have hsegs : segs ([0x20] ++ (Itoa n ++ ((w0 :: ws1) ++ m))) =
      asciiSeg 0x20 :: ((Itoa n).map asciiSeg ++ ((w0 :: ws1).map asciiSeg ++ segs m)) := by
    rw [segs_append_ascii _ _ (by decide),
      segs_append_ascii _ _ fun b hb => (Itoa_not_space n b hb).1,
      segs_append_ascii _ _ fun b hb => (hwsp b hb).1]
    rfl
  have hDne : (Itoa n).map asciiSeg ≠ [] := by simpa using Itoa_ne_nil n
  have hdrop : (segs ([0x20] ++ (Itoa n ++ ((w0 :: ws1) ++ m)))).dropWhile spaceSeg =
      (Itoa n).map asciiSeg ++ ((w0 :: ws1).map asciiSeg ++ segs m) := by
    rw [hsegs, List.dropWhile_cons_of_pos (by decide)]
    apply dropWhile_eq_self_of_head
    intro x hx
    rcases hd : (Itoa n).map asciiSeg with _ | ⟨y, t⟩
    · exact absurd hd hDne
    · rw [hd] at hx
      simp only [List.cons_append, List.head?_cons, Option.mem_def, Option.some.injEq] at hx
      subst hx
      exact hD _ (by rw [hd]; exact List.mem_cons_self _ _)
  have htake : ((Itoa n).map asciiSeg ++ ((w0 :: ws1).map asciiSeg ++ segs m)).takeWhile
      (fun x => !spaceSeg x) = (Itoa n).map asciiSeg := by
    rw [List.takeWhile_append_of_pos (fun x hx => by simp [hD x hx]), List.map_cons,
      List.cons_append, List.takeWhile_cons_of_neg (by simp [hW (asciiSeg w0) (by simp)])]
    simp
  have hcode : (((Itoa n).map asciiSeg).map Seg.rune).flatMap encodeRune = Itoa n := by
    rw [map_rune_asciiSeg, flatMap_encodeRune_ascii _ fun b hb => (Itoa_not_space n b hb).1]
  have hlast : ∀ x ∈ ((Itoa n).map asciiSeg).getLast?, spaceSeg x = false := fun x hx =>
    hD x (List.mem_of_mem_getLast? hx)
  have hsT : segs (TrimSpace ([0x20] ++ (Itoa n ++ ((w0 :: ws1) ++ m)))) =
      ((Itoa n).map asciiSeg ++ ((w0 :: ws1).map asciiSeg ++ segs m)).rdropWhile spaceSeg := by
    rw [segs_TrimSpace, hdrop]
  have hT : TrimSpace ([0x20] ++ (Itoa n ++ ((w0 :: ws1) ++ m))) =
      joinSegs (((Itoa n).map asciiSeg ++
        ((w0 :: ws1).map asciiSeg ++ segs m)).rdropWhile spaceSeg) := by
    rw [TrimSpace, hdrop]
  rw [hline, ParseFailureComment_unfold, hsT, hT, hdrop, htake, hcode,
    Atoi_Itoa _ n hw hlo hhi, joinSegs_map_asciiSeg]
  simp only [Outcome.mk.injEq, and_true]
  congr 3
  simp only [ResponseMessage.mk.injEq, true_and, and_true]
  by_cases hM : ∀ x ∈ segs m, spaceSeg x = true
  · -- the message is white space only
    have h1 : ((Itoa n).map asciiSeg ++ ((w0 :: ws1).map asciiSeg ++ segs m)).rdropWhile spaceSeg
        = (Itoa n).map asciiSeg := by
      rw [rdropWhile_append_of_pos _ _ _ (fun x hx => by
        rcases List.mem_append.mp hx with hx | hx
        · exact hW x hx
        · exact hM x hx)]
      exact rdropWhile_eq_self_of_getLast _ _ hlast
    have h2 : ((Itoa n).map asciiSeg).dropWhile (fun x => !spaceSeg x) = [] :=
      List.dropWhile_eq_nil_iff.mpr fun x hx => by simp [hD x hx]
    have h3 : TrimSpace m = [] := by
      rw [TrimSpace, List.dropWhile_eq_nil_iff.mpr hM]; rfl
    rw [h1, h2, h3]; rfl
  · -- the message has a rune that is no white space
    have hMne : (segs m).rdropWhile spaceSeg ≠ [] := fun h0 =>
      hM (List.rdropWhile_eq_nil_iff.mp h0)
    have hWM : ((w0 :: ws1).map asciiSeg ++ segs m).rdropWhile spaceSeg =
        (w0 :: ws1).map asciiSeg ++ (segs m).rdropWhile spaceSeg :=
      rdropWhile_append_of_ne_nil _ _ _ hMne
    have h1 : ((Itoa n).map asciiSeg ++ ((w0 :: ws1).map asciiSeg ++ segs m)).rdropWhile spaceSeg
        = (Itoa n).map asciiSeg ++
          ((w0 :: ws1).map asciiSeg ++ (segs m).rdropWhile spaceSeg) := by
      rw [rdropWhile_append_of_ne_nil _ _ _ (by rw [hWM]; simp), hWM]
    have h2 : ((Itoa n).map asciiSeg ++
        ((w0 :: ws1).map asciiSeg ++ (segs m).rdropWhile spaceSeg)).dropWhile
        (fun x => !spaceSeg x) ≠ [] := by
      rw [List.dropWhile_append_of_pos (fun x hx => by simp [hD x hx]), List.map_cons,
        List.cons_append, List.dropWhile_cons_of_neg (by simp [hW (asciiSeg w0) (by simp)])]
      simp
    have h3 : (Itoa n ++ ((w0 :: ws1) ++ joinSegs ((segs m).rdropWhile spaceSeg))).drop
        ((Itoa n).length + 1) = ws1 ++ joinSegs ((segs m).rdropWhile spaceSeg) := by
      have e : Itoa n ++ ((w0 :: ws1) ++ joinSegs ((segs m).rdropWhile spaceSeg)) =
          (Itoa n ++ [w0]) ++ (ws1 ++ joinSegs ((segs m).rdropWhile spaceSeg)) := by simp
      rw [e]
      exact List.drop_left' (by simp)
    rw [h1, if_neg h2, joinSegs_append, joinSegs_append, joinSegs_map_asciiSeg,
      joinSegs_map_asciiSeg, h3,
      TrimSpace_ascii_space_append _ _ (fun b hb => hwsp b (List.mem_cons_of_mem _ hb)),
      TrimSpace_joinSegs_rdropWhile]

/-- C8, at `@Failure 404 Pet not found`. -/
theorem ParseFailureComment_appends_witness :
    ParseFailureComment sampleEnv (NewOperation none [])
        (utf8 "@Failure " ++ Itoa 404 ++ utf8 " " ++ utf8 "Pet not found") =
      ⟨{ NewOperation none [] with
          ResponseMessages := [{ Code := 404, Message := utf8 "Pet not found" }] }, .nil⟩ :=
  ParseFailureComment_appends sampleEnv (NewOperation none []) 404 (utf8 " ")
    (utf8 "Pet not found") (by decide) (by decide) (by decide) (by decide)

/-- The second example of the specification: `@Failure abc message` is rejected, `abc`
being no integer. -/
theorem ParseFailureComment_not_integer :
    ParseFailureComment sampleEnv (NewOperation none []) (utf8 "@Failure abc message") =
      ⟨NewOperation none [], .err (.failureError (utf8 "abc") .ErrSyntax)⟩ := by
  decide

/-! ## What the expression of `ParseParamComment` accepts -/

theorem plusRun_sound {α : Type} (p : Nat → Bool) (k : List Seg → Option α) (r : α) :
    ∀ input : List Seg, plusRun p input k = some r →
      ∃ ys rest, input = ys ++ rest ∧ ys ≠ [] ∧ (∀ x ∈ ys, p x.rune = true) ∧
        k rest = some r := by
  intro input
  induction input with
  | nil => intro h; simp [plusRun] at h
  | cons x t ih =>
    intro h
    rw [plusRun] at h
    by_cases hp : p x.rune = true
    · rw [if_pos hp] at h
      rcases hrec : plusRun p t k with _ | r1
      · rw [hrec] at h
        exact ⟨[x], t, rfl, by simp, by simpa using hp, h⟩
      · rw [hrec] at h
        obtain ⟨ys, rest, h1, _, h3, h4⟩ := ih (by rw [hrec, ← h])
        refine ⟨x :: ys, rest, by rw [h1]; rfl, by simp, ?_, h4⟩
        intro y hy
        rcases List.mem_cons.mp hy with rfl | hy
        · exact hp
        · exact h3 y hy
    · rw [if_neg hp] at h
      exact absurd h (by simp)

theorem plusRun_complete {α : Type} (p : Nat → Bool) (k : List Seg → Option α)
    (rest : List Seg) (hk : (k rest).isSome = true) :
    ∀ ys : List Seg, ys ≠ [] → (∀ x ∈ ys, p x.rune = true) →
      (plusRun p (ys ++ rest) k).isSome = true := by
  intro ys
  induction ys with
  | nil => intro h; exact absurd rfl h
  | cons x t ih =>
    intro _ hall
    rw [List.cons_append, plusRun, if_pos (hall x (List.mem_cons_self _ _))]
    rcases t with _ | ⟨y, t⟩
    · rcases plusRun p ([] ++ rest) k with _ | r1
      · exact hk
      · rfl
    · have := ih (List.cons_ne_nil _ _) fun z hz => hall z (List.mem_cons_of_mem _ hz)
      rcases hrec : plusRun p (y :: t ++ rest) k with _ | r1
      · rw [hrec] at this; exact absurd this (by simp)
      · rfl

/-- Every result of the backtracking matcher comes from a split of the input into a
run that the expression matches and a rest on which the continuation gave the result;
the number of capture slots stays the same. -/
theorem Regex.run_sound {α : Type} (re : Regex) :
    ∀ (input : List Seg) (caps : List GoString)
      (k : List Seg → List GoString → Option α) (r : α),
      re.run input caps k = some r →
      ∃ ys rest caps1, input = ys ++ rest ∧ re.Matches ys ∧ caps1.length = caps.length ∧
        k rest caps1 = some r := by
  induction re with
  | cls p =>
    intro input caps k r h
    rcases input with _ | ⟨x, t⟩
    · simp [Regex.run] at h
    · simp only [Regex.run] at h
      by_cases hp : p x.rune = true
      · rw [if_pos hp] at h
        exact ⟨[x], t, caps, rfl, ⟨x, rfl, hp⟩, rfl, h⟩
      · rw [if_neg hp] at h
        exact absurd h (by simp)
  | plus p =>
    intro input caps k r h
    simp only [Regex.run] at h
    obtain ⟨ys, rest, h1, h2, h3, h4⟩ := plusRun_sound p _ r input h
    exact ⟨ys, rest, caps, h1, ⟨h2, h3⟩, rfl, h4⟩
  | seq a b iha ihb =>
    intro input caps k r h
    simp only [Regex.run] at h
    obtain ⟨ys, rest, caps1, h1, h2, h3, h4⟩ := iha input caps _ r h
    obtain ⟨zs, rest2, caps2, g1, g2, g3, g4⟩ := ihb rest caps1 k r h4
    refine ⟨ys ++ zs, rest2, caps2, ?_, ⟨ys, zs, rfl, h2, g2⟩, by rw [g3, h3], g4⟩
    rw [h1, g1, List.append_assoc]
  | group i a iha =>
    intro input caps k r h
    simp only [Regex.run] at h
    obtain ⟨ys, rest, caps1, h1, h2, h3, h4⟩ := iha input caps _ r h
    exact ⟨ys, rest, _, h1, h2, by rw [List.length_set, h3], h4⟩

/-- The backtracking matcher finds a result whenever the input starts with a run that
the expression matches and the continuation accepts what follows it. -/
theorem Regex.run_complete {α : Type} (re : Regex) :
    ∀ (ys rest : List Seg) (caps : List GoString)
      (k : List Seg → List GoString → Option α),
      re.Matches ys → (∀ caps1, (k rest caps1).isSome = true) →
      (re.run (ys ++ rest) caps k).isSome = true := by
  induction re with
  | cls p =>
    intro ys rest caps k hm hk
    obtain ⟨x, rfl, hp⟩ := hm
    simp only [List.singleton_append, Regex.run, if_pos hp]
    exact hk caps
  | plus p =>
    intro ys rest caps k hm hk
    simp only [Regex.run]
    exact plusRun_complete p _ rest (hk caps) ys hm.1 hm.2
  | seq a b iha ihb =>
    intro ys rest caps k hm hk
    obtain ⟨ys1, zs, rfl, h1, h2⟩ := hm
    simp only [Regex.run]
    rw [List.append_assoc]
    exact iha ys1 (zs ++ rest) caps _ h1 fun caps1 => ihb zs rest caps1 k h2 hk
  | group i a iha =>
    intro ys rest caps k hm hk
    simp only [Regex.run]
    exact iha ys rest caps _ hm fun caps1 => hk _

theorem matchHere_sound (re : Regex) (n : Nat) (input : List Seg) (caps : List GoString)
    (h : matchHere re n input = some caps) :
    caps.length = n + 1 ∧ ∃ ys rest, input = ys ++ rest ∧ re.Matches ys := by
  unfold matchHere at h
  obtain ⟨ys, rest, caps1, h1, h2, h3, h4⟩ := Regex.run_sound re input _ _ caps h
  simp only [Option.some.injEq] at h4
  refine ⟨?_, ys, rest, h1, h2⟩
  rw [← h4, List.length_set, h3, List.length_replicate]

theorem matchHere_complete (re : Regex) (n : Nat) (ys rest : List Seg)
    (h : re.Matches ys) : (matchHere re n (ys ++ rest)).isSome = true := by
  unfold matchHere
  exact Regex.run_complete re ys rest _ _ h fun _ => rfl

/-- The leftmost-match search gives the `n + 1` texts of a match exactly when some part
of the input matches the expression, and no text otherwise. -/
theorem searchSegs_length (re : Regex) (n : Nat) (input : List Seg) :
    ((searchSegs re n input).length = n + 1 ↔
      ∃ pre mid post, input = pre ++ mid ++ post ∧ re.Matches mid) ∧
    ((searchSegs re n input).length ≠ n + 1 → searchSegs re n input = []) := by
  induction input with
  | nil =>
    rw [searchSegs]
    rcases hm : matchHere re n [] with _ | caps
    · refine ⟨⟨fun h => by simp at h, ?_⟩, fun _ => rfl⟩
      rintro ⟨pre, mid, post, h1, h2⟩
      have hpre : pre = [] := by
        rcases pre with _ | ⟨x, pre⟩
        · rfl
        · simp at h1
      subst hpre
      have := matchHere_complete re n mid post h2
      rw [List.nil_append] at h1
      rw [← h1, hm] at this
      exact absurd this (by simp)
    · obtain ⟨h1, ys, rest, h2, h3⟩ := matchHere_sound re n [] caps hm
      refine ⟨⟨fun _ => ⟨[], ys, rest, by simpa using h2, h3⟩, fun _ => h1⟩, fun h => ?_⟩
      exact absurd h1 h
  | cons x t ih =>
    rw [searchSegs]
    rcases hm : matchHere re n (x :: t) with _ | caps
    · dsimp only
      refine ⟨⟨fun h => ?_, ?_⟩, ih.2⟩
      · obtain ⟨pre, mid, post, h1, h2⟩ := ih.1.mp h
        exact ⟨x :: pre, mid, post, by rw [h1]; rfl, h2⟩
      · rintro ⟨pre, mid, post, h1, h2⟩
        rcases pre with _ | ⟨y, pre⟩
        · have := matchHere_complete re n mid post h2
          rw [List.nil_append] at h1
          rw [← h1, hm] at this
          exact absurd this (by simp)
        · simp only [List.cons_append, List.cons.injEq] at h1
          exact ih.1.mpr ⟨pre, mid, post, h1.2, h2⟩
    · dsimp only
      obtain ⟨h1, ys, rest, h2, h3⟩ := matchHere_sound re n (x :: t) caps hm
      refine ⟨⟨fun _ => ⟨[], ys, rest, by simpa using h2, h3⟩, fun _ => h1⟩, fun h => ?_⟩
      exact absurd h1 h

/-- The bytes of a non-empty run of runes of `s` that all lie in a class of ASCII
characters: the runes themselves. -/
theorem joinSegs_ascii_class (s : GoString) (p : Nat → Bool) (hp : ∀ r, p r = true → r < 0x80)
    (l : List Seg) (hl : ∀ x ∈ l, x ∈ segs s) (hne : l ≠ []) (hall : ∀ x ∈ l, p x.rune = true) :
    (!(joinSegs l).isEmpty && (joinSegs l).all p) = true := by
  induction l with
  | nil => exact absurd rfl hne
  | cons x l ih =>
    have hx := hall x (List.mem_cons_self _ _)
    have hb : x.bytes = [x.rune] := by
      rcases (mem_segs_spec s x (hl x (List.mem_cons_self _ _))).2 with ⟨_, h⟩ | ⟨h, _⟩
      · exact h
      · have := hp _ hx; omega
    rw [joinSegs_cons, hb]
    rcases l with _ | ⟨y, l⟩
    · simp [joinSegs_nil, hx]
    · have := ih (fun z hz => hl z (List.mem_cons_of_mem _ hz)) (List.cons_ne_nil _ _)
        fun z hz => hall z (List.mem_cons_of_mem _ hz)
      simp only [Bool.and_eq_true, Bool.not_eq_true', List.isEmpty_eq_false,
        List.all_eq_true] at this ⊢
      refine ⟨by simp, fun b hb => ?_⟩
      rcases List.mem_append.mp hb with hb | hb
      · rw [List.mem_singleton.mp hb]; exact hx
      · exact this.2 b hb

theorem isWord_lt (r : Nat) (h : isWord r = true) : r < 0x80 := by
  simp only [isWord, Bool.or_eq_true, Bool.and_eq_true, decide_eq_true_eq] at h
  omega

theorem isPerlSpace_lt (r : Nat) (h : isPerlSpace r = true) : r < 0x80 := by
  simp only [isPerlSpace, Bool.or_eq_true, decide_eq_true_eq] at h
  omega

/-- The bytes of a run of `s` that `([\w]+)[\s]+r` matches: a word, white space, and
the bytes of a run that `r` matches. -/
theorem wordSpace_Matches_bytes (s : GoString) (i : Nat) (r : Regex) (xs : List Seg)
    (hsub : ∀ x ∈ xs, x ∈ segs s) (h : (wordSpace i r).Matches xs) :
    ∃ (tok ws : GoString) (zs : List Seg), wordToken tok = true ∧ perlSpaces ws = true ∧
      joinSegs xs = tok ++ ws ++ joinSegs zs ∧ r.Matches zs ∧ ∀ x ∈ zs, x ∈ segs s := by
  simp only [wordSpace, Regex.Matches] at h
  obtain ⟨ys, zs, rfl, ⟨h1, h2⟩, ys2, zs2, rfl, ⟨h3, h4⟩, h5⟩ := h
  refine ⟨joinSegs ys, joinSegs ys2, zs2, ?_, ?_, ?_, h5, ?_⟩
  · exact joinSegs_ascii_class s isWord isWord_lt ys
      (fun x hx => hsub x (List.mem_append_left _ hx)) h1 h2
  · exact joinSegs_ascii_class s isPerlSpace isPerlSpace_lt ys2
      (fun x hx => hsub x (List.mem_append_right _ (List.mem_append_left _ hx))) h3 h4
  · simp only [joinSegs_append, List.append_assoc]
  · exact fun x hx => hsub x (List.mem_append_right _ (List.mem_append_right _ hx))

/-- The bytes of a run of `s` that `"([^"]+)"` matches. -/
theorem quoted_Matches_bytes (s : GoString) (xs : List Seg)
    (hsub : ∀ x ∈ xs, x ∈ segs s) (h : quotedRegex.Matches xs) :
    ∃ d : GoString, d ≠ [] ∧ 0x22 ∉ d ∧ joinSegs xs = [0x22] ++ d ++ [0x22] := by
  simp only [quotedRegex, Regex.Matches, decide_eq_true_eq] at h
  obtain ⟨ys, zs, rfl, ⟨q1, rfl, hq1⟩, ds, zs2, rfl, ⟨h3, h4⟩, q2, rfl, hq2⟩ := h
  have hquote : ∀ q : Seg, q ∈ segs s → q.rune = 0x22 → q.bytes = [0x22] := by
    intro q hq hr
    rcases (mem_segs_spec s q hq).2 with ⟨_, h⟩ | ⟨h, _⟩
    · rw [h, hr]
    · omega
  refine ⟨joinSegs ds, ?_, ?_, ?_⟩
  · rcases ds with _ | ⟨x, ds⟩
    · exact absurd rfl h3
    · rw [joinSegs_cons]
      have := (mem_segs_spec s x (hsub x (by simp))).1
      simp [this]
  · intro hmem
    obtain ⟨x, hx, hbx⟩ := List.mem_flatMap.mp hmem
    have hr := h4 x hx
    simp only [bne_iff_ne, ne_eq] at hr
    rcases (mem_segs_spec s x (hsub x (by simp [hx]))).2 with ⟨_, h⟩ | ⟨_, h⟩
    · rw [h, List.mem_singleton] at hbx
      exact hr hbx.symm
    · have := h _ hbx
      omega
  · simp only [joinSegs_append, joinSegs_cons, joinSegs_nil, List.append_nil]
    rw [hquote q1 (hsub q1 (by simp)) hq1, hquote q2 (hsub q2 (by simp)) hq2]
    simp

/-- The bytes of a run of `s` that the expression of `ParseParamComment` matches are the
text of a parameter directive. -/
theorem paramRegex_Matches_bytes (s : GoString) (xs : List Seg)
    (hsub : ∀ x ∈ xs, x ∈ segs s) (h : paramRegex.Matches xs) :
    ∃ name paramType dataType req d ws1 ws2 ws3 ws4 : GoString,
      joinSegs xs = paramText name paramType dataType req d ws1 ws2 ws3 ws4 ∧
      wordToken name = true ∧ wordToken paramType = true ∧ wordToken dataType = true ∧
      wordToken req = true ∧ perlSpaces ws1 = true ∧ perlSpaces ws2 = true ∧
      perlSpaces ws3 = true ∧ perlSpaces ws4 = true ∧ d ≠ [] ∧ 0x22 ∉ d := by
  unfold paramRegex at h
  obtain ⟨name, ws1, z1, a1, b1, e1, m1, s1⟩ := wordSpace_Matches_bytes s 1 _ xs hsub h
  obtain ⟨pt, ws2, z2, a2, b2, e2, m2, s2⟩ := wordSpace_Matches_bytes s 2 _ z1 s1 m1
  obtain ⟨dt, ws3, z3, a3, b3, e3, m3, s3⟩ := wordSpace_Matches_bytes s 3 _ z2 s2 m2
  obtain ⟨req, ws4, z4, a4, b4, e4, m4, s4⟩ := wordSpace_Matches_bytes s 4 _ z3 s3 m3
  obtain ⟨d, hd, hq, e5⟩ := quoted_Matches_bytes s z4 s4 m4
  refine ⟨name, pt, dt, req, d, ws1, ws2, ws3, ws4, ?_, a1, a2, a3, a4, b1, b2, b3, b4, hd, hq⟩
  rw [e1, e2, e3, e4, e5]
  simp [paramText]

/-- The expression of `ParseParamComment` finds a match, with its five groups, exactly
in the texts that hold the text of a parameter directive somewhere; in all others it
finds nothing. -/
theorem FindStringSubmatch_param_iff (s : GoString) :
    ((FindStringSubmatch paramRegex 5 s).length = 6 ↔ containsParam s) := by
  unfold FindStringSubmatch
  rw [(searchSegs_length paramRegex 5 (segs s)).1]
  constructor
  · rintro ⟨pre, mid, post, h1, h2⟩
    obtain ⟨name, pt, dt, req, d, ws1, ws2, ws3, ws4, e, hyp⟩ :=
      paramRegex_Matches_bytes s mid (fun x hx => by rw [h1]; simp [hx]) h2
    refine ⟨joinSegs pre, joinSegs post, name, pt, dt, req, d, ws1, ws2, ws3, ws4, ?_, hyp⟩
    rw [← e, ← joinSegs_append, ← joinSegs_append, ← h1, joinSegs_segs]
  · rintro ⟨pre, post, name, pt, dt, req, d, ws1, ws2, ws3, ws4, rfl, hname, hpt, hdt, hreq,
      hws1, hws2, hws3, hws4, hd, hq⟩
    have hfind := FindStringSubmatch_param name pt dt req d ws1 ws2 ws3 ws4 hname hpt hdt hreq
      hws1 hws2 hws3 hws4 hd hq
    have hlen : (searchSegs paramRegex 5
        (segs (paramText name pt dt req d ws1 ws2 ws3 ws4))).length = 5 + 1 := by
      have := congrArg List.length hfind
      simpa [FindStringSubmatch] using this
    obtain ⟨l0, mid, l2, h1, h2⟩ := (searchSegs_length paramRegex 5 _).1.mp hlen
    have hsplit : segs (pre ++ paramText name pt dt req d ws1 ws2 ws3 ws4 ++ post) =
        segs pre ++ segs (paramText name pt dt req d ws1 ws2 ws3 ws4) ++ segs post := by
      have e : paramText name pt dt req d ws1 ws2 ws3 ws4 =
          (name ++ ws1 ++ pt ++ ws2 ++ dt ++ ws3 ++ req ++ ws4 ++ [0x22] ++ d) ++ 0x22 :: [] := rfl
      obtain ⟨hn1, hn2⟩ := wordToken_ascii name hname
      rcases name with _ | ⟨b, name⟩
      · exact absurd rfl hn1
      · have hb : isCont b = false := by
          have := (hn2 b (List.mem_cons_self _ _)).1
          simp only [isCont, Bool.and_eq_false_imp, decide_eq_true_eq, decide_eq_false_iff_not]
          omega
        have e2 : pre ++ paramText (b :: name) pt dt req d ws1 ws2 ws3 ws4 ++ post =
            pre ++ b :: (name ++ ws1 ++ pt ++ ws2 ++ dt ++ ws3 ++ req ++ ws4 ++ [0x22] ++ d ++
              0x22 :: post) := by
          simp [paramText]
        have e3 : b :: (name ++ ws1 ++ pt ++ ws2 ++ dt ++ ws3 ++ req ++ ws4 ++ [0x22] ++ d ++
              0x22 :: post) =
            (b :: name ++ ws1 ++ pt ++ ws2 ++ dt ++ ws3 ++ req ++ ws4 ++ [0x22] ++ d) ++
              0x22 :: post := by
          simp
        rw [e2, segs_append_noncont _ _ _ hb, e3, segs_append_noncont _ _ _ (by decide),
          segs_cons_ascii _ _ (by decide), e, segs_append_noncont _ _ _ (by decide),
          segs_cons_ascii _ _ (by decide), segs_nil]
        simp
    refine ⟨segs pre ++ l0, mid, l2 ++ segs post, ?_, h2⟩
    rw [hsplit, h1]
    simp

/-- C11 (as amended): the expression of `ParseParamComment` is not anchored.  On a line
of at least `len("@Param ")` bytes, `ParseParamComment` returns `nil` exactly when the
trimmed text after the tag holds somewhere four words and a quoted text separated by
white space (name, param type, data type, required flag, "description"); any text before
that part and after the closing quote is ignored, and exactly one `Parameter` is
appended.  On every line whose trimmed text after the tag holds no such part it returns
the error of `ParseParamComment` and leaves the operation as it was, so that no
`Parameter` is appended. -/
theorem ParseParamComment_accepts_iff (env : Env) (operation : Operation) (line : GoString)
    (hlen : (utf8 "@Param ").length ≤ line.length) :
    ((ParseParamComment env operation line).exit = .nil ↔
      containsParam (TrimSpace (line.drop (utf8 "@Param ").length))) ∧
    (containsParam (TrimSpace (line.drop (utf8 "@Param ").length)) →
      ∃ q : Parameter, ParseParamComment env operation line =
        ⟨{ operation with Parameters := operation.Parameters ++ [q] }, .nil⟩) ∧
    (¬containsParam (TrimSpace (line.drop (utf8 "@Param ").length)) →
      ParseParamComment env operation line =
        ⟨operation, .err (.paramError (TrimSpace (line.drop (utf8 "@Param ").length)))⟩) := by
  have hl : ¬line.length < (utf8 "@Param ").length := Nat.not_lt.mpr hlen
  have hyes : containsParam (TrimSpace (line.drop (utf8 "@Param ").length)) →
      ∃ q : Parameter, ParseParamComment env operation line =
        ⟨{ operation with Parameters := operation.Parameters ++ [q] }, .nil⟩ := by
    intro h
    have h6 := (FindStringSubmatch_param_iff _).mpr h
    unfold ParseParamComment
    rw [if_neg hl]
    dsimp only
    rw [if_neg (not_not.mpr h6)]
    exact ⟨_, rfl⟩
  have hno : ¬containsParam (TrimSpace (line.drop (utf8 "@Param ").length)) →
      ParseParamComment env operation line =
        ⟨operation, .err (.paramError (TrimSpace (line.drop (utf8 "@Param ").length)))⟩ := by
    intro h
    have h6 : (FindStringSubmatch paramRegex 5
        (TrimSpace (line.drop (utf8 "@Param ").length))).length ≠ 6 :=
      fun h6 => h ((FindStringSubmatch_param_iff _).mp h6)
    unfold ParseParamComment
    rw [if_neg hl]
    dsimp only
    rw [if_pos h6]
  refine ⟨⟨fun h => ?_, fun h => ?_⟩, hyes, hno⟩
  · by_contra hc
    rw [hno hc] at h
    exact absurd h (by simp)
  · obtain ⟨q, hq⟩ := hyes h
    rw [hq]

/-- C11 (as amended), at the line `@Param int`. -/
theorem ParseParamComment_accepts_iff_witness :
    (utf8 "@Param ").length ≤ (utf8 "@Param int").length ∧
    ((ParseParamComment sampleEnv (NewOperation none []) (utf8 "@Param int")).exit = .nil ↔
      containsParam (TrimSpace ((utf8 "@Param int").drop (utf8 "@Param ").length))) ∧
    (containsParam (TrimSpace ((utf8 "@Param int").drop (utf8 "@Param ").length)) →
      ∃ q : Parameter, ParseParamComment sampleEnv (NewOperation none []) (utf8 "@Param int") =
        ⟨{ NewOperation none [] with
            Parameters := (NewOperation none []).Parameters ++ [q] }, .nil⟩) ∧
    (¬containsParam (TrimSpace ((utf8 "@Param int").drop (utf8 "@Param ").length)) →
      ParseParamComment sampleEnv (NewOperation none []) (utf8 "@Param int") =
        ⟨NewOperation none [], .err (.paramError
          (TrimSpace ((utf8 "@Param int").drop (utf8 "@Param ").length)))⟩) :=
  ⟨by decide,
    ParseParamComment_accepts_iff sampleEnv (NewOperation none []) (utf8 "@Param int")
      (by decide)⟩

/-- C11 (as stated) fails: with an extra token before the name, and with extra text
after the closing quote, the text after the tag is not of the shape
`name paramType dataType req "d"`, yet `ParseParamComment` returns `nil` and appends a
`Parameter`. -/
theorem ParseParamComment_extra_text_accepted :
    ParseParamComment sampleEnv (NewOperation none [])
        (utf8 "@Param extra " ++
          paramText (utf8 "id") (utf8 "path") (utf8 "int") (utf8 "true") (utf8 "pet id")
            (utf8 " ") (utf8 " ") (utf8 " ") (utf8 " ")) =
      ⟨{ NewOperation none [] with
          Parameters :=
            [{ Name := utf8 "id", ParamType := utf8 "path", «Type» := utf8 "int",
               DataType := utf8 "int", Required := true, Description := utf8 "pet id" }] },
        .nil⟩ ∧
    ParseParamComment sampleEnv (NewOperation none [])
        (utf8 "@Param " ++
          paramText (utf8 "id") (utf8 "path") (utf8 "int") (utf8 "true") (utf8 "pet id")
            (utf8 " ") (utf8 " ") (utf8 " ") (utf8 " ") ++ utf8 " and more") =
      ⟨{ NewOperation none [] with
          Parameters :=
            [{ Name := utf8 "id", ParamType := utf8 "path", «Type» := utf8 "int",
               DataType := utf8 "int", Required := true, Description := utf8 "pet id" }] },
        .nil⟩ := by
  constructor <;> decide

/-! ## `ParseSuccessComment`: missing tokens -/

/-- The tokens of `<code> <lit>`: the code and an ASCII word without space. -/
theorem success_parts_two (c : Int) (lit : GoString) (hlit : lit ≠ [])
    (hl : ∀ b ∈ lit, b < 0x80 ∧ IsSpace b = false) :
    (Split (TrimSpace ([0x20] ++ (Itoa c ++ 0x20 :: lit))) 0x20).filter
      (fun paramPart => paramPart ≠ []) = [Itoa c, lit] := by
  have hsp : ∀ b ∈ [0x20], b < 0x80 ∧ IsSpace b = true := by decide
  have hc20 : 0x20 ∉ Itoa c := fun h => by
    have := (Itoa_not_space c _ h).2; revert this; decide
  have hl20 : 0x20 ∉ lit := fun h => by
    have := (hl _ h).2; revert this; decide
  have hascii : ∀ b ∈ Itoa c ++ 0x20 :: lit, b < 0x80 := by
    intro b hb
    simp only [List.mem_append, List.mem_cons] at hb
    rcases hb with hb | rfl | hb
    · exact (Itoa_not_space c b hb).1
    · decide
    · exact (hl b hb).1
  have htrim : TrimSpace ([0x20] ++ (Itoa c ++ 0x20 :: lit)) = Itoa c ++ 0x20 :: lit := by
    rw [TrimSpace_ascii_space_append _ _ hsp]
    apply TrimSpace_eq_self
    · obtain ⟨d, r, hd⟩ : ∃ d r, Itoa c = d :: r := by
        rcases h : Itoa c with _ | ⟨d, r⟩
        · exact absurd h (Itoa_ne_nil c)
        · exact ⟨d, r, rfl⟩
      have hd1 := Itoa_not_space c d (by rw [hd]; exact List.mem_cons_self _ _)
      rw [hd, List.cons_append, segs_cons_ascii _ _ hd1.1]
      intro x hx
      simp only [List.head?_cons, Option.mem_def, Option.some.injEq] at hx
      subst hx
      exact hd1.2
    · have e : Itoa c ++ 0x20 :: lit = (Itoa c ++ [0x20]) ++ lit := by simp
      have h1 : ∀ b ∈ Itoa c ++ [0x20], b < 0x80 := fun b hb =>
        hascii b (by
          rcases List.mem_append.mp hb with h | h
          · exact List.mem_append_left _ h
          · exact List.mem_append_right _ (by
              rw [List.mem_singleton.mp h]; exact List.mem_cons_self _ _))
      rw [e, segs_append_ascii _ _ h1, segs_ascii _ fun b hb => (hl b hb).1]
      intro x hx
      rw [List.getLast?_append_of_ne_nil _ (by simpa using hlit)] at hx
      obtain ⟨b, hb, rfl⟩ := List.mem_map.mp (List.mem_of_mem_getLast? hx)
      exact (hl b hb).2
  rw [htrim, Split, splitByte_append_sep _ _ _ hc20, splitByte_of_not_mem _ _ hl20]
  simp [Itoa_ne_nil, hlit]

theorem success_line_two (c : Int) (lit : GoString) :
    utf8 "@Success " ++ Itoa c ++ ([0x20] ++ lit) =
      utf8 "@Success" ++ ([0x20] ++ (Itoa c ++ 0x20 :: lit)) := by
  have h1 : utf8 "@Success " = utf8 "@Success" ++ [0x20] := by decide
  rw [h1]; simp

/-- C12: for every status code `c` in the range of `int`, `ParseSuccessComment` on
`@Success c {object}` and on `@Success c {array}`, with no type token after it, returns
the error `Success annotation error: object type must be specified` and leaves the whole
operation unchanged (so `ResponseMessages`, `Type`, `Items` and the models); the result
does not depend on `Model.ParseModel`, which is not consulted. -/
theorem ParseSuccessComment_missing_type (env : Env) (operation : Operation) (c : Int)
    (hw : 0 < env.IntSize) (hlo : -(2 ^ (env.IntSize - 1) : Int) ≤ c)
    (hhi : c < (2 ^ (env.IntSize - 1) : Int)) :
    (∀ resolver : Parser → GoString → GoString → Except GoError (Model × List Model),
      ParseSuccessComment { env with ParseModel := resolver } operation
          (utf8 "@Success " ++ Itoa c ++ utf8 " {object}") =
        ⟨operation, .err (.errorsNew
          (utf8 "Success annotation error: object type must be specified"))⟩) ∧
    (∀ resolver : Parser → GoString → GoString → Except GoError (Model × List Model),
      ParseSuccessComment { env with ParseModel := resolver } operation
          (utf8 "@Success " ++ Itoa c ++ utf8 " {array}") =
        ⟨operation, .err (.errorsNew
          (utf8 "Success annotation error: object type must be specified"))⟩) := by
  have e1 : utf8 " {object}" = [0x20] ++ utf8 "{object}" := by decide
  have e2 : utf8 " {array}" = [0x20] ++ utf8 "{array}" := by decide
  constructor
  · intro resolver
    rw [e1, success_line_two, ParseSuccessComment_unfold,
      success_parts_two c (utf8 "{object}") (by decide) (by decide)]
    simp only [successParts, Atoi_Itoa _ c hw hlo hhi, true_or, if_true]
  · intro resolver
    rw [e2, success_line_two, ParseSuccessComment_unfold,
      success_parts_two c (utf8 "{array}") (by decide) (by decide)]
    simp only [successParts, Atoi_Itoa _ c hw hlo hhi, or_true, if_true]

/-- C12, at `@Success 200 {object}` and `@Success 200 {array}`. -/
theorem ParseSuccessComment_missing_type_witness :
    ParseSuccessComment sampleEnv (NewOperation (some {}) [])
        (utf8 "@Success " ++ Itoa 200 ++ utf8 " {object}") =
      ⟨NewOperation (some {}) [], .err (.errorsNew
        (utf8 "Success annotation error: object type must be specified"))⟩ ∧
    ParseSuccessComment sampleEnv (NewOperation (some {}) [])
        (utf8 "@Success " ++ Itoa 200 ++ utf8 " {array}") =
      ⟨NewOperation (some {}) [], .err (.errorsNew
        (utf8 "Success annotation error: object type must be specified"))⟩ :=
  ⟨(ParseSuccessComment_missing_type sampleEnv (NewOperation (some {}) []) 200
      (by decide) (by decide) (by decide)).1 sampleEnv.ParseModel,
   (ParseSuccessComment_missing_type sampleEnv (NewOperation (some {}) []) 200
      (by decide) (by decide) (by decide)).2 sampleEnv.ParseModel⟩

/-! ## `ParseComment`: the loop over the lines -/

theorem parseLines_append (env : Env) (l1 l2 : List Comment) :
    ∀ operation : Operation, parseLines env operation (l1 ++ l2) =
      match parseLines env operation l1 with
      | ⟨operation1, .nil⟩ => parseLines env operation1 l2
      | out => out := by
  induction l1 with
  | nil => intro operation; rfl
  | cons c l1 ih =>
    intro operation
    rw [List.cons_append, parseLines, parseLines]
    rcases h : parseLine env operation c with ⟨o, e⟩
    cases e with
    | nil => exact ih o
    | err e => rfl
    | panic q => rfl

theorem ParseParamComment_err (env : Env) (operation : Operation) (line : GoString)
    (e : GoError) (h : (ParseParamComment env operation line).exit = .err e) :
    (ParseParamComment env operation line).op = operation := by
  unfold ParseParamComment at h ⊢
  by_cases hlen : line.length < (utf8 "@Param ").length
  · rw [if_pos hlen]
  · rw [if_neg hlen] at h ⊢
    dsimp only at h ⊢
    by_cases hm : (FindStringSubmatch paramRegex 5
        (TrimSpace (List.drop (utf8 "@Param ").length line))).length ≠ 6
    · rw [if_pos hm]
    · rw [if_neg hm] at h
      simp at h

theorem ParseFailureComment_err (env : Env) (operation : Operation) (line : GoString)
    (e : GoError) (h : (ParseFailureComment env operation line).exit = .err e) :
    (ParseFailureComment env operation line).op = operation := by
  unfold ParseFailureComment at h ⊢
  by_cases hlen : line.length < (utf8 "@Failure").length
  · rw [if_pos hlen]
  · rw [if_neg hlen] at h ⊢
    dsimp only at h ⊢
    rcases hfl : failureLoop (TrimSpace (List.drop (utf8 "@Failure").length line))
      (rangeString (TrimSpace (List.drop (utf8 "@Failure").length line))) [] false []
      with ⟨httpCode, message⟩
    rw [hfl] at h
    dsimp only at h ⊢
    rcases ha : Atoi env.IntSize (httpCode.flatMap encodeRune) with e1 | v
    · rfl
    · rw [ha] at h; simp at h

theorem successParts_err (env : Env) (operation : Operation) (parts : List GoString)
    (e : GoError) (h : (successParts env operation parts).exit = .err e) :
    (successParts env operation parts).op = operation := by
  unfold successParts at h ⊢
  repeat' split
  all_goals first | rfl | (simp_all [successParts])

theorem ParseSuccessComment_err (env : Env) (operation : Operation) (line : GoString)
    (e : GoError) (h : (ParseSuccessComment env operation line).exit = .err e) :
    (ParseSuccessComment env operation line).op = operation := by
  unfold ParseSuccessComment at h ⊢
  by_cases hlen : line.length < (utf8 "@Success").length
  · rw [if_pos hlen]
  · rw [if_neg hlen] at h ⊢
    exact successParts_err _ _ _ e h

theorem ParseAcceptComment_exit (env : Env) (operation : Operation) (line : GoString)
    (e : GoError) : (ParseAcceptComment env operation line).exit ≠ .err e := by
  unfold ParseAcceptComment
  by_cases hlen : line.length < (utf8 "@Accept").length
  · rw [if_pos hlen]; simp
  · rw [if_neg hlen]; simp

/-- The dispatch of `ParseComment` on one comment: the first of the seven tags that the
trimmed text starts with decides, and a comment that starts with none is skipped. -/
theorem parseLine_cases (env : Env) (operation : Operation) (c : Comment) :
    (HasPrefix (TrimSpace (TrimLeft c.Text (utf8 "//"))) (utf8 "@router") = true ∧
      parseLine env operation c =
        ParseRouterComment env operation (TrimSpace (TrimLeft c.Text (utf8 "//")))) ∨
    (HasPrefix (TrimSpace (TrimLeft c.Text (utf8 "//"))) (utf8 "@Title") = true ∧
      parseLine env operation c =
        ⟨{ operation with
            Nickname := TrimSpace ((TrimSpace (TrimLeft c.Text (utf8 "//"))).drop
              (utf8 "@Title").length) }, .nil⟩) ∨
    (HasPrefix (TrimSpace (TrimLeft c.Text (utf8 "//"))) (utf8 "@Description") = true ∧
      parseLine env operation c =
        ⟨{ operation with
            Summary := TrimSpace ((TrimSpace (TrimLeft c.Text (utf8 "//"))).drop
              (utf8 "@Description").length) }, .nil⟩) ∨
    (HasPrefix (TrimSpace (TrimLeft c.Text (utf8 "//"))) (utf8 "@Success") = true ∧
      parseLine env operation c =
        ParseSuccessComment env operation (TrimSpace (TrimLeft c.Text (utf8 "//")))) ∨
    (HasPrefix (TrimSpace (TrimLeft c.Text (utf8 "//"))) (utf8 "@Param") = true ∧
      parseLine env operation c =
        ParseParamComment env operation (TrimSpace (TrimLeft c.Text (utf8 "//")))) ∨
    (HasPrefix (TrimSpace (TrimLeft c.Text (utf8 "//"))) (utf8 "@Failure") = true ∧
      parseLine env operation c =
        ParseFailureComment env operation (TrimSpace (TrimLeft c.Text (utf8 "//")))) ∨
    (HasPrefix (TrimSpace (TrimLeft c.Text (utf8 "//"))) (utf8 "@Accept") = true ∧
      parseLine env operation c =
        ParseAcceptComment env operation (TrimSpace (TrimLeft c.Text (utf8 "//")))) ∨
    (unmatchedLine c = true ∧ parseLine env operation c = ⟨operation, .nil⟩) := by
  unfold parseLine unmatchedLine
  dsimp only
  by_cases h1 : HasPrefix (TrimSpace (TrimLeft c.Text (utf8 "//"))) (utf8 "@router") = true
  · left; exact ⟨h1, by rw [if_pos h1]⟩
  by_cases h2 : HasPrefix (TrimSpace (TrimLeft c.Text (utf8 "//"))) (utf8 "@Title") = true
  · right; left; exact ⟨h2, by rw [if_neg h1, if_pos h2]⟩
  by_cases h3 : HasPrefix (TrimSpace (TrimLeft c.Text (utf8 "//"))) (utf8 "@Description") = true
  · right; right; left; exact ⟨h3, by rw [if_neg h1, if_neg h2, if_pos h3]⟩
  by_cases h4 : HasPrefix (TrimSpace (TrimLeft c.Text (utf8 "//"))) (utf8 "@Success") = true
  · right; right; right; left; exact ⟨h4, by rw [if_neg h1, if_neg h2, if_neg h3, if_pos h4]⟩
  by_cases h5 : HasPrefix (TrimSpace (TrimLeft c.Text (utf8 "//"))) (utf8 "@Param") = true
  · right; right; right; right; left
    exact ⟨h5, by rw [if_neg h1, if_neg h2, if_neg h3, if_neg h4, if_pos h5]⟩
  by_cases h6 : HasPrefix (TrimSpace (TrimLeft c.Text (utf8 "//"))) (utf8 "@Failure") = true
  · right; right; right; right; right; left
    exact ⟨h6, by rw [if_neg h1, if_neg h2, if_neg h3, if_neg h4, if_neg h5, if_pos h6]⟩
  by_cases h7 : HasPrefix (TrimSpace (TrimLeft c.Text (utf8 "//"))) (utf8 "@Accept") = true
  · right; right; right; right; right; right; left
    exact ⟨h7, by
      rw [if_neg h1, if_neg h2, if_neg h3, if_neg h4, if_neg h5, if_neg h6, if_pos h7]⟩
  · right; right; right; right; right; right; right
    refine ⟨?_, by
      rw [if_neg h1, if_neg h2, if_neg h3, if_neg h4, if_neg h5, if_neg h6, if_neg h7]⟩
    simp only [Bool.not_eq_true] at h1 h2 h3 h4 h5 h6 h7
    simp [h1, h2, h3, h4, h5, h6, h7]

/-- A line on which the directive parser returns an error leaves the operation as it
was. -/
theorem parseLine_err (env : Env) (operation : Operation) (c : Comment) (e : GoError)
    (h : (parseLine env operation c).exit = .err e) :
    (parseLine env operation c).op = operation := by
  rcases parseLine_cases env operation c with
    ⟨_, h1⟩ | ⟨_, h1⟩ | ⟨_, h1⟩ | ⟨_, h1⟩ | ⟨_, h1⟩ | ⟨_, h1⟩ | ⟨_, h1⟩ | ⟨_, h1⟩ <;>
    rw [h1] at h ⊢
  · rcases ParseRouterComment_exit env operation
      (TrimSpace (TrimLeft c.Text (utf8 "//"))) with h2 | h2 <;> rw [h2] at h <;> simp at h
  · simp at h
  · simp at h
  · exact ParseSuccessComment_err _ _ _ e h
  · exact ParseParamComment_err _ _ _ e h
  · exact ParseFailureComment_err _ _ _ e h
  · exact absurd h (ParseAcceptComment_exit _ _ _ e)

/-- C13: `ParseComment` stops at the first line whose directive parser reports an
error.  For a block `pre ++ [bad] ++ post` such that the lines of `pre` are processed
without error, leading to the state `operation1`, and the directive parser reports the
error `e` on `bad`, `ParseComment` returns `e` and leaves the operation in the state
`operation1`; the lines of `post` play no part, whatever they are. -/
theorem ParseComment_fail_fast (env : Env) (operation operation1 : Operation)
    (pre post : List Comment) (bad : Comment) (e : GoError)
    (hpre : parseLines env operation pre = ⟨operation1, .nil⟩)
    (hbad : (parseLine env operation1 bad).exit = .err e) :
    ParseComment env operation (some ⟨some (pre ++ [bad] ++ post)⟩) = ⟨operation1, .err e⟩ := by
  have hop := parseLine_err env operation1 bad e hbad
  have hline : parseLine env operation1 bad = ⟨operation1, .err e⟩ := by
    rcases h : parseLine env operation1 bad with ⟨o, x⟩
    rw [h] at hop hbad
    simp only at hop hbad
    rw [hop, hbad]
  have hlines : parseLines env operation (pre ++ [bad] ++ post) = ⟨operation1, .err e⟩ := by
    rw [List.append_assoc, parseLines_append, hpre]
    simp only [List.singleton_append, parseLines, hline]
  simp only [ParseComment, hlines]

/-- C13, at the block `// @Title get pet`, `// @Failure abc`, `// @router /pets [get]`:
the error of the second line is returned and the `@router` line is not processed. -/
theorem ParseComment_fail_fast_witness :
    ParseComment sampleEnv (NewOperation none [])
        (some ⟨some ([⟨utf8 "// @Title get pet"⟩] ++ [⟨utf8 "// @Failure abc"⟩] ++
          [⟨utf8 "// @router /pets [get]"⟩])⟩) =
      ⟨{ NewOperation none [] with Nickname := utf8 "get pet" },
        .err (.failureError (utf8 "abc") .ErrSyntax)⟩ :=
  ParseComment_fail_fast sampleEnv (NewOperation none [])
    { NewOperation none [] with Nickname := utf8 "get pet" }
    [⟨utf8 "// @Title get pet"⟩] [⟨utf8 "// @router /pets [get]"⟩] ⟨utf8 "// @Failure abc"⟩
    (.failureError (utf8 "abc") .ErrSyntax) (by decide) (by decide)

/-- C14: a comment that starts with none of the seven tags is ignored: with or without
it, at any place of the block, `ParseComment` ends the same way and leaves the same
operation. -/
theorem ParseComment_ignores_unmatched (env : Env) (operation : Operation)
    (l1 l2 : List Comment) (c : Comment) (h : unmatchedLine c = true) :
    ParseComment env operation (some ⟨some (l1 ++ c :: l2)⟩) =
      ParseComment env operation (some ⟨some (l1 ++ l2)⟩) := by
  have hskip : ∀ o : Operation, parseLine env o c = ⟨o, .nil⟩ := by
    intro o
    simp only [unmatchedLine, Bool.and_eq_true, Bool.not_eq_true'] at h
    obtain ⟨⟨⟨⟨⟨⟨h1, h2⟩, h3⟩, h4⟩, h5⟩, h6⟩, h7⟩ := h
    simp only [parseLine, h1, h2, h3, h4, h5, h6, h7, Bool.false_eq_true, if_false]
  have hlines : parseLines env operation (l1 ++ c :: l2) = parseLines env operation (l1 ++ l2) := by
    rw [parseLines_append, parseLines_append]
    rcases parseLines env operation l1 with ⟨o, x⟩
    cases x with
    | nil => simp only [parseLines, hskip]
    | err e => rfl
    | panic q => rfl
  simp only [ParseComment, hlines]

/-- C14, at a plain comment between a `@Title` and a `@router` line. -/
theorem ParseComment_ignores_unmatched_witness :
    ParseComment sampleEnv (NewOperation none [])
        (some ⟨some ([⟨utf8 "// @Title get pet"⟩] ++
          ⟨utf8 "// returns one pet"⟩ :: [⟨utf8 "// @router /pets [get]"⟩])⟩) =
      ParseComment sampleEnv (NewOperation none [])
        (some ⟨some ([⟨utf8 "// @Title get pet"⟩] ++ [⟨utf8 "// @router /pets [get]"⟩])⟩) :=
  ParseComment_ignores_unmatched sampleEnv (NewOperation none [])
    [⟨utf8 "// @Title get pet"⟩] [⟨utf8 "// @router /pets [get]"⟩]
    ⟨utf8 "// returns one pet"⟩ (by decide)

/-! ## The order of two directive lines -/

theorem parseLine_lineTag (env : Env) (operation : Operation) (c : Comment) :
    parseLine env operation c =
      match lineTag c with
      | some .router =>
        ParseRouterComment env operation (TrimSpace (TrimLeft c.Text (utf8 "//")))
      | some .title =>
        ⟨{ operation with
            Nickname := TrimSpace ((TrimSpace (TrimLeft c.Text (utf8 "//"))).drop
              (utf8 "@Title").length) }, .nil⟩
      | some .description =>
        ⟨{ operation with
            Summary := TrimSpace ((TrimSpace (TrimLeft c.Text (utf8 "//"))).drop
              (utf8 "@Description").length) }, .nil⟩
      | some .success =>
        ParseSuccessComment env operation (TrimSpace (TrimLeft c.Text (utf8 "//")))
      | some .param =>
        ParseParamComment env operation (TrimSpace (TrimLeft c.Text (utf8 "//")))
      | some .failure =>
        ParseFailureComment env operation (TrimSpace (TrimLeft c.Text (utf8 "//")))
      | some .accept =>
        ParseAcceptComment env operation (TrimSpace (TrimLeft c.Text (utf8 "//")))
      | none => ⟨operation, .nil⟩ := by
  unfold parseLine lineTag
  dsimp only
  split_ifs <;> rfl

theorem Effect.apply_parser (f : Effect) (operation : Operation) :
    (f.apply operation).parser = operation.parser := rfl

theorem ParseParamComment_effect (env : Env) (line : GoString) :
    (∃ x, x ≠ Exit.nil ∧ ∀ operation, ParseParamComment env operation line = ⟨operation, x⟩) ∨
    (∃ f : Effect, f.within .param ∧
      ∀ operation, ParseParamComment env operation line = ⟨f.apply operation, .nil⟩) := by
  unfold ParseParamComment
  by_cases hlen : line.length < (utf8 "@Param ").length
  · left
    exact ⟨.panic (.sliceBounds (utf8 "@Param ").length line.length), by simp,
      fun operation => by rw [if_pos hlen]⟩
  · by_cases hm : (FindStringSubmatch paramRegex 5
        (TrimSpace (List.drop (utf8 "@Param ").length line))).length ≠ 6
    · left
      exact ⟨.err (.paramError (TrimSpace (List.drop (utf8 "@Param ").length line))),
        by simp, fun operation => by rw [if_neg hlen]; dsimp only; rw [if_pos hm]⟩
    · right
      refine ⟨{ Parameters := [
        { Name := (FindStringSubmatch paramRegex 5
            (TrimSpace (List.drop (utf8 "@Param ").length line))).getD 1 []
          ParamType := (FindStringSubmatch paramRegex 5
            (TrimSpace (List.drop (utf8 "@Param ").length line))).getD 2 []
          «Type» := (FindStringSubmatch paramRegex 5
            (TrimSpace (List.drop (utf8 "@Param ").length line))).getD 3 []
          DataType := (FindStringSubmatch paramRegex 5
            (TrimSpace (List.drop (utf8 "@Param ").length line))).getD 3 []
          Required := ToLower env.unicodeLower ((FindStringSubmatch paramRegex 5
            (TrimSpace (List.drop (utf8 "@Param ").length line))).getD 4 []) = utf8 "true"
          Description := (FindStringSubmatch paramRegex 5
            (TrimSpace (List.drop (utf8 "@Param ").length line))).getD 5 [] }] }, rfl,
        fun operation => ?_⟩
      rw [if_neg hlen]; dsimp only; rw [if_neg hm]
      simp [Effect.apply]

theorem ParseFailureComment_effect (env : Env) (line : GoString) :
    (∃ x, x ≠ Exit.nil ∧
      ∀ operation, ParseFailureComment env operation line = ⟨operation, x⟩) ∨
    (∃ f : Effect, f.within .failure ∧
      ∀ operation, ParseFailureComment env operation line = ⟨f.apply operation, .nil⟩) := by
  unfold ParseFailureComment
  by_cases hlen : line.length < (utf8 "@Failure").length
  · left
    exact ⟨.panic (.sliceBounds (utf8 "@Failure").length line.length), by simp,
      fun operation => by rw [if_pos hlen]⟩
  · rcases hfl : failureLoop (TrimSpace (List.drop (utf8 "@Failure").length line))
      (rangeString (TrimSpace (List.drop (utf8 "@Failure").length line))) [] false []
      with ⟨httpCode, message⟩
    rcases ha : Atoi env.IntSize (httpCode.flatMap encodeRune) with e1 | v
    · left
      refine ⟨.err (.failureError (httpCode.flatMap encodeRune) e1), by simp,
        fun operation => ?_⟩
      rw [if_neg hlen]; dsimp only; rw [hfl]; dsimp only; rw [ha]
    · right
      refine ⟨{ ResponseMessages := [{ Code := v, Message := message }] }, rfl,
        fun operation => ?_⟩
      rw [if_neg hlen]; dsimp only; rw [hfl]; dsimp only; rw [ha]
      simp [Effect.apply]

theorem ParseAcceptComment_effect (env : Env) (line : GoString) :
    (∃ x, x ≠ Exit.nil ∧
      ∀ operation, ParseAcceptComment env operation line = ⟨operation, x⟩) ∨
    (∃ f : Effect, f.within .accept ∧
      ∀ operation, ParseAcceptComment env operation line = ⟨f.apply operation, .nil⟩) := by
  unfold ParseAcceptComment
  by_cases hlen : line.length < (utf8 "@Accept").length
  · left
    exact ⟨.panic (.sliceBounds (utf8 "@Accept").length line.length), by simp,
      fun operation => by rw [if_pos hlen]⟩
  · right
    refine ⟨{ mimes := (Split (TrimSpace (TrimSpace (line.drop (utf8 "@Accept").length)))
      0x2C).filterMap (acceptMime env) }, rfl, fun operation => ?_⟩
    rw [if_neg hlen]; dsimp only; rw [foldl_acceptStep]
    simp [Effect.apply]

theorem successParts_effect (env : Env) (parts : List GoString) (pr : Option Parser) :
    (∃ x, x ≠ Exit.nil ∧
      ∀ operation, operation.parser = pr → successParts env operation parts = ⟨operation, x⟩) ∨
    (∃ f : Effect, f.within .success ∧
      ∀ operation, operation.parser = pr →
        successParts env operation parts = ⟨f.apply operation, .nil⟩) := by
  rcases parts with _ | ⟨part0, _ | ⟨part1, tail1⟩⟩
  · left; exact ⟨.panic (.indexOutOfRange 0 0), by simp, fun operation _ => rfl⟩
  · rcases ha : Atoi env.IntSize part0 with e | code
    · left
      exact ⟨.err (.errorsNew (utf8 "Success http code must be int")), by simp,
        fun operation _ => by simp only [successParts, ha]⟩
    · left
      exact ⟨.panic (.indexOutOfRange 1 1), by simp,
        fun operation _ => by simp only [successParts, ha]⟩
  · rcases ha : Atoi env.IntSize part0 with e | code
    · left
      exact ⟨.err (.errorsNew (utf8 "Success http code must be int")), by simp,
        fun operation _ => by simp only [successParts, ha]⟩
    · by_cases hlit : part1 = utf8 "{object}" ∨ part1 = utf8 "{array}"
      · rcases tail1 with _ | ⟨part2, tail2⟩
        · left
          exact ⟨.err (.errorsNew
            (utf8 "Success annotation error: object type must be specified")), by simp,
            fun operation _ => by simp only [successParts, ha, if_pos hlit]⟩
        · rcases pr with _ | parser
          · left
            exact ⟨.panic .nilDereference, by simp,
              fun operation hp => by simp only [successParts, ha, if_pos hlit, hp]⟩
          · rcases hr : env.ParseModel parser part2 parser.CurrentPackage with
              e | ⟨model, ms⟩
            · left
              exact ⟨.err e, by simp,
                fun operation hp => by simp only [successParts, ha, if_pos hlit, hp, hr]⟩
            · right
              by_cases harr : part1 = utf8 "{array}"
              · by_cases hb : env.IsBasicType model.Id = true
                · refine ⟨{ «Type» := some (utf8 "array")
                            Items := some { «Type» := model.Id }
                            ResponseMessages := [{ Code := code, ResponseModel := model.Id }]
                            models := [model] ++ ms }, rfl, fun operation hp => ?_⟩
                  simp only [successParts, ha, if_pos hlit, hp, hr, if_pos harr]
                  simp [Effect.apply, SetItemsType, hb, hp]
                · refine ⟨{ «Type» := some (utf8 "array")
                            Items := some { Ref := model.Id }
                            ResponseMessages := [{ Code := code, ResponseModel := model.Id }]
                            models := [model] ++ ms }, rfl, fun operation hp => ?_⟩
                  simp only [successParts, ha, if_pos hlit, hp, hr, if_pos harr]
                  simp [Effect.apply, SetItemsType, hb, hp]
              · refine ⟨{ «Type» := some model.Id
                          ResponseMessages := [{ Code := code, ResponseModel := model.Id }]
                          models := [model] ++ ms }, rfl, fun operation hp => ?_⟩
                simp only [successParts, ha, if_pos hlit, hp, hr, if_neg harr]
                simp [Effect.apply, hp]
      · rcases tail1 with _ | ⟨part2, tail2⟩
        · left
          exact ⟨.panic (.indexOutOfRange 2 2), by simp,
            fun operation _ => by simp only [successParts, ha, if_neg hlit]⟩
        · right
          refine ⟨{ ResponseMessages := [{ Code := code, Message := part2 }] }, rfl,
            fun operation _ => ?_⟩
          simp only [successParts, ha, if_neg hlit]
          simp [Effect.apply]

theorem ParseSuccessComment_effect (env : Env) (line : GoString) (pr : Option Parser) :
    (∃ x, x ≠ Exit.nil ∧ ∀ operation, operation.parser = pr →
      ParseSuccessComment env operation line = ⟨operation, x⟩) ∨
    (∃ f : Effect, f.within .success ∧
      ∀ operation, operation.parser = pr →
        ParseSuccessComment env operation line = ⟨f.apply operation, .nil⟩) := by
  unfold ParseSuccessComment
  by_cases hlen : line.length < (utf8 "@Success").length
  · left
    exact ⟨.panic (.sliceBounds (utf8 "@Success").length line.length), by simp,
      fun operation _ => by rw [if_pos hlen]⟩
  · rcases successParts_effect env ((Split (TrimSpace (line.drop (utf8 "@Success").length))
      0x20).filter fun paramPart => paramPart ≠ []) pr with ⟨x, hx, h⟩ | ⟨f, hf, h⟩
    · left
      exact ⟨x, hx, fun operation hp => by rw [if_neg hlen]; exact h operation hp⟩
    · right
      exact ⟨f, hf, fun operation hp => by rw [if_neg hlen]; exact h operation hp⟩

/-- A line that carries a tag other than `@router` either ends with the same error or
panic on every operation (with a given `parser`) and leaves it as it is, or returns
`nil` on every one and has an effect within the fields of its tag. -/
theorem parseLine_effect (env : Env) (c : Comment) (t : Tag) (pr : Option Parser)
    (ht : lineTag c = some t) (hr : t ≠ .router) :
    (∃ x, x ≠ Exit.nil ∧ ∀ operation, operation.parser = pr →
      parseLine env operation c = ⟨operation, x⟩) ∨
    (∃ f : Effect, f.within t ∧
      ∀ operation, operation.parser = pr →
        parseLine env operation c = ⟨f.apply operation, .nil⟩) := by
  cases t with
  | router => exact absurd rfl hr
  | title =>
    right
    refine ⟨{ Nickname := some (TrimSpace ((TrimSpace (TrimLeft c.Text (utf8 "//"))).drop
      (utf8 "@Title").length)) }, rfl, fun operation _ => ?_⟩
    rw [parseLine_lineTag, ht]
    simp [Effect.apply]
  | description =>
    right
    refine ⟨{ Summary := some (TrimSpace ((TrimSpace (TrimLeft c.Text (utf8 "//"))).drop
      (utf8 "@Description").length)) }, rfl, fun operation _ => ?_⟩
    rw [parseLine_lineTag, ht]
    simp [Effect.apply]
  | success =>
    rcases ParseSuccessComment_effect env (TrimSpace (TrimLeft c.Text (utf8 "//"))) pr with
      ⟨x, hx, h⟩ | ⟨f, hf, h⟩
    · left
      exact ⟨x, hx, fun operation hp => by rw [parseLine_lineTag, ht]; exact h operation hp⟩
    · right
      exact ⟨f, hf, fun operation hp => by rw [parseLine_lineTag, ht]; exact h operation hp⟩
  | param =>
    rcases ParseParamComment_effect env (TrimSpace (TrimLeft c.Text (utf8 "//"))) with
      ⟨x, hx, h⟩ | ⟨f, hf, h⟩
    · left
      exact ⟨x, hx, fun operation _ => by rw [parseLine_lineTag, ht]; exact h operation⟩
    · right
      exact ⟨f, hf, fun operation _ => by rw [parseLine_lineTag, ht]; exact h operation⟩
  | failure =>
    rcases ParseFailureComment_effect env (TrimSpace (TrimLeft c.Text (utf8 "//"))) with
      ⟨x, hx, h⟩ | ⟨f, hf, h⟩
    · left
      exact ⟨x, hx, fun operation _ => by rw [parseLine_lineTag, ht]; exact h operation⟩
    · right
      exact ⟨f, hf, fun operation _ => by rw [parseLine_lineTag, ht]; exact h operation⟩
  | accept =>
    rcases ParseAcceptComment_effect env (TrimSpace (TrimLeft c.Text (utf8 "//"))) with
      ⟨x, hx, h⟩ | ⟨f, hf, h⟩
    · left
      exact ⟨x, hx, fun operation _ => by rw [parseLine_lineTag, ht]; exact h operation⟩
    · right
      exact ⟨f, hf, fun operation _ => by rw [parseLine_lineTag, ht]; exact h operation⟩

/-- Effects within the fields of two different tags, other than the pair `@Success` and
`@Failure`, commute. -/
theorem Effect.apply_comm (f1 f2 : Effect) (t1 t2 : Tag) (h1 : f1.within t1)
    (h2 : f2.within t2) (hne : t1 ≠ t2)
    (hsf : ¬(t1 = .success ∧ t2 = .failure)) (hfs : ¬(t1 = .failure ∧ t2 = .success))
    (operation : Operation) :
    f2.apply (f1.apply operation) = f1.apply (f2.apply operation) := by
  cases t1 <;> cases t2 <;>
    first
    | exact absurd rfl hne
    | (exfalso; apply hsf; constructor <;> rfl)
    | (exfalso; apply hfs; constructor <;> rfl)
    | exact h1.elim
    | exact h2.elim
    | (simp only [Effect.within] at h1 h2
       rw [h1, h2]
       simp [Effect.apply])

/-- C15 (as amended): two comment lines that carry different tags among `@Title`,
`@Description`, `@Success`, `@Param`, `@Failure` and `@Accept`, other than an `@Success`
line paired with an `@Failure` line, and that both parse without error on an operation,
also parse without error one after the other in either order, and both orders leave the
same operation: the loop of `ParseComment` ends in the same way on the two-line blocks
`c1, c2` and `c2, c1`. -/
theorem parseLine_order_independent (env : Env) (operation : Operation) (c1 c2 : Comment)
    (t1 t2 : Tag) (h1 : lineTag c1 = some t1) (h2 : lineTag c2 = some t2)
    (hne : t1 ≠ t2) (hr1 : t1 ≠ .router) (hr2 : t2 ≠ .router)
    (hsf : ¬(t1 = .success ∧ t2 = .failure)) (hfs : ¬(t1 = .failure ∧ t2 = .success))
    (e1 : (parseLine env operation c1).exit = .nil)
    (e2 : (parseLine env operation c2).exit = .nil) :
    (parseLine env (parseLine env operation c1).op c2).exit = .nil ∧
    (parseLine env (parseLine env operation c2).op c1).exit = .nil ∧
    (parseLine env (parseLine env operation c1).op c2).op =
      (parseLine env (parseLine env operation c2).op c1).op ∧
    parseLines env operation [c1, c2] = parseLines env operation [c2, c1] ∧
    ParseComment env operation (some ⟨some [c1, c2]⟩) =
      ParseComment env operation (some ⟨some [c2, c1]⟩) := by
  rcases parseLine_effect env c1 t1 operation.parser h1 hr1 with ⟨x, hx, ha⟩ | ⟨f1, w1, ha⟩
  · rw [ha operation rfl] at e1
    exact absurd e1 hx
  rcases parseLine_effect env c2 t2 operation.parser h2 hr2 with ⟨x, hx, hb⟩ | ⟨f2, w2, hb⟩
  · rw [hb operation rfl] at e2
    exact absurd e2 hx
  have k1 : parseLine env operation c1 = ⟨f1.apply operation, .nil⟩ := ha operation rfl
  have k2 : parseLine env operation c2 = ⟨f2.apply operation, .nil⟩ := hb operation rfl
  have k12 : parseLine env (f1.apply operation) c2 = ⟨f2.apply (f1.apply operation), .nil⟩ :=
    hb _ rfl
  have k21 : parseLine env (f2.apply operation) c1 = ⟨f2.apply (f1.apply operation), .nil⟩ := by
    rw [ha (f2.apply operation) rfl, Effect.apply_comm f1 f2 t1 t2 w1 w2 hne hsf hfs]
  have kl : parseLines env operation [c1, c2] = parseLines env operation [c2, c1] := by
    simp only [parseLines, k1, k2, k12, k21]
  refine ⟨?_, ?_, ?_, kl, ?_⟩
  · rw [k1, k12]
  · rw [k2, k21]
  · rw [k1, k2, k12, k21]
  · simp only [ParseComment, kl]

theorem parseLine_order_independent_witness :
    lineTag ⟨utf8 "// @Title getPet"⟩ = some .title ∧
    lineTag ⟨utf8 "// @Accept json"⟩ = some .accept ∧
    (parseLine sampleEnv (NewOperation none []) ⟨utf8 "// @Title getPet"⟩).exit = .nil ∧
    (parseLine sampleEnv (NewOperation none []) ⟨utf8 "// @Accept json"⟩).exit = .nil ∧
    parseLines sampleEnv (NewOperation none [])
        [⟨utf8 "// @Title getPet"⟩, ⟨utf8 "// @Accept json"⟩] =
      parseLines sampleEnv (NewOperation none [])
        [⟨utf8 "// @Accept json"⟩, ⟨utf8 "// @Title getPet"⟩] :=
  ⟨by decide, by decide, by decide, by decide,
    (parseLine_order_independent sampleEnv (NewOperation none [])
      ⟨utf8 "// @Title getPet"⟩ ⟨utf8 "// @Accept json"⟩ .title .accept
      (by decide) (by decide) (by decide) (by decide) (by decide) (by decide) (by decide)
      (by decide) (by decide)).2.2.2.1⟩

/-- C15 (as stated) fails: an `@Success` line and an `@Failure` line both parse without
error and both append to `ResponseMessages`, so the two orders leave the two responses
in different orders. -/
theorem parseLine_success_failure_order :
    lineTag ⟨utf8 "// @Success 200 OK fine"⟩ = some .success ∧
    lineTag ⟨utf8 "// @Failure 404 missing"⟩ = some .failure ∧
    (parseLine sampleEnv (NewOperation none []) ⟨utf8 "// @Success 200 OK fine"⟩).exit = .nil ∧
    (parseLine sampleEnv (NewOperation none []) ⟨utf8 "// @Failure 404 missing"⟩).exit = .nil ∧
    parseLine sampleEnv
        (parseLine sampleEnv (NewOperation none []) ⟨utf8 "// @Success 200 OK fine"⟩).op
        ⟨utf8 "// @Failure 404 missing"⟩ =
      ⟨{ NewOperation none [] with
          ResponseMessages := [{ Code := 200, Message := utf8 "fine" },
            { Code := 404, Message := utf8 "missing" }] }, .nil⟩ ∧
    parseLine sampleEnv
        (parseLine sampleEnv (NewOperation none []) ⟨utf8 "// @Failure 404 missing"⟩).op
        ⟨utf8 "// @Success 200 OK fine"⟩ =
      ⟨{ NewOperation none [] with
          ResponseMessages := [{ Code := 404, Message := utf8 "missing" },
            { Code := 200, Message := utf8 "fine" }] }, .nil⟩ ∧
    (parseLine sampleEnv
        (parseLine sampleEnv (NewOperation none []) ⟨utf8 "// @Success 200 OK fine"⟩).op
        ⟨utf8 "// @Failure 404 missing"⟩).op.ResponseMessages ≠
      (parseLine sampleEnv
        (parseLine sampleEnv (NewOperation none []) ⟨utf8 "// @Failure 404 missing"⟩).op
        ⟨utf8 "// @Success 200 OK fine"⟩).op.ResponseMessages := by
  refine ⟨by decide, by decide, by decide, by decide, by decide, by decide, by decide⟩

/-! ## Lines that make a directive parser panic or lose the method -/

/-- C16 (what the code does): `ParseSuccessComment` reads `parts[0]`, `parts[1]` and,
outside the `{object}`/`{array}` branch, `parts[2]` without testing the length of
`parts`: the lines `@Success`, `@Success 200` and `@Success 200 OK` end in an
index-out-of-range panic, not in a returned error. -/
theorem ParseSuccessComment_short_line_panics :
    (∀ (env : Env) (operation : Operation),
      ParseSuccessComment env operation (utf8 "@Success") =
        ⟨operation, .panic (.indexOutOfRange 0 0)⟩) ∧
    ParseSuccessComment sampleEnv (NewOperation (some {}) []) (utf8 "@Success 200") =
      ⟨NewOperation (some {}) [], .panic (.indexOutOfRange 1 1)⟩ ∧
    ParseSuccessComment sampleEnv (NewOperation (some {}) []) (utf8 "@Success 200 OK") =
      ⟨NewOperation (some {}) [], .panic (.indexOutOfRange 2 2)⟩ := by
  refine ⟨?_, by decide, by decide⟩
  intro env operation
  have e1 : utf8 "@Success" = utf8 "@Success" ++ [] := by simp
  have e2 : (Split (TrimSpace []) 0x20).filter (fun paramPart => paramPart ≠ []) = [] := by
    decide
  rw [e1, ParseSuccessComment_unfold, e2]
  rfl

/-- C17 (what the code does): `ParseComment` sends every trimmed line that starts with
`@Param` to `ParseParamComment`, which slices the line at `len("@Param ")`, one more than
the length of the tag: on the bare line `@Param` the slice `[7:]` of a string of length 6
panics, and so does `ParseComment` on the block `// @Param`.  On a line of at least
seven bytes the call does not panic. -/
theorem ParseParamComment_bare_tag_panics :
    HasPrefix (utf8 "@Param") (utf8 "@Param") = true ∧
    (∀ (env : Env) (operation : Operation),
      ParseParamComment env operation (utf8 "@Param") =
        ⟨operation, .panic (.sliceBounds 7 6)⟩) ∧
    ParseComment sampleEnv (NewOperation none []) (commentGroup [utf8 "// @Param"]) =
      ⟨NewOperation none [], .panic (.sliceBounds 7 6)⟩ ∧
    (∀ (env : Env) (operation : Operation) (line : GoString) (q : GoPanic),
      7 ≤ line.length → (ParseParamComment env operation line).exit ≠ .panic q) := by
  refine ⟨by decide, ?_, by decide, ?_⟩
  · intro env operation
    have h : (utf8 "@Param").length < (utf8 "@Param ").length := by decide
    rw [ParseParamComment, if_pos h]
    rfl
  · intro env operation line q hlen
    have h7 : (utf8 "@Param ").length = 7 := by decide
    have h : ¬ line.length < (utf8 "@Param ").length := by rw [h7]; omega
    rw [ParseParamComment, if_neg h]
    dsimp only
    by_cases hm : (FindStringSubmatch paramRegex 5
        (TrimSpace (List.drop (utf8 "@Param ").length line))).length ≠ 6
    · rw [if_pos hm]; simp
    · rw [if_neg hm]; simp

/-- C18 (what the code does): when the path and the bracketed method are separated by two
spaces, or when the brackets are empty, `ParseRouterComment` returns `nil` with an empty
`HttpMethod`: neither `GET` nor the upper-cased method. -/
theorem ParseRouterComment_empty_method (env : Env) (operation : Operation) :
    ParseRouterComment env operation (utf8 "@router /x  [post]") =
      ⟨{ operation with Path := utf8 "/x", HttpMethod := [] }, .nil⟩ ∧
    ParseRouterComment env operation (utf8 "@router /x []") =
      ⟨{ operation with Path := utf8 "/x", HttpMethod := [] }, .nil⟩ := by
  have hup : ToUpper env.unicodeUpper [] = [] := rfl
  constructor
  · have e1 : utf8 "@router /x  [post]" = utf8 "@router" ++ utf8 " /x  [post]" := by decide
    have e2 : SplitN2 (TrimSpace (utf8 " /x  [post]")) 0x20 = [utf8 "/x", utf8 " [post]"] := by
      decide
    have e3 : SplitN2 (utf8 " [post]") 0x20 = [[], utf8 "[post]"] := by decide
    have e4 : Trim [] (utf8 "[]") = [] := by decide
    have e5 : utf8 " [post]" ≠ [] := by decide
    rw [e1, ParseRouterComment_unfold, e2]
    simp only [List.length_cons, List.length_nil, List.getD_cons_succ, List.getD_cons_zero,
      e3, e4, e5, hup, ne_eq, not_false_eq_true, and_self, if_true]
  · have e1 : utf8 "@router /x []" = utf8 "@router" ++ utf8 " /x []" := by decide
    have e2 : SplitN2 (TrimSpace (utf8 " /x []")) 0x20 = [utf8 "/x", utf8 "[]"] := by decide
    have e3 : SplitN2 (utf8 "[]") 0x20 = [utf8 "[]"] := by decide
    have e4 : Trim (utf8 "[]") (utf8 "[]") = [] := by decide
    have e5 : utf8 "[]" ≠ [] := by decide
    rw [e1, ParseRouterComment_unfold, e2]
    simp only [List.length_cons, List.length_nil, List.getD_cons_succ, List.getD_cons_zero,
      e3, e4, e5, hup, ne_eq, not_false_eq_true, and_self, if_true]

/-! ## Models of basic types, and `Consumes` / `Produces` -/

theorem successParts_models (env : Env) (operation : Operation) (code : Int)
    (a lit t : GoString) (ha : Atoi env.IntSize a = .ok code)
    (hlit : lit = utf8 "{object}" ∨ lit = utf8 "{array}")
    (hnil : (successParts env operation [a, lit, t]).exit = .nil) :
    ∃ (model : Model) (ms : List Model),
      (successParts env operation [a, lit, t]).op.models = operation.models ++ [model] ++ ms := by
  rcases hp : operation.parser with _ | parser
  · have h : successParts env operation [a, lit, t] = ⟨operation, .panic .nilDereference⟩ := by
      simp only [successParts, ha, if_pos hlit, hp]
    rw [h] at hnil
    exact absurd hnil (by simp)
  · rcases hr : env.ParseModel parser t parser.CurrentPackage with e | ⟨model, ms⟩
    · have h : successParts env operation [a, lit, t] = ⟨operation, .err e⟩ := by
        simp only [successParts, ha, if_pos hlit, hp, hr]
      rw [h] at hnil
      exact absurd hnil (by simp)
    · refine ⟨model, ms, ?_⟩
      simp only [successParts, ha, if_pos hlit, hp, hr]
      by_cases harr : lit = utf8 "{array}"
      · rw [if_pos harr]
        by_cases hb : env.IsBasicType model.Id = true
        · simp [SetItemsType, hb]
        · simp [SetItemsType, hb]
      · rw [if_neg harr]

/-- C19 (what the code does), with `Model.ParseModel` as the spec describes it (no
error and no inner model for a primitive type name): for every status code `c` in the
range of `int` and every basic type token `t`, `ParseSuccessComment` on
`@Success c {object} t` and on `@Success c {array} t` returns `nil` and appends a model
named `t` to the models of the operation, which are therefore not unchanged.  The append
does not depend on the resolver: with any resolver at all, whenever the call returns
`nil` on such a line the models have grown by the model of the resolver and its inner
models, because the code has no test of `IsBasicType` before the append. -/
theorem ParseSuccessComment_basic_type_model (env : Env)
    (resolveComposite : Parser → GoString → GoString → Except GoError (Model × List Model))
    (operation : Operation) (parser : Parser) (c : Int) (t : GoString)
    (hw : 0 < env.IntSize) (hlo : -(2 ^ (env.IntSize - 1) : Int) ≤ c)
    (hhi : c < (2 ^ (env.IntSize - 1) : Int))
    (ht : t ≠ []) (htw : ∀ x ∈ segs t, spaceSeg x = false)
    (hp : operation.parser = some parser) (hb : env.IsBasicType t = true) :
    ParseSuccessComment { env with ParseModel := specParseModel env.IsBasicType resolveComposite }
        operation (utf8 "@Success " ++ Itoa c ++ utf8 " {object} " ++ t) =
      ⟨{ operation with
          «Type» := t
          models := operation.models ++ [{ Id := t }]
          ResponseMessages := operation.ResponseMessages ++
            [{ Code := c, ResponseModel := t, Message := [] }] }, .nil⟩ ∧
    ParseSuccessComment { env with ParseModel := specParseModel env.IsBasicType resolveComposite }
        operation (utf8 "@Success " ++ Itoa c ++ utf8 " {array} " ++ t) =
      ⟨{ operation with
          «Type» := utf8 "array"
          Items := { «Type» := t, Ref := [] }
          models := operation.models ++ [{ Id := t }]
          ResponseMessages := operation.ResponseMessages ++
            [{ Code := c, ResponseModel := t, Message := [] }] }, .nil⟩ ∧
    operation.models ++ [({ Id := t } : Model)] ≠ operation.models ∧
    ∀ (resolver : Parser → GoString → GoString → Except GoError (Model × List Model))
      (lit : GoString), lit = utf8 "{object}" ∨ lit = utf8 "{array}" →
      (ParseSuccessComment { env with ParseModel := resolver } operation
        (utf8 "@Success " ++ Itoa c ++ ([0x20] ++ lit ++ [0x20]) ++ t)).exit = .nil →
      ∃ (model : Model) (ms : List Model),
        (ParseSuccessComment { env with ParseModel := resolver } operation
          (utf8 "@Success " ++ Itoa c ++ ([0x20] ++ lit ++ [0x20]) ++ t)).op.models =
          operation.models ++ [model] ++ ms := by
  have e1 : utf8 " {object} " = [0x20] ++ utf8 "{object}" ++ [0x20] := by decide
  have e2 : utf8 " {array} " = [0x20] ++ utf8 "{array}" ++ [0x20] := by decide
  refine ⟨?_, ?_, ?_, ?_⟩
  · rw [e1, success_line, ParseSuccessComment_unfold,
      success_parts c (utf8 "{object}") t (by decide) (by decide) ht htw]
    simp only [successParts, Atoi_Itoa _ c hw hlo hhi, hp, specParseModel, hb, true_or, if_true,
      (by decide : utf8 "{object}" ≠ utf8 "{array}"), if_false, List.append_nil]
  · rw [e2, success_line, ParseSuccessComment_unfold,
      success_parts c (utf8 "{array}") t (by decide) (by decide) ht htw]
    simp only [successParts, Atoi_Itoa _ c hw hlo hhi, hp, specParseModel, hb, or_true, if_true,
      SetItemsType, List.append_nil]
  · intro h
    have := congrArg List.length h
    simp at this
  · intro resolver lit hlit hnil
    have hl : lit ≠ [] ∧ ∀ b ∈ lit, b < 0x80 ∧ IsSpace b = false := by
      rcases hlit with rfl | rfl <;> exact ⟨by decide, by decide⟩
    rw [success_line, ParseSuccessComment_unfold, success_parts c lit t hl.1 hl.2 ht htw] at hnil ⊢
    exact successParts_models _ operation c (Itoa c) lit t (Atoi_Itoa _ c hw hlo hhi) hlit hnil

/-- C19, at `@Success 200 {object} int` and `@Success 200 {array} int`, with `int` a basic
type: a model named `int` is appended. -/
theorem ParseSuccessComment_basic_type_model_witness :
    sampleEnv.IsBasicType (utf8 "int") = true ∧
    ParseSuccessComment
        { sampleEnv with
          ParseModel := specParseModel sampleEnv.IsBasicType fun _ _ _ => .error (.foreign 0) }
        (NewOperation (some {}) []) (utf8 "@Success " ++ Itoa 200 ++ utf8 " {object} " ++ utf8 "int") =
      ⟨{ NewOperation (some {}) [] with
          «Type» := utf8 "int"
          models := [{ Id := utf8 "int" }]
          ResponseMessages := [{ Code := 200, ResponseModel := utf8 "int", Message := [] }] },
        .nil⟩ ∧
    ParseSuccessComment
        { sampleEnv with
          ParseModel := specParseModel sampleEnv.IsBasicType fun _ _ _ => .error (.foreign 0) }
        (NewOperation (some {}) []) (utf8 "@Success " ++ Itoa 200 ++ utf8 " {array} " ++ utf8 "int") =
      ⟨{ NewOperation (some {}) [] with
          «Type» := utf8 "array"
          Items := { «Type» := utf8 "int", Ref := [] }
          models := [{ Id := utf8 "int" }]
          ResponseMessages := [{ Code := 200, ResponseModel := utf8 "int", Message := [] }] },
        .nil⟩ :=
  ⟨by decide,
    (ParseSuccessComment_basic_type_model sampleEnv (fun _ _ _ => .error (.foreign 0))
      (NewOperation (some {}) []) {} 200 (utf8 "int") (by decide) (by decide) (by decide)
      (by decide) (by decide) rfl (by decide)).1,
    (ParseSuccessComment_basic_type_model sampleEnv (fun _ _ _ => .error (.foreign 0))
      (NewOperation (some {}) []) {} 200 (utf8 "int") (by decide) (by decide) (by decide)
      (by decide) (by decide) rfl (by decide)).2.1⟩

theorem ParseParamComment_Consumes (env : Env) (operation : Operation) (line : GoString) :
    (ParseParamComment env operation line).op.Consumes = operation.Consumes ∧
    (ParseParamComment env operation line).op.Produces = operation.Produces := by
  unfold ParseParamComment
  by_cases hlen : line.length < (utf8 "@Param ").length
  · rw [if_pos hlen]; exact ⟨rfl, rfl⟩
  · rw [if_neg hlen]
    dsimp only
    by_cases hm : (FindStringSubmatch paramRegex 5
        (TrimSpace (List.drop (utf8 "@Param ").length line))).length ≠ 6
    · rw [if_pos hm]; exact ⟨rfl, rfl⟩
    · rw [if_neg hm]; exact ⟨rfl, rfl⟩

theorem ParseFailureComment_Consumes (env : Env) (operation : Operation) (line : GoString) :
    (ParseFailureComment env operation line).op.Consumes = operation.Consumes ∧
    (ParseFailureComment env operation line).op.Produces = operation.Produces := by
  unfold ParseFailureComment
  by_cases hlen : line.length < (utf8 "@Failure").length
  · rw [if_pos hlen]; exact ⟨rfl, rfl⟩
  · rw [if_neg hlen]
    dsimp only
    rcases failureLoop (TrimSpace (List.drop (utf8 "@Failure").length line))
      (rangeString (TrimSpace (List.drop (utf8 "@Failure").length line))) [] false []
      with ⟨httpCode, message⟩
    dsimp only
    rcases Atoi env.IntSize (httpCode.flatMap encodeRune) with e1 | v <;> exact ⟨rfl, rfl⟩

theorem successParts_Consumes (env : Env) (operation : Operation) (parts : List GoString) :
    (successParts env operation parts).op.Consumes = operation.Consumes ∧
    (successParts env operation parts).op.Produces = operation.Produces := by
  unfold successParts
  repeat' split
  all_goals first | exact ⟨rfl, rfl⟩ | (simp only [SetItemsType]; split_ifs <;> exact ⟨rfl, rfl⟩)

theorem ParseSuccessComment_Consumes (env : Env) (operation : Operation) (line : GoString) :
    (ParseSuccessComment env operation line).op.Consumes = operation.Consumes ∧
    (ParseSuccessComment env operation line).op.Produces = operation.Produces := by
  unfold ParseSuccessComment
  by_cases hlen : line.length < (utf8 "@Success").length
  · rw [if_pos hlen]; exact ⟨rfl, rfl⟩
  · rw [if_neg hlen]; exact successParts_Consumes _ _ _

theorem ParseRouterComment_Consumes (env : Env) (operation : Operation) (line : GoString) :
    (ParseRouterComment env operation line).op.Consumes = operation.Consumes ∧
    (ParseRouterComment env operation line).op.Produces = operation.Produces := by
  unfold ParseRouterComment
  by_cases hlen : line.length < (utf8 "@router").length
  · rw [if_pos hlen]; exact ⟨rfl, rfl⟩
  · rw [if_neg hlen]
    dsimp only
    split_ifs <;> exact ⟨rfl, rfl⟩

theorem ParseAcceptComment_Consumes (env : Env) (operation : Operation) (line : GoString)
    (h : operation.Consumes = operation.Produces) :
    (ParseAcceptComment env operation line).op.Consumes =
      (ParseAcceptComment env operation line).op.Produces := by
  unfold ParseAcceptComment
  by_cases hlen : line.length < (utf8 "@Accept").length
  · rw [if_pos hlen]; exact h
  · rw [if_neg hlen]
    dsimp only
    rw [foldl_acceptStep]
    simp only [h]

theorem applyCall_Consumes (env : Env) (operation : Operation) (call : Call)
    (h : operation.Consumes = operation.Produces) :
    (applyCall env operation call).Consumes = (applyCall env operation call).Produces := by
  cases call with
  | accept l => exact ParseAcceptComment_Consumes env operation l h
  | router l =>
    rw [applyCall, (ParseRouterComment_Consumes env operation l).1,
      (ParseRouterComment_Consumes env operation l).2, h]
  | param l =>
    rw [applyCall, (ParseParamComment_Consumes env operation l).1,
      (ParseParamComment_Consumes env operation l).2, h]
  | failure l =>
    rw [applyCall, (ParseFailureComment_Consumes env operation l).1,
      (ParseFailureComment_Consumes env operation l).2, h]
  | success l =>
    rw [applyCall, (ParseSuccessComment_Consumes env operation l).1,
      (ParseSuccessComment_Consumes env operation l).2, h]

theorem runCalls_Consumes (env : Env) (calls : List Call) :
    ∀ operation : Operation, operation.Consumes = operation.Produces →
    (runCalls env operation calls).Consumes = (runCalls env operation calls).Produces := by
  induction calls with
  | nil => intro operation h; exact h
  | cons call calls ih =>
    intro operation h
    exact ih _ (applyCall_Consumes env operation call h)

theorem parseLine_Consumes (env : Env) (operation : Operation) (c : Comment)
    (h : operation.Consumes = operation.Produces) :
    (parseLine env operation c).op.Consumes = (parseLine env operation c).op.Produces := by
  rcases parseLine_cases env operation c with
    ⟨_, h1⟩ | ⟨_, h1⟩ | ⟨_, h1⟩ | ⟨_, h1⟩ | ⟨_, h1⟩ | ⟨_, h1⟩ | ⟨_, h1⟩ | ⟨_, h1⟩ <;>
    rw [h1]
  · rw [(ParseRouterComment_Consumes env operation _).1,
      (ParseRouterComment_Consumes env operation _).2, h]
  · exact h
  · exact h
  · rw [(ParseSuccessComment_Consumes env operation _).1,
      (ParseSuccessComment_Consumes env operation _).2, h]
  · rw [(ParseParamComment_Consumes env operation _).1,
      (ParseParamComment_Consumes env operation _).2, h]
  · rw [(ParseFailureComment_Consumes env operation _).1,
      (ParseFailureComment_Consumes env operation _).2, h]
  · exact ParseAcceptComment_Consumes env operation _ h
  · exact h

theorem parseLines_Consumes (env : Env) (list : List Comment) :
    ∀ operation : Operation, operation.Consumes = operation.Produces →
    (parseLines env operation list).op.Consumes = (parseLines env operation list).op.Produces := by
  induction list with
  | nil => intro operation h; exact h
  | cons c list ih =>
    intro operation h
    have hc := parseLine_Consumes env operation c h
    rw [parseLines]
    rcases hout : parseLine env operation c with ⟨o, e⟩
    rw [hout] at hc
    cases e with
    | nil => exact ih o hc
    | err e => exact hc
    | panic q => exact hc

/-- C20: `Consumes` and `Produces` stay equal.  For an operation made by `NewOperation`,
after any sequence of calls of `ParseAcceptComment`, `ParseRouterComment`,
`ParseParamComment`, `ParseFailureComment` and `ParseSuccessComment`, however each call
ends, and after `ParseComment` on any comment block, successful or not, the two lists
are the same. -/
theorem Consumes_eq_Produces (env : Env) (p : Option Parser) (packageName : GoString) :
    (∀ calls : List Call,
      (runCalls env (NewOperation p packageName) calls).Consumes =
        (runCalls env (NewOperation p packageName) calls).Produces) ∧
    (∀ commentList : Option CommentGroup,
      (ParseComment env (NewOperation p packageName) commentList).op.Consumes =
        (ParseComment env (NewOperation p packageName) commentList).op.Produces) := by
  constructor
  · intro calls
    exact runCalls_Consumes env calls _ rfl
  · intro commentList
    rcases commentList with _ | ⟨_ | list⟩
    · rfl
    · rfl
    · have h := parseLines_Consumes env list (NewOperation p packageName) rfl
      rcases hout : parseLines env (NewOperation p packageName) list with ⟨o, e⟩
      rw [hout] at h
      cases e with
      | nil =>
        by_cases hp : o.Path = []
        · simpa [ParseComment, hout, hp] using h
        · simpa [ParseComment, hout, hp] using h
      | err e => simpa [ParseComment, hout] using h
      | panic q => simpa [ParseComment, hout] using h

end Swagger
